import Mathlib

/-!
Imago: scalar clustering, template matching and label combining.

A shallow embedding of three pieces of the repository:

* `gga::Histogram` (`iSMILES/src/Histogram.h`): the value-to-indices map with
  `add`, `regroup` and `onlyRepresentative`;
* `imago::CharacterRecognizerImp::compareImages`
  (`imago/src/character_recognizer.cpp`);
* `imago::LabelCombiner::_locateLabels` and `_fillLabelInfo`
  (`imago/src/label_combiner.cpp`).

Real-valued quantities (`double`) of the recognizer and the label combiner are
taken in an exact linearly ordered ring or in `ℚ`; `int` quantities are in `ℤ`,
sizes and positions in containers are in `ℕ`. In `Histogram::regroup` the
template parameter `value_t` is any linearly ordered type, and the test
`fabs(v - c) < Delta` is what `value_t` computes (`ValueType`): it is given for
exact arithmetic and for `double`, with infinities, rounding and overflow.
-/

set_option linter.unusedSectionVars false

namespace gga

/-- The class `Histogram<index_t, value_t>`: the member `Data` is a
`std::map<value_t, std::vector<index_t>>`, kept here as the list of its
`(value, indices)` entries in iteration order (ascending value). `index_t` is
taken to be `ℕ`. -/
structure Histogram (α : Type) where
  Data : List (α × List Nat)
deriving DecidableEq, Repr

/-- What `regroup` computes in `value_t`: `within Delta c v` is the outcome of
the test `fabs(v - c) < Delta` of lines 64 and 80, with the subtraction, `fabs`
and the comparison of `value_t`. The keys of the map and `Delta` are the values
that `operator<` orders linearly (for `double`: all but NaN); the difference
itself may round, overflow or be NaN, and the test is then what the machine
comparison gives. -/
class ValueType (α : Type) [LinearOrder α] where
  within : α → α → α → Bool

/-- A `value_t` with exact arithmetic: the test is `|v - c| < Delta`. -/
instance exactValue {α : Type} [LinearOrderedCommRing α] : ValueType α :=
  ⟨fun Delta c v => decide (|v - c| < Delta)⟩

/-- The values of `value_t = double` that can be keys: minus infinity, plus
infinity and, for the finite ones, the integers that a `double` holds (every
finite `double` of magnitude `2 ^ 53` or more is an integer). -/
abbrev Double := WithBot (WithTop Int)

/-- The finite `double` with the integer value `n`. -/
def Double.fin (n : Int) : Double := ((n : WithTop Int) : WithBot (WithTop Int))

/-- The `double` plus infinity. -/
def Double.posInf : Double := ((⊤ : WithTop Int) : WithBot (WithTop Int))

/-- The `double` minus infinity. -/
def Double.negInf : Double := (⊥ : WithBot (WithTop Int))

/-- The number of halvings that bring `n` below `2 ^ 53`, at most `fuel`. -/
def halvings : Nat → Nat → Nat
  | 0, _ => 0
  | fuel + 1, n => if n < 2 ^ 53 then 0 else halvings fuel (n / 2) + 1

/-- The `double` nearest to the natural number `n`, for `n` below the
overflow threshold: `n` is cut to a significand of 53 bits and rounded to
nearest, ties to the even significand (IEEE 754, the default rounding). -/
def roundToDouble (n : Nat) : Nat :=
  let e := halvings 1024 n
  let q := n / 2 ^ e
  let r := n % 2 ^ e
  if 2 * r > 2 ^ e ∨ (2 * r = 2 ^ e ∧ q % 2 = 1) then (q + 1) * 2 ^ e else q * 2 ^ e

/-- The least magnitude that rounds to infinity: halfway between the largest
finite `double`, `2 ^ 1024 - 2 ^ 971`, and `2 ^ 1024`. -/
def Double.overflow : Nat := 2 ^ 1024 - 2 ^ 970

/-- The test `fabs(v - c) < Delta` on `double`. The difference of two finite
values is their exact difference rounded to a `double`; from
`2 ^ 1024 - 2 ^ 970` on it rounds to infinity. With an infinite `v` or `c` the
difference is infinite or NaN. An infinite or NaN value of `fabs` is less than
no `Delta`. -/
def Double.within (Delta c v : Double) : Bool :=
  match v, c with
  | some (some a), some (some b) =>
    if Double.overflow ≤ (a - b).natAbs then false
    else decide (Double.fin (roundToDouble (a - b).natAbs) < Delta)
  | _, _ => false

instance doubleValue : ValueType Double := ⟨Double.within⟩

namespace Histogram

variable {α : Type} [LinearOrder α]

/-- The class invariant: the keys of a `std::map` are strictly ascending (so
unique), and no group is empty, an entry being created only by `add`, which
puts an index in it. -/
def WF (h : Histogram α) : Prop :=
  h.Data.Pairwise (fun a b => a.1 < b.1) ∧ ∀ g ∈ h.Data, g.2 ≠ []

/-- The method `empty()`: `Data.empty()`. -/
def empty (h : Histogram α) : Bool := h.Data.isEmpty

/-- The method `groups()`: `Data.size()`. -/
def groups (h : Histogram α) : Nat := h.Data.length

/-- The statement `Data[value].push_back(index)` on the entry list: the entry of `value` is
created (with no index) at its place in key order when absent, then `index`
is appended to it. -/
def insertIndex (index : Nat) (value : α) : List (α × List Nat) → List (α × List Nat)
  | [] => [(value, [index])]
  | (v, is) :: rest =>
    if value < v then (value, [index]) :: (v, is) :: rest
    else if value = v then (v, is ++ [index]) :: rest
    else (v, is) :: insertIndex index value rest

/-- The method `add(index, value)`. -/
def add (h : Histogram α) (index : Nat) (value : α) : Histogram α :=
  ⟨insertIndex index value h.Data⟩

/-- The inner loop `for (idx = it->second.begin(); ...) result.add(*idx, value)`. -/
def addAll (result : Histogram α) (value : α) (idxs : List Nat) : Histogram α :=
  idxs.foldl (fun r idx => r.add idx value) result

/-- All indices held by the histogram, group after group in iteration order. -/
def indices (h : Histogram α) : List Nat := (h.Data.map Prod.snd).flatten

/-- The group values in iteration order. -/
def values (h : Histogram α) : List α := h.Data.map Prod.fst

section Regroup

variable [ValueType α]

/-! ### `regroup`

The vector `processed` runs parallel to `Data`: the loops of the source walk
`Data` with an iterator and a counter `u` side by side, which is a walk over
`Data.zip processed`. An iterator is identified with the entry it points at;
two iterators into a `std::map` are equal exactly when their keys are. -/

/-- Lines 36-46: the first entry whose flag is not set; `none` is `Data.end()`. -/
def firstUnprocessed (Data : List (α × List Nat)) (processed : List Bool) :
    Option (α × List Nat) :=
  ((Data.zip processed).find? (fun ep => !ep.2)).map Prod.fst

/-- Lines 58-65: the number of indices in the unprocessed entries other than
`center` whose value is within `Delta` of the value of `center`. -/
def neighbourCount (Data : List (α × List Nat)) (processed : List Bool) (Delta : α)
    (center : α × List Nat) : Nat :=
  (Data.zip processed).foldl
    (fun count ep =>
      if !ep.2 && decide (ep.1.1 ≠ center.1) && ValueType.within Delta center.1 ep.1.1
      then count + ep.1.2.length else count) 0

/-- Lines 51-73: starting from `best_count = 0` and `best_center = first`, every
unprocessed entry with a strictly larger count replaces the best one. -/
def selectCenter (Data : List (α × List Nat)) (processed : List Bool) (Delta : α)
    (first : α × List Nat) : α × List Nat :=
  ((Data.zip processed).foldl
    (fun (best : Nat × (α × List Nat)) cp =>
      if cp.2 then best
      else
        let count := neighbourCount Data processed Delta cp.1
        if count > best.1 then (count, cp.1) else best)
    (0, first)).2

/-- Lines 77-86, the effect on `result`: the indices of every unprocessed entry
within `Delta` of `center_value` are added under `center_value`. -/
def collectRound (Data : List (α × List Nat)) (processed : List Bool) (Delta : α)
    (center_value : α) (result : Histogram α) : Histogram α :=
  (Data.zip processed).foldl
    (fun r ep =>
      if !ep.2 && ValueType.within Delta center_value ep.1.1
      then r.addAll center_value ep.1.2 else r) result

/-- Lines 77-86, the effect on `processed`: the flag of every unprocessed entry
within `Delta` of `center_value` is set. -/
def markRound (Data : List (α × List Nat)) (processed : List Bool) (Delta : α)
    (center_value : α) : List Bool :=
  (Data.zip processed).map
    (fun ep => if !ep.2 && ValueType.within Delta center_value ep.1.1 then true else ep.2)

/-- The `while (true)` loop of `regroup`, lines 31-87. Each unit of `fuel` pays
for one pass through the loop body (the last pass is the one that finds every
entry processed and breaks); `none` means the loop is still running when the
fuel is spent. -/
def regroupLoop (Data : List (α × List Nat)) (Delta : α) :
    Nat → List Bool → Histogram α → Option (Histogram α)
  | 0, _, _ => none
  | fuel + 1, processed, result =>
    match firstUnprocessed Data processed with
    | none => some result
    | some first =>
      let best_center := selectCenter Data processed Delta first
      regroupLoop Data Delta fuel
        (markRound Data processed Delta best_center.1)
        (collectRound Data processed Delta best_center.1 result)

/-- The method `regroup(Delta)`, run for at most `fuel` passes of its loop. -/
def regroup (h : Histogram α) (Delta : α) (fuel : Nat) : Option (Histogram α) :=
  if h.empty then some ⟨[]⟩
  else regroupLoop h.Data Delta fuel (h.Data.map (fun _ => false)) ⟨[]⟩

end Regroup

/-- The method `onlyRepresentative()`. -/
def onlyRepresentative (h : Histogram α) : Histogram α :=
  if h.empty then ⟨[]⟩
  else
    let count := h.Data.foldl (fun c it => c + it.2.length) 0
    let average := count / h.groups
    h.Data.foldl
      (fun r it => if it.2.length ≥ average then r.addAll it.1 it.2 else r) ⟨[]⟩

section Rounds

variable [ValueType α]

/-! ### The rounds of `regroup` seen on the list of unprocessed entries -/

/-- The entries whose flag is not set, in iteration order. -/
def unprocessed (Data : List (α × List Nat)) (processed : List Bool) : List (α × List Nat) :=
  ((Data.zip processed).filter (fun ep => !ep.2)).map Prod.fst

/-- The test `fabs(it->first - c) < Delta`. -/
def near (Delta c : α) (e : α × List Nat) : Bool := ValueType.within Delta c e.1

/-- The number of indices held by the groups of `rem` other than the group of
`c` whose values are within `Delta` of `c`. -/
def neighbourhood (rem : List (α × List Nat)) (Delta c : α) : Nat :=
  ((rem.filter (fun e => decide (e.1 ≠ c) && near Delta c e)).map (fun e => e.2.length)).sum

/-- The scan for the best centre: an entry replaces the best one when its count
is strictly larger. -/
def pickCenter (cnt : α → Nat) (l : List (α × List Nat)) (best : Nat × (α × List Nat)) :
    Nat × (α × List Nat) :=
  l.foldl (fun best e => if cnt e.1 > best.1 then (cnt e.1, e) else best) best

/-- The indices merged into the group of centre `c`: those of every group of
`rem` within `Delta` of `c`, in iteration order. -/
def mergedIndices (rem : List (α × List Nat)) (Delta c : α) : List Nat :=
  ((rem.filter (near Delta c)).map Prod.snd).flatten

/-- The loop of `regroup` on the list of the entries still unprocessed. -/
def regroupRec (Delta : α) : Nat → List (α × List Nat) → Histogram α → Option (Histogram α)
  | 0, _, _ => none
  | _ + 1, [], result => some result
  | fuel + 1, first :: rest, result =>
    let c := (pickCenter (neighbourhood (first :: rest) Delta) (first :: rest) (0, first)).2.1
    regroupRec Delta fuel ((first :: rest).filter (fun e => !near Delta c e))
      (result.addAll c (mergedIndices (first :: rest) Delta c))

/-- The value `c` is a best centre of `h`: a group value with the largest
neighbourhood count, the smallest of the values that reach that count. -/
def IsBestCenter (h : Histogram α) (Delta c : α) : Prop :=
  c ∈ h.values ∧
  (∀ v ∈ h.values, neighbourhood h.Data Delta v ≤ neighbourhood h.Data Delta c) ∧
  (∀ v ∈ h.values, neighbourhood h.Data Delta v = neighbourhood h.Data Delta c → c ≤ v)

end Rounds

end Histogram

end gga

namespace imago

namespace CharacterRecognizerImp

/-- A `cv::Mat_<T>`: its dimensions and the element read by `m(row, col)`. -/
structure Mat (τ : Type) where
  rows : Nat
  cols : Nat
  get : Nat → Nat → τ

/-- The constants of `character_recognizer.h` and the distance bound
`imago::DIST_INF` that `character_recognizer.cpp` uses and does not define.
Distances (`double`) are taken in an exact ordered ring `α`. -/
structure Constants (α : Type) where
  REQUIRED_SIZE : Nat
  PENALTY_SHIFT : Nat
  PENALTY_STEP : Nat
  DIST_INF : α

variable {α : Type} [LinearOrderedCommRing α]

/-- The values a loop `for (s = 0; s <= 2 * PENALTY_SHIFT; s += PENALTY_STEP)`
runs through, for a positive step. -/
def shifts (c : Constants α) : List Nat :=
  (List.range (2 * c.PENALTY_SHIFT / c.PENALTY_STEP + 1)).map (fun k => k * c.PENALTY_STEP)

/-- Lines 257-273 of `compareImages`: the sum `result` built by the two pixel
loops. Both maps are read at `(y + PENALTY_SHIFT, x + PENALTY_SHIFT)`. -/
def pixelSum (c : Constants α) (img : Mat Nat) (penalty_ink penalty_white : Mat α) : α :=
  (List.range img.cols).foldl
    (fun result y =>
      (List.range img.rows).foldl
        (fun result x =>
          if img.get y x = 0
          then result + penalty_ink.get (y + c.PENALTY_SHIFT) (x + c.PENALTY_SHIFT)
          else result + penalty_white.get (y + c.PENALTY_SHIFT) (x + c.PENALTY_SHIFT))
        result)
    0

/-- The function `compareImages`, lines 251-278. The loop variables `shift_x` and `shift_y`
do not occur in the loop body. With `PENALTY_STEP = 0` the loops do not end:
the result is `none`. -/
def compareImages (c : Constants α) (img : Mat Nat) (penalty_ink penalty_white : Mat α) :
    Option α :=
  if c.PENALTY_STEP = 0 then none
  else some ((shifts c).foldl
    (fun best _shift_x =>
      (shifts c).foldl
        (fun best _shift_y =>
          let result := pixelSum c img penalty_ink penalty_white
          if result < best then result else best)
        best)
    c.DIST_INF)

/-- The sum the specification describes for one offset pair `(sx, sy)`: every
pixel `(x, y)` of `img` contributes the penalty read at `(y + sy, x + sx)`,
from the ink map for an ink pixel (value 0) and from the white map otherwise. -/
def shiftedSum (img : Mat Nat) (penalty_ink penalty_white : Mat α) (sx sy : Nat) : α :=
  ((List.range img.cols).map (fun y =>
    ((List.range img.rows).map (fun x =>
      if img.get y x = 0 then penalty_ink.get (y + sy) (x + sx)
      else penalty_white.get (y + sy) (x + sx))).sum)).sum

/-- The shift-tolerant minimum the specification describes: the least
`shiftedSum` over the offset pairs. -/
def shiftMinimum (c : Constants α) (img : Mat Nat) (penalty_ink penalty_white : Mat α) :
    Option α :=
  (((shifts c).map (fun sx => (shifts c).map (fun sy =>
    shiftedSum img penalty_ink penalty_white sx sy))).flatten).min?

/-- A matrix given by the list of its rows. -/
def Mat.ofRows {τ : Type} (dflt : τ) (rows : List (List τ)) : Mat τ :=
  ⟨rows.length, (rows.headD []).length, fun y x => (rows.getD y []).getD x dflt⟩

/-- Canonical size 3, shift margin 1, step 1. -/
def plusConstants : Constants Int := ⟨3, 1, 1, 1000000⟩

/-- The normalized input: all ink but the middle pixel of the bottom row. -/
def plusInput : Mat Nat := Mat.ofRows 255 [[0, 0, 0], [0, 0, 0], [0, 255, 0]]

/-- The ink map `calculatePenalties` builds for the 3 x 3 template that shows a
plus sign (ink in the middle row and the middle column). -/
def plusInk : Mat Int := Mat.ofRows 0
  [[2, 1, 1, 1, 2], [1, 1, 0, 1, 1], [1, 0, 0, 0, 1], [1, 1, 0, 1, 1], [2, 1, 1, 1, 2]]

/-- The white map of the same template (square roots of the radii 0 and 1). -/
def plusWhite : Mat Int := Mat.ofRows 0
  [[1, 1, 1, 1, 1], [1, 0, 1, 0, 1], [1, 1, 1, 1, 1], [1, 0, 1, 0, 1], [1, 1, 1, 1, 1]]

end CharacterRecognizerImp

/-- Modelled from the spec: the bounding box `(x, y, width, height)` of an
`imago::Segment`, read in the source through `getX()`, `getY()`, `getWidth()`
and `getHeight()`; the class is declared in `segment.h`, which is not among
the sources. The pixels play no part in the label geometry. -/
structure Segment where
  x : Int
  y : Int
  width : Int
  height : Int
deriving DecidableEq, Repr

/-- Modelled from the spec: `imago::Rectangle` (`rectangle.h`). -/
structure Rectangle where
  x : Int
  y : Int
  width : Int
  height : Int
deriving DecidableEq, Repr

/-- Modelled from the spec: `imago::Vec2d` (`vec2d.h`), a point of the plane. -/
structure Vec2d where
  x : ℚ
  y : ℚ
deriving DecidableEq

/-- Modelled from the spec: `imago::Label` (`label_combiner.h`), with the
members that `_locateLabels` and `_fillLabelInfo` write. -/
structure Label where
  rect : Rectangle
  symbols : List Segment
  line_y : Int
  multi_begin : Int
  multi_line_y : Int
deriving DecidableEq, Repr

/-- The graph `seg_graph` as `_locateLabels` reads it: for every vertex its
segment (`vertex_seg_ptr`) and its position (`vertex_pos`), and the edges as
`(source, target)` pairs of vertex numbers. -/
structure SegmentsGraph where
  segs : List Segment
  positions : List Vec2d
  edges : List (Nat × Nat)

/-- What `_locateLabels` calls and the sources do not hold:
`add_segment_range` followed by `RNGBuilder::build` (`build`),
`Segment::getCenter` and `boost::connected_components`, which returns the
number of components and writes the component number of every vertex. -/
structure GraphLib where
  build : List Segment → SegmentsGraph
  getCenter : Segment → Vec2d
  connected_components : SegmentsGraph → Nat × (Nat → Nat)

/-- What `_fillLabelInfo` takes from outside the repository: `std::sort`, which
returns some rearrangement of its input that is ordered for the comparator it
is given (the order of equivalent elements is not specified), and `round`,
which returns an integer nearest to its argument. -/
structure StdLib where
  sort : (Segment → Segment → Bool) → List Segment → List Segment
  sort_perm : ∀ lt l, (sort lt l).Perm l
  sort_sorted : ∀ lt l,
    (∀ a b c, lt b a = false → lt c b = false → lt c a = false) →
    (∀ a b, lt b a = false ∨ lt a b = false) →
    (sort lt l).Pairwise (fun a b => lt b a = false)
  round : ℚ → Int
  round_near : ∀ q, |(round q : ℚ) - q| ≤ 1 / 2

/-- The members of `LabelCombiner` that `_fillLabelInfo` reads. -/
structure LabelCombiner where
  _cap_height : Int
  _cap_height_error : ℚ
  _space : Int

namespace LabelCombiner

/-- The body of the loop over the edges in `_locateLabels`, lines 234-278, for
an edge from a vertex at `b_pos` with segment `s_b` (centre `c_b`) to a vertex
at `e_pos` with segment `s_e` (centre `c_e`): `some true` when the edge is
kept, `some false` when it is removed. The signs are those of the coordinates
of the normalized difference, which are the signs of the difference itself;
the difference of two equal positions has no normalization: `none`. -/
def edgeTest (b_pos e_pos : Vec2d) (s_b s_e : Segment) (c_b c_e : Vec2d) : Option Bool :=
  let dif_x := e_pos.x - b_pos.x
  let dif_y := e_pos.y - b_pos.y
  if dif_x = 0 ∧ dif_y = 0 then none
  else
    let sign_x : ℚ := if dif_x > 0 then 1 else -1
    let sign_y : ℚ := if dif_y > 0 then 1 else -1
    let width_b : ℚ := s_b.width
    let width_e : ℚ := s_e.width
    let width : ℚ := (width_b + 2 * width_e) / 3
    let height : ℚ := ((min s_b.height s_e.height : Int) : ℚ)
    let x_b : ℚ := width_b * sign_x / 2 + b_pos.x
    let x_e : ℚ := -width_e * sign_x / 2 + e_pos.x
    let y_b : ℚ := s_b.height * sign_y / 2 + b_pos.y
    let y_e : ℚ := -s_e.height * sign_y / 2 + e_pos.y
    let height : ℚ :=
      if (c_b.y < c_e.y ∧ c_e.y > y_b - height / 2 ∧ c_e.y < y_b + height / 2) ∨
         (c_e.y < c_b.y ∧ c_b.y > y_e - height / 2 ∧ c_b.y < y_e + height / 2)
      then ((max s_b.height s_e.height : Int) : ℚ)
      else height / 2
    some (decide ((|y_e - y_b| < width ∧ |c_b.x - c_e.x| < width / 2) ∨
                  (|x_e - x_b| < width ∧ |c_b.y - c_e.y| < height)))

/-- The test of one edge of the graph: positions and segments are read at the
source and the target of the edge. -/
def keepEdge (glib : GraphLib) (g : SegmentsGraph) (e : Nat × Nat) : Option Bool := do
  let b_pos ← g.positions[e.1]?
  let e_pos ← g.positions[e.2]?
  let s_b ← g.segs[e.1]?
  let s_e ← g.segs[e.2]?
  edgeTest b_pos e_pos s_b s_e (glib.getCenter s_b) (glib.getCenter s_e)

/-- The loop of lines 232-279: the edges that are not removed. -/
def pruneEdges (glib : GraphLib) (g : SegmentsGraph) :
    List (Nat × Nat) → Option (List (Nat × Nat))
  | [] => some []
  | e :: es => do
    let keep ← keepEdge glib g e
    let rest ← pruneEdges glib g es
    some (if keep then e :: rest else rest)

/-- Lines 293-295: `components[_components[i]].push_back(i)` for every vertex
`i` below `n`, starting from `cc` empty vectors. (A component number not below
`cc` would address no vector; `connected_components` returns none.) -/
def groupComponents (cc : Nat) (_components : Nat → Nat) (n : Nat) : List (List Nat) :=
  (List.range n).foldl
    (fun components i => components.modify (fun comp => comp ++ [i]) (_components i))
    (List.replicate cc [])

/-- Lines 299-310: one label per component, holding the segments of its
vertices; `fresh` is a label as `resize` creates it. -/
def assembleLabels (fresh : Label) (segs : List Segment) (cc : Nat) (_components : Nat → Nat) :
    List Label :=
  (groupComponents cc _components segs.length).map
    (fun comp => { fresh with symbols := comp.filterMap (fun j => segs[j]?) })

/-- The method `_locateLabels`, lines 211-312: the list `_labels` it leaves. -/
def _locateLabels (glib : GraphLib) (fresh : Label) (_symbols_layer : List Segment) :
    Option (List Label) := do
  let seg_graph := glib.build _symbols_layer
  let kept ← pruneEdges glib seg_graph seg_graph.edges
  let pruned : SegmentsGraph := { seg_graph with edges := kept }
  let cc := (glib.connected_components pruned).1
  let _components := (glib.connected_components pruned).2
  some (assembleLabels fresh pruned.segs cc _components)

/-- The comparator `_segmentsComparator`. -/
def _segmentsComparator (a b : Segment) : Bool :=
  if a.y < b.y then true
  else if a.y = b.y then
    if a.x < b.x then true else false
  else false

/-- The comparator `_segmentsCompareX`. -/
def _segmentsCompareX (a b : Segment) : Bool :=
  if a.x < b.x then true else false

/-- The loop of lines 322-342 from symbol number `i` on, in the state
`first_cap`, `first_line_y`; the result is `(first_line_y, new_line_sep)`. -/
def scanLines (lib : StdLib) (lc : LabelCombiner) :
    List Segment → Int → Int → Int → Int × Int
  | [], _, _, first_line_y => (first_line_y, -1)
  | s :: rest, i, first_cap, first_line_y =>
    if first_cap < 0 ∧ (s.height : ℚ) > lc._cap_height_error * 0.5 * lc._cap_height then
      scanLines lib lc rest (i + 1) i (s.y + s.height)
    else if first_cap ≥ 0 ∧
        lib.round ((s.y : ℚ) + 0.5 * s.height) - first_line_y > lc._space then
      (first_line_y, i)
    else scanLines lib lc rest (i + 1) first_cap first_line_y

/-- The value of `new_line_sep` when the loop of lines 322-342 is left. -/
def newLineSep (lib : StdLib) (lc : LabelCombiner) (l : Label) : Int :=
  (scanLines lib lc (lib.sort _segmentsComparator l.symbols) 0 (-1) (-1)).2

/-- Lines 363-370: the bottom edge of the first symbol of the second run that
is taller than `_cap_height_error * _cap_height`, when there is one. -/
def secondLineY (lc : LabelCombiner) (run : List Segment) : Option Int :=
  (run.find? (fun s => decide ((s.height : ℚ) > lc._cap_height_error * lc._cap_height))).map
    (fun s => s.y + s.height)

/-- The method `_fillLabelInfo`, lines 314-387. Reading `symbols[0]` or `symbols[size - 1]`
of an empty vector is undefined: the result is then `none`. -/
def _fillLabelInfo (lib : StdLib) (lc : LabelCombiner) (l : Label) : Option Label :=
  let size := l.symbols.length
  let symbols := lib.sort _segmentsComparator l.symbols
  let first_line_y := (scanLines lib lc symbols 0 (-1) (-1)).1
  let new_line_sep := (scanLines lib lc symbols 0 (-1) (-1)).2
  if new_line_sep > 0 then do
    let n := new_line_sep.toNat
    let s0 ← symbols[0]?
    let rect_y := s0.y
    let symbols := lib.sort _segmentsCompareX (symbols.take n) ++ symbols.drop n
    let s0 ← symbols[0]?
    let rect_x := s0.x
    let seg1 ← symbols[size - 1]?
    let rect_height := seg1.y + seg1.height - rect_y
    let symbols := symbols.take n ++ lib.sort _segmentsCompareX (symbols.drop n)
    let seg1 ← symbols[n - 1]?
    let seg2 ← symbols[size - 1]?
    let rect_width := max (seg1.x + seg1.width) (seg2.x + seg2.width) - rect_x
    some { rect := ⟨rect_x, rect_y, rect_width, rect_height⟩
           symbols := symbols
           line_y := first_line_y
           multi_begin := new_line_sep
           multi_line_y := (secondLineY lc (symbols.drop n)).getD l.multi_line_y }
  else do
    let s0 ← symbols[0]?
    let rect_y := s0.y
    let seg1 ← symbols[size - 1]?
    let rect_height := seg1.y + seg1.height - rect_y
    let symbols := lib.sort _segmentsCompareX symbols
    let s0 ← symbols[0]?
    let rect_x := s0.x
    let seg1 ← symbols[size - 1]?
    let rect_width := seg1.x + seg1.width - rect_x
    some { rect := ⟨rect_x, rect_y, rect_width, rect_height⟩
           symbols := symbols
           line_y := first_line_y
           multi_begin := l.multi_begin
           multi_line_y := l.multi_line_y }

/-- The centre of the bounding box of a segment. -/
def boxCenter (s : Segment) : Vec2d :=
  ⟨(s.x : ℚ) + (s.width : ℚ) / 2, (s.y : ℚ) + (s.height : ℚ) / 2⟩

/-- The contract of `boost::connected_components` used here: every vertex gets
a number below `cc`, every number below `cc` is given to some vertex, and the
two ends of an edge get the same number. -/
def ComponentsOk (g : SegmentsGraph) (cc : Nat) (comp : Nat → Nat) : Prop :=
  (∀ i < g.segs.length, comp i < cc) ∧
  (∀ c < cc, ∃ i < g.segs.length, comp i = c) ∧
  (∀ e ∈ g.edges, comp e.1 = comp e.2)

/-- The graph handed to `_locateLabels` is well formed: every vertex has a
position, and every edge joins two vertices of the graph that lie at two
different positions. -/
def GraphOk (g : SegmentsGraph) : Prop :=
  g.positions.length = g.segs.length ∧
  ∀ e ∈ g.edges, e.1 < g.segs.length ∧ e.2 < g.segs.length ∧
    g.positions[e.1]? ≠ g.positions[e.2]?

/-- An instance of the library: insertion sort and rounding half up. -/
def insertionLib : StdLib where
  sort := fun lt l => l.insertionSort (fun a b => lt b a = false)
  sort_perm := fun _ l => List.perm_insertionSort _ l
  sort_sorted := by
    intro lt l htrans htotal
    haveI : IsTotal Segment (fun a b => lt b a = false) := ⟨htotal⟩
    haveI : IsTrans Segment (fun a b => lt b a = false) := ⟨htrans⟩
    exact List.sorted_insertionSort _ l
  round := fun q => ⌊q + 1 / 2⌋
  round_near := by
    intro q
    have h1 := Int.floor_le (q + 1 / 2)
    have h2 := Int.lt_floor_add_one (q + 1 / 2)
    rw [abs_le]
    constructor <;> linarith

/-- A label as `_labels.resize` creates it, taken with no symbol and -1 in the
line fields. -/
def freshLabel : Label := ⟨⟨0, 0, 0, 0⟩, [], -1, -1, -1⟩

/-- Three symbols: two side by side on one line, one far below. -/
def threeSymbols : List Segment := [⟨0, 0, 10, 12⟩, ⟨40, 60, 8, 12⟩, ⟨12, 0, 10, 12⟩]

/-- The component numbers of `threeSymbols`: vertices 0 and 2 together. -/
def threeComponents (i : Nat) : Nat := if i = 1 then 1 else 0

/-- Capital height 10, error factor 1, `_space = 10 >> 1`. -/
def capitalTen : LabelCombiner := ⟨10, 1, 5⟩

/-- A label of two symbols: a 10 x 10 letter at the origin and a 2 x 2 dot in
its opening. -/
def dottedLabel : Label := ⟨⟨0, 0, 0, 0⟩, [⟨6, 4, 2, 2⟩, ⟨0, 0, 10, 10⟩], -1, -1, -1⟩

/-- A label of three symbols on two lines: a capital, a letter right of it,
and a digit below them. -/
def twoLineLabel : Label :=
  ⟨⟨0, 0, 0, 0⟩, [⟨22, 14, 6, 8⟩, ⟨11, 0, 10, 10⟩, ⟨0, 0, 10, 10⟩], -1, -1, -1⟩

/-- A graph library for `threeSymbols`: positions are the centres of the
bounding boxes, the one edge joins the two symbols of the first line, and the
component numbers are `threeComponents`. -/
def threeGraphLib : GraphLib where
  build := fun segs => ⟨segs, segs.map boxCenter, [(0, 2)]⟩
  getCenter := boxCenter
  connected_components := fun _ => (2, threeComponents)

/-- A graph library for a layer of two symbols: positions are the centres of
the bounding boxes, the one edge goes from vertex 0 to vertex 1, and all
vertices are in one component. -/
def pairGraphLib : GraphLib where
  build := fun segs => ⟨segs, segs.map boxCenter, [(0, 1)]⟩
  getCenter := boxCenter
  connected_components := fun _ => (1, fun _ => 0)

/-- Modelled from the spec: the "2-D center position" of a segment as
`Segment::getCenter` returns it (`segment.h` is not among the sources). The
coordinates are integers: lines 271-272 cast their differences to `double`.
The centre of the bounding box is then `x + width / 2`, `y + height / 2` with
the division of integers. -/
def intCenter (s : Segment) : Vec2d :=
  ⟨((s.x + s.width / 2 : Int) : ℚ), ((s.y + s.height / 2 : Int) : ℚ)⟩

/-- A graph library for a layer of two symbols with integer centres: positions
are the integer centres, the one edge goes from vertex 0 to vertex 1 when
`srcLeft` holds and from vertex 1 to vertex 0 otherwise, and the components
are those of a graph of two vertices: one when the edge is there, two when it
is not. -/
def twoGlyphLib (srcLeft : Bool) : GraphLib where
  build := fun segs => ⟨segs, segs.map intCenter, [if srcLeft then (0, 1) else (1, 0)]⟩
  getCenter := intCenter
  connected_components := fun g => if g.edges.isEmpty then (2, fun i => i) else (1, fun _ => 0)

end LabelCombiner

end imago

namespace imago

namespace CharacterRecognizerImp

variable {α : Type} [LinearOrderedCommRing α]

/-- Modelled from the spec: `imago::round(sqrt((double) n))` for a natural
number `n`, the integer nearest to the square root of `n`. It is the least `k`
with `n ≤ k * k + k`, because `(k + 1/2)^2 = k * k + k + 1/4` and the square
root of a natural number is never half-way between two integers. -/
def roundSqrt (n : Nat) : Nat :=
  ((List.range (n + 1)).find? (fun k => decide (n ≤ k * k + k))).getD n

/-- The values of a loop `for (int d = -radius; d <= radius; d++)`. -/
def offsetRange (radius : Nat) : List Int :=
  (List.range (2 * radius + 1)).map (fun (k : Nat) => (k : Int) - (radius : Int))

/-- The constructor `CircleOffsetPoints(radius)`, lines 193-205: entry
`distance` of the table holds, in loop order, the points `(dx, dy)` with both
coordinates in `[-radius, radius]` whose rounded length is `distance`. -/
def CircleOffsetPoints (radius : Nat) : List (List (Int × Int)) :=
  (List.range (radius + 1)).map (fun distance =>
    ((offsetRange radius).flatMap (fun dx => (offsetRange radius).map (fun dy => (dx, dy)))).filter
      (fun p => decide (roundSqrt (p.1 * p.1 + p.2 * p.2).toNat = distance)))

/-- Lines 225-235 of `calculatePenalties`: the point `p` of the table, added to
the cell `(x, y)`, lands on a pixel of `img` that has the value `value`. -/
def hitsValue (img : Mat Nat) (value : Nat) (y x : Int) (p : Int × Int) : Bool :=
  let j := y + p.2
  let i := x + p.1
  if j < 0 ∨ j ≥ img.cols then false
  else if i < 0 ∨ i ≥ img.rows then false
  else decide (img.get j.toNat i.toNat = value)

/-- Lines 221-239 of `calculatePenalties`: `min_dist` for the cell `(x, y)` and
the pixel value `value`, the first radius of the table at which some point
lands on a pixel of that value, and `REQUIRED_SIZE` when there is none. -/
def minDist (c : Constants α) (img : Mat Nat) (value : Nat) (y x : Int) : Nat :=
  ((List.range (CircleOffsetPoints c.REQUIRED_SIZE).length).find?
    (fun radius => ((CircleOffsetPoints c.REQUIRED_SIZE).getD radius []).any
      (hitsValue img value y x))).getD c.REQUIRED_SIZE

/-- The function `calculatePenalties`, lines 209-249: the pair
`(penalty_ink, penalty_white)`. Row `r` and column `k` of a map belong to the
cell `y = r - PENALTY_SHIFT`, `x = k - PENALTY_SHIFT`. The ink map holds
`min_dist` for the value 0, the white map `sqrt(min_dist)` for the value 255;
`sqrt` is the square root of the C library on the numbers `0 .. REQUIRED_SIZE`. -/
def calculatePenalties (c : Constants α) (sqrt : Nat → α) (img : Mat Nat) : Mat α × Mat α :=
  (⟨c.REQUIRED_SIZE + 2 * c.PENALTY_SHIFT, c.REQUIRED_SIZE + 2 * c.PENALTY_SHIFT,
      fun r k => ((minDist c img 0 ((r : Int) - c.PENALTY_SHIFT) ((k : Int) - c.PENALTY_SHIFT)
        : Nat) : α)⟩,
   ⟨c.REQUIRED_SIZE + 2 * c.PENALTY_SHIFT, c.REQUIRED_SIZE + 2 * c.PENALTY_SHIFT,
      fun r k => sqrt (minDist c img 255 ((r : Int) - c.PENALTY_SHIFT)
        ((k : Int) - c.PENALTY_SHIFT))⟩)

/-- The 3 x 3 template that shows a plus sign. -/
def plusTemplate : Mat Nat := Mat.ofRows 255 [[255, 0, 255], [0, 0, 0], [255, 0, 255]]

/-- The ring radius of the nearest pixel, as the specification describes it:
`d` is the least of `REQUIRED_SIZE` and the rounded distances from the cell
`(x, y)` to the pixels `(i, j)` of `img` that have the value `value`. -/
def IsRingRadius (REQUIRED_SIZE : Nat) (img : Mat Nat) (value : Nat) (y x : Int) (d : Nat) :
    Prop :=
  d ≤ REQUIRED_SIZE ∧
  (∀ j, j < img.cols → ∀ i, i < img.rows → img.get j i = value →
    d ≤ roundSqrt ((((i : Int) - x) * ((i : Int) - x)
      + ((j : Int) - y) * ((j : Int) - y)).toNat)) ∧
  (d = REQUIRED_SIZE ∨
    ∃ j, j < img.cols ∧ ∃ i, i < img.rows ∧ img.get j i = value ∧
      roundSqrt ((((i : Int) - x) * ((i : Int) - x)
        + ((j : Int) - y) * ((j : Int) - y)).toNat) = d)

instance (REQUIRED_SIZE : Nat) (img : Mat Nat) (value : Nat) (y x : Int) (d : Nat) :
    Decidable (IsRingRadius REQUIRED_SIZE img value y x d) := by
  unfold IsRingRadius
  infer_instance

end CharacterRecognizerImp

/-- The kind `std::map<char, double>` of a `RecognitionDistance`: its entries
in ascending order of the character. -/
abbrev RecognitionDistance (α : Type) := List (Char × α)

/-- The assignment `m[k] = v` on a `RecognitionDistance`: the entry of `k` is
overwritten, or created at its place in key order. -/
def RecognitionDistance.assign {α : Type} :
    RecognitionDistance α → Char → α → RecognitionDistance α
  | [], k, v => [(k, v)]
  | (k', v') :: rest, k, v =>
    if k < k' then (k, v) :: (k', v') :: rest
    else if k = k' then (k, v) :: rest
    else (k', v') :: RecognitionDistance.assign rest k v

/-- The fields of `vars.characters` (declared in `settings.h`, not among the
sources) that `recognizeMat` and `isPossibleCharacter` read. -/
structure CharacterSettings (α : Type) where
  MaxTopVariantsLookup : Int
  DistanceScaleFactor : α
  MinEndpointsPossible : Int
  PossibleCharacterDistanceStrong : α
  PossibleCharacterDistanceWeak : α
  PossibleCharacterMinimalQuality : α

/-- The raster part of an `imago::Segment` that the recognizer reads: its size
and `getByte(x, y)`. -/
structure Raster where
  width : Nat
  height : Nat
  getByte : Nat → Nat → Nat

namespace CharacterRecognizerImp

/-- The struct `MatchRecord` of a template: `text` is a `std::string`, kept as
the list of its characters. -/
structure MatchRecord (α : Type) where
  text : List Char
  penalty_ink : Mat α
  penalty_white : Mat α
  wh_ratio : α

/-- The struct `ResultEntry`, lines 383-399. -/
structure ResultEntry (α : Type) where
  value : α
  text : List Char
deriving DecidableEq

variable {α : Type} [LinearOrderedField α]

/-- What `recognizeMat` and `recognizeImage` call and is taken by its
signature: `prepareImage`, lines 280-303, which is composed of the OpenCV
functions `cv::threshold` and `cv::resize` and of `Image::crop` and returns the
normalized image with the aspect ratio, for the settings in use;
`ImageUtils::copyImageToMat`; and `std::sort` on the result entries, which
returns a rearrangement of its input in which no entry has a smaller value
than an entry before it. -/
structure RecognizerLib (α : Type) [LinearOrderedField α] where
  prepareImage : Mat Nat → Mat Nat × α
  copyImageToMat : Raster → Mat Nat
  sort : List (ResultEntry α) → List (ResultEntry α)
  sort_perm : ∀ l, (sort l).Perm l
  sort_sorted : ∀ l, (sort l).Pairwise (fun a b => ¬ b.value < a.value)

/-- Lines 420-423 of `recognizeMat`: the aspect-ratio penalty on `distance`. -/
def adjustDistance (distance ratio_diff : α) : α :=
  if ratio_diff > 0.3 then distance * 1.1
  else if ratio_diff > 0.5 then distance * 1.3
  else distance

/-- The loop of lines 410-431 of `recognizeMat`: the vector `results`. A
template is skipped when `candidates` is not empty and `candidates.find(text)`
finds no occurrence of its text. -/
def scoreTemplates (c : Constants α) (img : Mat Nat) (ratio : α) (candidates : List Char) :
    List (MatchRecord α) → Option (List (ResultEntry α))
  | [] => some []
  | t :: ts =>
    if candidates ≠ [] ∧ ¬ t.text <:+: candidates then
      scoreTemplates c img ratio candidates ts
    else do
      let distance ← compareImages c img t.penalty_ink t.penalty_white
      let rest ← scoreTemplates c img ratio candidates ts
      some (⟨adjustDistance distance |ratio - t.wh_ratio|, t.text⟩ :: rest)

/-- The values of `u` in the loop of line 438, from
`min(MaxTopVariantsLookup, size - 1)` down to 0. -/
def lookupIndices (vars : CharacterSettings α) (size : Nat) : List Nat :=
  (List.range (min vars.MaxTopVariantsLookup ((size : Int) - 1) + 1).toNat).reverse

/-- Lines 433-446 of `recognizeMat`: the mapping built from `results`. -/
def topVariants (lib : RecognizerLib α) (vars : CharacterSettings α)
    (results : List (ResultEntry α)) : RecognitionDistance α :=
  if results.isEmpty then []
  else
    (lookupIndices vars (lib.sort results).length).foldl
      (fun _result u =>
        match (lib.sort results)[u]? with
        | some entry =>
          match entry.text with
          | [ch] => _result.assign ch (entry.value / vars.DistanceScaleFactor)
          | _ => _result
        | none => _result)
      []

/-- The function `recognizeMat`, lines 401-447. -/
def recognizeMat (c : Constants α) (lib : RecognizerLib α) (vars : CharacterSettings α)
    (rect : Mat Nat) (candidates : List Char) (templates : List (MatchRecord α)) :
    Option (RecognitionDistance α) := do
  let results ← scoreTemplates c (lib.prepareImage rect).1 (lib.prepareImage rect).2
    candidates templates
  some (topVariants lib vars results)

/-- The function `recognizeImage`, lines 449-454. -/
def recognizeImage (c : Constants α) (lib : RecognizerLib α) (vars : CharacterSettings α)
    (img : Raster) (candidates : List Char) (templates : List (MatchRecord α)) :
    Option (RecognitionDistance α) :=
  recognizeMat c lib vars (lib.copyImageToMat img) candidates templates

/-- An instance of the library: the image is taken as it is with aspect ratio
1, and the entries are sorted by insertion. -/
def plainLib : RecognizerLib ℚ where
  prepareImage := fun m => (m, 1)
  copyImageToMat := fun seg => ⟨seg.height, seg.width, fun y x => seg.getByte x y⟩
  sort := fun l => l.insertionSort (fun a b => ¬ b.value < a.value)
  sort_perm := fun l => List.perm_insertionSort _ l
  sort_sorted := by
    intro l
    haveI : IsTotal (ResultEntry ℚ) (fun a b => ¬ b.value < a.value) :=
      ⟨fun a b => by
        by_cases h : b.value < a.value
        · right; exact not_lt.2 (le_of_lt h)
        · left; exact h⟩
    haveI : IsTrans (ResultEntry ℚ) (fun a b => ¬ b.value < a.value) :=
      ⟨fun a b c h1 h2 => not_lt.2 (le_trans (not_lt.1 h1) (not_lt.1 h2))⟩
    exact List.sorted_insertionSort _ l

/-- Canonical size 1, no shift margin, step 1. -/
def unitConstants : Constants ℚ := ⟨1, 0, 1, 1000000⟩

/-- Settings with `MaxTopVariantsLookup = 1` and scale factor 1. -/
def topOne : CharacterSettings ℚ := ⟨1, 1, 2, 3, 4, 0⟩

/-- Three one-pixel templates, for `A`, `B` and `C`, at distances 0, 1 and 2
from an ink pixel. -/
def abcTemplates : List (MatchRecord ℚ) :=
  [⟨['A'], Mat.ofRows 0 [[0]], Mat.ofRows 0 [[1]], 1⟩,
   ⟨['B'], Mat.ofRows 0 [[1]], Mat.ofRows 0 [[0]], 1⟩,
   ⟨['C'], Mat.ofRows 0 [[2]], Mat.ofRows 0 [[0]], 1⟩]

/-- The image of one ink pixel. -/
def inkPixel : Mat Nat := Mat.ofRows 255 [[0]]

/-- A raster of one ink pixel. -/
def inkRaster : Raster := ⟨1, 1, fun _ _ => 0⟩

end CharacterRecognizerImp

namespace CharacterRecognizer

open CharacterRecognizerImp

variable {α : Type} [LinearOrderedField α]

/-- What `isPossibleCharacter` calls on a `RecognitionDistance` and the sources
do not hold: `getBest`, which returns the best character and writes its
distance, and `getQuality`. -/
structure DistanceApi (α : Type) where
  getBest : RecognitionDistance α → Char × α
  getQuality : RecognitionDistance α → α

/-- The constant `CharacterRecognizer::like_bonds`, line 52. -/
def like_bonds : List Char := ['l', 'L', '1', 'i', 'I', 'V', 'v']

/-- The return value of the method `isPossibleCharacter`, lines 55-90, from
line 59 on: `rd` is the distance returned by `recognize` in line 57 and
`endpoints` the number of points returned by `SegmentTools::getEndpoints(seg)`.
The copy of the best character to `*result` is left out. -/
def isPossibleCharacter (api : DistanceApi α) (vars : CharacterSettings α)
    (rd : RecognitionDistance α) (endpoints : Int) (loose_cmp : Bool) : Bool :=
  let ch := (api.getBest rd).1
  let best_dist := (api.getBest rd).2
  if ch = '!' then false
  else if ch ∈ like_bonds ∧ endpoints < vars.MinEndpointsPossible then false
  else if best_dist < vars.PossibleCharacterDistanceStrong ∧
      api.getQuality rd > vars.PossibleCharacterMinimalQuality then true
  else if loose_cmp = true ∧ (best_dist < vars.PossibleCharacterDistanceWeak ∧
      api.getQuality rd > vars.PossibleCharacterMinimalQuality) then true
  else false

/-- The operand `candidates[i]` of line 100 after its promotion to `int`, as a
32-bit two's complement word: `char` is a signed byte, so the byte values from
128 on are negative. -/
def charWord (ch : Char) : Nat :=
  if ch.toNat % 256 < 128 then ch.toNat % 256 else ch.toNat % 256 + (2 ^ 32 - 256)

/-- The conversion of an `int`, given as a 32-bit two's complement word, to the
64-bit unsigned `qword`: the sign bit is copied to the upper 32 bits. -/
def signExtend (w : Nat) : Nat := if w < 2 ^ 31 then w else w + (2 ^ 64 - 2 ^ 32)

/-- The first loop of `getSegmentHash`, lines 99-100, from character number `i`
on, as the compiled code runs it. The shift `candidates[i] << (i % (64 - 8))`
is a shift of an `int`: the hardware takes the count of a 32-bit shift modulo
32 and keeps the low 32 bits of the result (C++ leaves a count of 32 or more
and a result that does not fit undefined; from the 33rd character on the count
exceeds 31). The `int` is then converted to `qword` for the `^=`. -/
def hashCandidates : List Char → Nat → Nat → Nat
  | [], _, segHash => segHash
  | ch :: rest, i, segHash =>
    hashCandidates rest (i + 1)
      (segHash ^^^ signExtend ((charWord ch * 2 ^ ((i % (64 - 8)) % 32)) % 2 ^ 32))

/-- The second loop of `getSegmentHash`, lines 103-111, on 64-bit unsigned
words: the state is `(shift, segHash)`. -/
def hashPixels (seg : Raster) (segHash : Nat) : Nat :=
  ((List.range seg.height).foldl
    (fun st y =>
      (List.range seg.width).foldl
        (fun (st : Nat × Nat) x =>
          if seg.getByte x y = 0 then
            ((st.1 * 2 + x * 3 + y * 7) % 2 ^ 64,
              st.2 ^^^ ((st.1 * 2 + x * 3 + y * 7) % 2 ^ 64))
          else st)
        st)
    (0, segHash)).2

/-- The method `getSegmentHash`, lines 92-114. -/
def getSegmentHash (seg : Raster) (candidates : List Char) : Nat :=
  hashPixels seg (hashCandidates candidates 0 0)

/-- The method `recognize`, lines 141-186. The cache
`vars.caches.PCacheSymbolsRecognition` is a pointer to a
`std::map<qword, RecognitionDistance>` or null; `templates` is the static
template set. The result is the returned distance with the cache afterwards. -/
def recognize (c : Constants α) (lib : RecognizerLib α) (vars : CharacterSettings α)
    (templates : List (MatchRecord α)) (cache : Option (Nat → Option (RecognitionDistance α)))
    (seg : Raster) (candidates : List Char) :
    Option (RecognitionDistance α × Option (Nat → Option (RecognitionDistance α))) :=
  let segHash := getSegmentHash seg candidates
  match cache with
  | some m =>
    match m segHash with
    | some rec => some (rec, some m)
    | none => do
      let rec ← recognizeImage c lib vars seg candidates templates
      some (rec, some (Function.update m segHash (some rec)))
  | none => do
    let rec ← recognizeImage c lib vars seg candidates templates
    some (rec, none)

/-- The cache after a sequence of calls of `recognize` that starts with the
cache `m`. -/
def cacheAfter (c : Constants α) (lib : RecognizerLib α) (vars : CharacterSettings α)
    (templates : List (MatchRecord α)) (m : Nat → Option (RecognitionDistance α)) :
    List (Raster × List Char) → Option (Nat → Option (RecognitionDistance α))
  | [] => some m
  | call :: calls =>
    match recognize c lib vars templates (some m) call.1 call.2 with
    | some (_, some m') => cacheAfter c lib vars templates m' calls
    | _ => none

/-- A `DistanceApi` on the entry list: the best entry is the first one with the
least distance, the quality is the gap to the runner-up. -/
def listApi : DistanceApi ℚ where
  getBest := fun rd =>
    rd.foldl (fun best e => if e.2 < best.2 then e else best) (rd.headD (' ', 0))
  getQuality := fun rd =>
    match rd.map Prod.snd with
    | a :: b :: _ => |a - b|
    | _ => 0

end CharacterRecognizer

namespace LabelCombiner

/-- A label of a 10 x 10 capital and a 6 x 8 digit below and right of it. -/
def subscriptLabel : Label := ⟨⟨0, 0, 0, 0⟩, [⟨0, 0, 10, 10⟩, ⟨11, 14, 6, 8⟩], -1, -1, -1⟩

end LabelCombiner

end imago

namespace gga

namespace Histogram

variable {α : Type} [LinearOrderedField α]

/-- The method `average()`, lines 118-129, for a `value_t` with exact
division. The quotient `sum / (value_t)count` with `count = 0` is a division by
zero, which has no defined value: the result is then `none`. -/
def average (h : Histogram α) : Option α :=
  let sum := h.Data.foldl (fun sum it => sum + it.1 * (it.2.length : α)) 0
  let count := h.Data.foldl (fun (count : Nat) it => count + it.2.length) 0
  if count = 0 then none else some (sum / (count : α))

/-- The method `range()`, lines 131-141. On an empty map `Data.begin()` is
`Data.end()` and `Data.begin()->first` reads no element: the result is then
`none`. -/
def range (h : Histogram α) : Option α :=
  match h.Data with
  | [] => none
  | first :: _ =>
    let mm := h.Data.foldl
      (fun (mm : α × α) it =>
        (if it.1 < mm.1 then it.1 else mm.1, if it.1 > mm.2 then it.1 else mm.2))
      (first.1, first.1)
    some (mm.2 - mm.1)

/-- The indices held under `value`: the vector of the entry that
`Data.find(value)` finds, empty when there is none. -/
def indicesOf (h : Histogram α) (value : α) : List Nat :=
  ((h.Data.find? (fun e => decide (e.1 = value))).map Prod.snd).getD []

/-- The histogram built by `add(i_1, v_1)`, ..., `add(i_n, v_n)` on a new
histogram. -/
def build (pairs : List (Nat × α)) : Histogram α :=
  pairs.foldl (fun h p => h.add p.1 p.2) ⟨[]⟩

end Histogram

end gga

namespace imago

/-- The constant `CharacterRecognizer::upper`, line 43 of
`character_recognizer.cpp`. -/
def CharacterRecognizer.upper : List Char := "ABCDEFGHIJKLMNOPQRSTUVWXYZ$%^&#".toList

/-- The constant `CharacterRecognizer::lower`, line 44. -/
def CharacterRecognizer.lower : List Char := "abcdefghijklmnopqrstuvwxyz".toList

/-- The constant `CharacterRecognizer::digits`, line 45. -/
def CharacterRecognizer.digits : List Char := "0123456789".toList

/-- The constant `CharacterRecognizer::brackets`, line 46. -/
def CharacterRecognizer.brackets : List Char := "()[]".toList

/-- The constant `CharacterRecognizer::charges`, line 47. -/
def CharacterRecognizer.charges : List Char := "+-".toList

/-- The constant `CharacterRecognizer::all`, lines 48-50. -/
def CharacterRecognizer.all : List Char :=
  CharacterRecognizer.upper ++ CharacterRecognizer.lower ++ CharacterRecognizer.digits
    ++ CharacterRecognizer.charges ++ CharacterRecognizer.brackets ++ "=!".toList

namespace LabelCombiner

variable {α : Type} [LinearOrderedField α]

/-- What `_findCapitalHeight` takes from outside the sources: the call
`_cr.recognize(*seg, CharacterRecognizer::all, &d)`, which returns the best
character and writes its distance to `d`, or throws an `OCRException`
(`none`); and the constant `DBL_MAX`. -/
structure CapitalRecognizer (α : Type) where
  recognize : Segment → Option (Char × α)
  DBL_MAX : α

/-- The conversion of an integer to `int` (32 bits, two's complement). -/
def toInt32 (z : Int) : Int := (z + 2 ^ 31) % 2 ^ 32 - 2 ^ 31

/-- Lines 82-88 of `_findCapitalHeight`: the sum of the heights, divided by
`_symbols_layer.size()`. The division is done in `size_t` (taken with 64 bits)
and its quotient is converted back to `int`; the sum is taken without
overflow. On an empty layer the divisor is 0 and the division has no defined
value: the result is then `none`. -/
def meanHeight (_symbols_layer : List Segment) : Option Int :=
  if _symbols_layer.length = 0 then none
  else some (toInt32
    ((_symbols_layer.foldl (fun mean_height seg => mean_height + seg.height) 0) % 2 ^ 64
      / (_symbols_layer.length : Int)))

/-- The body of the second loop of `_findCapitalHeight`, lines 91-117, on the
pair `(min_d, cap_height)`. When `recognize` throws, `c` stays 0, which is no
character of `upper`. -/
def capitalStep (cr : CapitalRecognizer α) (mean_height : Int) (st : α × Int)
    (seg : Segment) : α × Int :=
  match cr.recognize seg with
  | none => st
  | some (c, d) =>
    if c ∈ CharacterRecognizer.upper then
      if d < st.1 ∧ seg.height ≥ mean_height then (d, seg.height)
      else if d < st.1 ∧ seg.height > st.2 ∧ (d < 3.0 ∧ c ≠ 'O') then (d, seg.height)
      else st
    else st

/-- The method `_findCapitalHeight`, lines 76-128. -/
def _findCapitalHeight (cr : CapitalRecognizer α) (_symbols_layer : List Segment) :
    Option Int := do
  let mean_height ← meanHeight _symbols_layer
  some (_symbols_layer.foldl (capitalStep cr mean_height) (cr.DBL_MAX, -1)).2

/-- The loop `BOOST_FOREACH(Label &l, _labels) _fillLabelInfo(l)`. -/
def fillAll (lib : StdLib) (lc : LabelCombiner) : List Label → Option (List Label)
  | [] => some []
  | l :: ls => do
    let l' ← _fillLabelInfo lib lc l
    let rest ← fillAll lib lc ls
    some (l' :: rest)

/-- The constructor `LabelCombiner(symbols_layer, other_layer, cap_height, cr)`,
lines 38-66: the pair of the members `_cap_height` and `_labels` that it
leaves. `CapHeightErr` is the setting of that name and `fresh` a label as
`resize` creates it. The condition of line 55 reads the argument `cap_height`. -/
def construct (glib : GraphLib) (lib : StdLib) (cr : CapitalRecognizer α) (CapHeightErr : ℚ)
    (fresh : Label) (_symbols_layer : List Segment) (cap_height : Int) :
    Option (Int × List Label) := do
  let _cap_height ← _findCapitalHeight cr _symbols_layer
  if cap_height ≠ -1 then do
    let _labels ← _locateLabels glib fresh _symbols_layer
    let _labels ← fillAll lib ⟨_cap_height, CapHeightErr, _cap_height >>> (1 : Nat)⟩ _labels
    some (_cap_height, _labels)
  else some (_cap_height, [])

/-- The method `extractLabels`, lines 206-209, on the pair that `construct`
returns. -/
def extractLabels (built : Int × List Label) : List Label := built.2

/-- A recognizer for examples that reads its answer off the bounding box: it
throws on a box of width 0, and otherwise returns `A` for `x = 0`, `B` for
`x = 1` and `a` for every other `x`, at the distance `y`. -/
def boxRecognizer : CapitalRecognizer ℚ where
  recognize := fun seg =>
    if seg.width = 0 then none
    else some (if seg.x = 0 then 'A' else if seg.x = 1 then 'B' else 'a', (seg.y : ℚ))
  DBL_MAX := 1000000

/-- A graph library for a layer of one symbol: one vertex, no edge, one
component. -/
def soloGraphLib : GraphLib where
  build := fun segs => ⟨segs, segs.map boxCenter, []⟩
  getCenter := boxCenter
  connected_components := fun _ => (1, fun _ => 0)

/-- A label of a 10 x 10 capital and a symbol of height 4 right of it, both
with the top at 0. -/
def superscriptLabel : Label := ⟨⟨0, 0, 0, 0⟩, [⟨0, 0, 10, 10⟩, ⟨12, 0, 4, 4⟩], -1, -1, -1⟩

end LabelCombiner

end imago

namespace gga

namespace Histogram

variable {α : Type} [LinearOrderedCommRing α]

/-- The loop of `startIndexes()`, lines 152-153, on the entry list:
`it->second.at(0)` throws `std::out_of_range` on a vector with no element, and
the result is then `none`. -/
def startIndexesFrom : List (α × List Nat) → Option (List Nat)
  | [] => some []
  | it :: rest => do
    let first ← it.2[0]?
    let result ← startIndexesFrom rest
    some (first :: result)

/-- The method `startIndexes()`, lines 149-156. -/
def startIndexes (h : Histogram α) : Option (List Nat) := startIndexesFrom h.Data

/-- The histograms that a program can reach: a new histogram, and what `add`,
`regroup` with a positive `Delta` (when it returns) and `onlyRepresentative`
make of a histogram that can be reached. -/
inductive Reachable : Histogram α → Prop
  | new : Reachable ⟨[]⟩
  | add (h : Histogram α) (index : Nat) (value : α) :
      Reachable h → Reachable (h.add index value)
  | regroup (h r : Histogram α) (Delta : α) (fuel : Nat) :
      Reachable h → 0 < Delta → h.regroup Delta fuel = some r → Reachable r
  | onlyRepresentative (h : Histogram α) : Reachable h → Reachable h.onlyRepresentative

end Histogram

end gga

namespace imago

namespace CharacterRecognizerImp

/-- Three templates for a one-pixel image, two of them with the text `A`: at
the distances 2, 1 and 3 from an ink pixel. -/
def twinTemplates : List (MatchRecord ℚ) :=
  [⟨['A'], Mat.ofRows 0 [[2]], Mat.ofRows 0 [[0]], 1⟩,
   ⟨['A'], Mat.ofRows 0 [[1]], Mat.ofRows 0 [[0]], 1⟩,
   ⟨['B'], Mat.ofRows 0 [[3]], Mat.ofRows 0 [[0]], 1⟩]

end CharacterRecognizerImp

end imago

namespace gga

namespace Histogram

variable {α : Type} [LinearOrder α] [ValueType α]

/-! ### The source loops and the list of unprocessed entries -/

theorem firstUnprocessed_eq (Data : List (α × List Nat)) (processed : List Bool) :
    firstUnprocessed Data processed = (unprocessed Data processed).head? := by
  unfold firstUnprocessed unprocessed
  induction Data.zip processed with
  | nil => rfl
  | cons ep l ih =>
    rcases ep with ⟨e, p⟩
    cases p <;> simp_all [List.find?_cons, List.filter_cons]

theorem foldl_zip_skip {β : Type} (f : β → (α × List Nat) → β)
    (l : List ((α × List Nat) × Bool)) (b : β) :
    l.foldl (fun acc ep => if ep.2 then acc else f acc ep.1) b
      = ((l.filter (fun ep => !ep.2)).map Prod.fst).foldl f b := by
  induction l generalizing b with
  | nil => rfl
  | cons ep l ih =>
    rcases ep with ⟨e, p⟩
    cases p <;> simp [List.filter_cons, ih]

theorem foldl_count_eq (P : (α × List Nat) → Bool) (l : List (α × List Nat)) (n : Nat) :
    l.foldl (fun count e => if P e then count + e.2.length else count) n
      = n + ((l.filter P).map (fun e => e.2.length)).sum := by
  induction l generalizing n with
  | nil => simp
  | cons e l ih =>
    by_cases hP : P e <;> simp [List.filter_cons, hP, ih, Nat.add_assoc]

theorem neighbourCount_eq (Data : List (α × List Nat)) (processed : List Bool) (Delta : α)
    (center : α × List Nat) :
    neighbourCount Data processed Delta center
      = neighbourhood (unprocessed Data processed) Delta center.1 := by
  unfold neighbourCount neighbourhood unprocessed
  generalize Data.zip processed = l
  refine Eq.trans ?_ ((foldl_zip_skip
    (fun count (e : α × List Nat) =>
      if decide (e.1 ≠ center.1) && near Delta center.1 e then count + e.2.length else count)
    l 0).trans ((foldl_count_eq _ _ 0).trans (Nat.zero_add _)))
  congr 1
  funext count ep
  rcases ep with ⟨e, p⟩
  cases p <;> simp [near]

theorem selectCenter_eq (Data : List (α × List Nat)) (processed : List Bool) (Delta : α)
    (first : α × List Nat) :
    selectCenter Data processed Delta first
      = (pickCenter (neighbourhood (unprocessed Data processed) Delta)
          (unprocessed Data processed) (0, first)).2 := by
  unfold selectCenter pickCenter
  congr 1
  have hcnt : ∀ e : α × List Nat, neighbourCount Data processed Delta e
      = neighbourhood (unprocessed Data processed) Delta e.1 :=
    fun e => neighbourCount_eq Data processed Delta e
  simp only [hcnt]
  exact foldl_zip_skip
    (fun (best : Nat × (α × List Nat)) (e : α × List Nat) =>
      if neighbourhood (unprocessed Data processed) Delta e.1 > best.1
      then (neighbourhood (unprocessed Data processed) Delta e.1, e) else best)
    (Data.zip processed) (0, first)

theorem zip_map_zip (f : (α × List Nat) × Bool → Bool) (Data : List (α × List Nat))
    (processed : List Bool) :
    Data.zip ((Data.zip processed).map f)
      = (Data.zip processed).map (fun ep => (ep.1, f ep)) := by
  induction Data generalizing processed with
  | nil => simp
  | cons e D ih =>
    cases processed with
    | nil => simp
    | cons p ps => simp [ih]

theorem unprocessed_markRound (Data : List (α × List Nat)) (processed : List Bool)
    (Delta c : α) :
    unprocessed Data (markRound Data processed Delta c)
      = (unprocessed Data processed).filter (fun e => !near Delta c e) := by
  unfold unprocessed markRound
  rw [zip_map_zip]
  generalize Data.zip processed = l
  induction l with
  | nil => rfl
  | cons ep l ih =>
    rcases ep with ⟨e, p⟩
    cases p
    · by_cases h : ValueType.within Delta c e.1 = true <;>
        simp_all [List.filter_cons, near]
    · simp_all [List.filter_cons]

theorem addAll_append (r : Histogram α) (c : α) (l₁ l₂ : List Nat) :
    r.addAll c (l₁ ++ l₂) = (r.addAll c l₁).addAll c l₂ := by
  simp [addAll, List.foldl_append]

theorem foldl_addAll (c : α) (P : (α × List Nat) → Bool) (l : List (α × List Nat))
    (r : Histogram α) :
    l.foldl (fun r e => if P e then r.addAll c e.2 else r) r
      = r.addAll c ((l.filter P).map Prod.snd).flatten := by
  induction l generalizing r with
  | nil => simp [addAll]
  | cons e l ih =>
    by_cases hP : P e
    · simp [List.filter_cons, hP, ih, addAll_append]
    · simp [List.filter_cons, hP, ih]

theorem collectRound_eq (Data : List (α × List Nat)) (processed : List Bool) (Delta c : α)
    (r : Histogram α) :
    collectRound Data processed Delta c r
      = r.addAll c (mergedIndices (unprocessed Data processed) Delta c) := by
  unfold collectRound mergedIndices unprocessed
  generalize Data.zip processed = l
  refine Eq.trans ?_ ((foldl_zip_skip
    (fun (r : Histogram α) (e : α × List Nat) =>
      if near Delta c e then r.addAll c e.2 else r) l r).trans (foldl_addAll c _ _ r))
  congr 1
  funext r ep
  rcases ep with ⟨e, p⟩
  cases p <;> simp [near]

theorem regroupLoop_eq (Data : List (α × List Nat)) (Delta : α) (fuel : Nat)
    (processed : List Bool) (r : Histogram α) :
    regroupLoop Data Delta fuel processed r
      = regroupRec Delta fuel (unprocessed Data processed) r := by
  induction fuel generalizing processed r with
  | zero => simp [regroupLoop, regroupRec]
  | succ fuel ih =>
    unfold regroupLoop
    rw [firstUnprocessed_eq]
    cases hrem : unprocessed Data processed with
    | nil => simp [regroupRec]
    | cons first rest =>
      simp only [List.head?_cons, regroupRec]
      rw [ih, unprocessed_markRound, collectRound_eq, selectCenter_eq, hrem]

theorem unprocessed_init (Data : List (α × List Nat)) :
    unprocessed Data (Data.map (fun _ => false)) = Data := by
  unfold unprocessed
  induction Data with
  | nil => rfl
  | cons e D ih => simp_all [List.filter_cons]

theorem regroup_eq (h : Histogram α) (Delta : α) (fuel : Nat) :
    h.regroup Delta (fuel + 1) = regroupRec Delta (fuel + 1) h.Data ⟨[]⟩ := by
  unfold regroup empty
  cases hD : h.Data with
  | nil => simp [regroupRec]
  | cons e D =>
    simp only [List.isEmpty_cons, Bool.false_eq_true, if_false]
    rw [regroupLoop_eq, unprocessed_init]

/-! ### `add` on the entry list -/

theorem insertIndex_flatten_perm (i : Nat) (c : α) (D : List (α × List Nat)) :
    (((insertIndex i c D).map Prod.snd).flatten).Perm ((D.map Prod.snd).flatten ++ [i]) := by
  induction D with
  | nil => simp [insertIndex]
  | cons e D ih =>
    rcases e with ⟨v, is⟩
    unfold insertIndex
    split_ifs with h1 h2
    · simp only [List.map_cons, List.flatten_cons, List.singleton_append]
      exact (List.perm_append_singleton i _).symm
    · simp [List.append_assoc]
      exact List.Perm.append_left is (List.perm_append_singleton i _).symm
    · simp only [List.map_cons, List.flatten_cons, List.append_assoc]
      exact List.Perm.append_left is ih

theorem addAll_indices_perm (r : Histogram α) (c : α) (l : List Nat) :
    (r.addAll c l).indices.Perm (r.indices ++ l) := by
  induction l generalizing r with
  | nil => simp [addAll]
  | cons i l ih =>
    have h1 : (r.addAll c (i :: l)) = (r.add i c).addAll c l := by simp [addAll]
    rw [h1]
    refine (ih (r.add i c)).trans ?_
    have h2 : (r.add i c).indices.Perm (r.indices ++ [i]) :=
      insertIndex_flatten_perm i c r.Data
    simpa [List.append_assoc] using h2.append_right l

theorem insertIndex_comm (i j : Nat) (c d : α) (hcd : c ≠ d) (D : List (α × List Nat)) :
    insertIndex i c (insertIndex j d D) = insertIndex j d (insertIndex i c D) := by
  induction D with
  | nil =>
    rcases lt_or_gt_of_ne hcd with h | h
    · simp [insertIndex, h, not_lt_of_gt h, hcd, Ne.symm hcd]
    · simp [insertIndex, h, not_lt_of_gt h, hcd, Ne.symm hcd]
  | cons e D ih =>
    rcases e with ⟨v, is⟩
    rcases lt_trichotomy c v with hc | hc | hc <;>
    rcases lt_trichotomy d v with hd | hd | hd <;>
    rcases lt_or_gt_of_ne hcd with h | h <;>
    first
    | (exfalso; subst_vars;
        first
        | exact lt_irrefl _ h
        | exact lt_asymm hc h
        | exact lt_asymm hd h
        | exact lt_irrefl _ (lt_trans (lt_trans hc hd) h)
        | exact lt_irrefl _ (lt_trans (lt_trans hd hc) h))
    | (subst hc; simp [insertIndex, hd, h, not_lt_of_gt, hcd, Ne.symm hcd, ne_of_lt, ne_of_gt, ih])
    | (subst hd; simp [insertIndex, hc, h, not_lt_of_gt, hcd, Ne.symm hcd, ne_of_lt, ne_of_gt, ih])
    | simp [insertIndex, hc, hd, h, not_lt_of_gt, hcd, Ne.symm hcd, ne_of_lt, ne_of_gt, ih]

theorem add_addAll_comm (r : Histogram α) (i : Nat) (c d : α) (hcd : c ≠ d) (m : List Nat) :
    (r.add i c).addAll d m = (r.addAll d m).add i c := by
  induction m generalizing r with
  | nil => simp [addAll]
  | cons j m ih =>
    have h1 : ∀ x : Histogram α, x.addAll d (j :: m) = (x.add j d).addAll d m := by
      intro x; simp [addAll]
    rw [h1, h1, ← ih]
    congr 1
    simp only [add]
    rw [insertIndex_comm j i d c (Ne.symm hcd)]

theorem addAll_comm (r : Histogram α) (c d : α) (hcd : c ≠ d) (l m : List Nat) :
    (r.addAll c l).addAll d m = (r.addAll d m).addAll c l := by
  induction l generalizing r with
  | nil => simp [addAll]
  | cons i l ih =>
    have h1 : ∀ x : Histogram α, x.addAll c (i :: l) = (x.add i c).addAll c l := by
      intro x; simp [addAll]
    rw [h1, h1, ih, add_addAll_comm r i c d hcd m]

theorem insertIndex_fresh (i : Nat) (c : α) (D : List (α × List Nat))
    (hc : c ∉ D.map Prod.fst) :
    insertIndex i c D
      = D.takeWhile (fun e => decide (e.1 < c)) ++ (c, [i]) :: D.dropWhile (fun e => decide (e.1 < c)) := by
  induction D with
  | nil => simp [insertIndex]
  | cons e D ih =>
    rcases e with ⟨v, is⟩
    simp only [List.map_cons, List.mem_cons, not_or] at hc
    rcases lt_or_gt_of_ne hc.1 with h | h
    · simp [insertIndex, h, List.takeWhile_cons, List.dropWhile_cons, not_lt_of_gt h]
    · simp [insertIndex, h, List.takeWhile_cons, List.dropWhile_cons, not_lt_of_gt h, hc.1,
        ih hc.2]

theorem insertIndex_at (j : Nat) (c : α) (A B : List (α × List Nat)) (is : List Nat)
    (hA : ∀ e ∈ A, e.1 < c) :
    insertIndex j c (A ++ (c, is) :: B) = A ++ (c, is ++ [j]) :: B := by
  induction A with
  | nil => simp [insertIndex]
  | cons e A ih =>
    rcases e with ⟨v, vs⟩
    have hv : v < c := hA (v, vs) (List.mem_cons_self _ _)
    have ih' := ih (fun e he => hA e (List.mem_cons_of_mem _ he))
    simp [insertIndex, not_lt_of_gt hv, ne_of_gt hv, ih']

theorem addAll_at (c : α) (A B : List (α × List Nat)) (is l : List Nat)
    (hA : ∀ e ∈ A, e.1 < c) :
    (addAll ⟨A ++ (c, is) :: B⟩ c l).Data = A ++ (c, is ++ l) :: B := by
  induction l generalizing is with
  | nil => simp [addAll]
  | cons j l ih =>
    have h1 : addAll ⟨A ++ (c, is) :: B⟩ c (j :: l)
        = addAll ⟨A ++ (c, is ++ [j]) :: B⟩ c l := by
      simp [addAll, add, insertIndex_at j c A B is hA]
    rw [h1, ih]
    simp

/-- Adding a non-empty run of indices under a value that has no group yet
creates the group of that value, holding exactly the run, at its place in key
order. -/
theorem addAll_fresh (c : α) (D : List (α × List Nat)) (l : List Nat) (hl : l ≠ [])
    (hc : c ∉ D.map Prod.fst) :
    (addAll ⟨D⟩ c l).Data
      = D.takeWhile (fun e => decide (e.1 < c)) ++ (c, l) :: D.dropWhile (fun e => decide (e.1 < c)) := by
  cases l with
  | nil => exact absurd rfl hl
  | cons i l =>
    have h1 : addAll ⟨D⟩ c (i :: l)
        = addAll ⟨D.takeWhile (fun e => decide (e.1 < c)) ++ (c, [i])
            :: D.dropWhile (fun e => decide (e.1 < c))⟩ c l := by
      simp [addAll, add, insertIndex_fresh i c D hc]
    rw [h1, addAll_at]
    · simp
    · intro e he
      simpa using (List.mem_takeWhile_imp he)

/-! ### The choice of the centre -/

theorem pickCenter_cons (cnt : α → Nat) (x : α × List Nat) (l : List (α × List Nat))
    (best : Nat × (α × List Nat)) :
    pickCenter cnt (x :: l) best
      = pickCenter cnt l (if cnt x.1 > best.1 then (cnt x.1, x) else best) := by
  simp [pickCenter]

theorem pickCenter_mem (cnt : α → Nat) (l : List (α × List Nat))
    (best : Nat × (α × List Nat)) :
    (pickCenter cnt l best).2 = best.2 ∨ (pickCenter cnt l best).2 ∈ l := by
  induction l generalizing best with
  | nil => left; rfl
  | cons x l ih =>
    rw [pickCenter_cons]
    by_cases hx : cnt x.1 > best.1
    · rw [if_pos hx]
      rcases ih (cnt x.1, x) with h | h
      · right; rw [h]; exact List.mem_cons_self _ _
      · right; exact List.mem_cons_of_mem _ h
    · rw [if_neg hx]
      rcases ih best with h | h
      · left; exact h
      · right; exact List.mem_cons_of_mem _ h

theorem pickCenter_inv (cnt : α → Nat) (suf pre : List (α × List Nat))
    (best : Nat × (α × List Nat))
    (hs : (pre ++ suf).Pairwise (fun a b => a.1 < b.1))
    (h1 : best.2 ∈ pre) (h2 : best.1 = cnt best.2.1)
    (h3 : ∀ e ∈ pre, cnt e.1 ≤ best.1)
    (h4 : ∀ e ∈ pre, cnt e.1 = best.1 → best.2.1 ≤ e.1) :
    (pickCenter cnt suf best).2 ∈ pre ++ suf ∧
    (pickCenter cnt suf best).1 = cnt (pickCenter cnt suf best).2.1 ∧
    (∀ e ∈ pre ++ suf, cnt e.1 ≤ (pickCenter cnt suf best).1) ∧
    (∀ e ∈ pre ++ suf, cnt e.1 = (pickCenter cnt suf best).1 →
      (pickCenter cnt suf best).2.1 ≤ e.1) := by
  induction suf generalizing pre best with
  | nil =>
    simp only [pickCenter, List.foldl_nil, List.append_nil]
    exact ⟨h1, h2, h3, h4⟩
  | cons x suf ih =>
    rw [pickCenter_cons]
    have hs' : ((pre ++ [x]) ++ suf).Pairwise (fun a b => a.1 < b.1) := by
      simpa [List.append_assoc] using hs
    have hpre : ∀ e ∈ pre, e.1 < x.1 := by
      intro e he
      exact (List.pairwise_append.1 hs).2.2 e he x (List.mem_cons_self _ _)
    have key := ih (pre ++ [x]) (if cnt x.1 > best.1 then (cnt x.1, x) else best) hs'
    simp only [List.append_assoc, List.singleton_append] at key
    apply key
    · split_ifs <;> simp [h1]
    · split_ifs <;> simp [h2]
    · intro e he
      rcases List.mem_append.1 he with he | he
      · have := h3 e he
        split_ifs with hx
        · exact le_of_lt (lt_of_le_of_lt this hx)
        · exact this
      · rw [List.mem_singleton.1 he]
        split_ifs with hx
        · exact le_refl _
        · exact not_lt.1 hx
    · intro e he hcnt
      rcases List.mem_append.1 he with he | he
      · split_ifs at hcnt ⊢ with hx
        · exact absurd (h3 e he) (by simp only at hcnt; omega)
        · exact h4 e he hcnt
      · rw [List.mem_singleton.1 he] at hcnt ⊢
        split_ifs with hx
        · exact le_refl _
        · exact le_of_lt (hpre _ h1)

/-- On a non-empty list with ascending values the scan of `regroup` returns an
entry of the list with the largest count, the first such entry. -/
theorem pickCenter_spec (cnt : α → Nat) (first : α × List Nat) (rest : List (α × List Nat))
    (hs : (first :: rest).Pairwise (fun a b => a.1 < b.1)) :
    (pickCenter cnt (first :: rest) (0, first)).2 ∈ first :: rest ∧
    (∀ e ∈ first :: rest, cnt e.1 ≤ cnt (pickCenter cnt (first :: rest) (0, first)).2.1) ∧
    (∀ e ∈ first :: rest, cnt e.1 = cnt (pickCenter cnt (first :: rest) (0, first)).2.1 →
      (pickCenter cnt (first :: rest) (0, first)).2.1 ≤ e.1) := by
  have h0 : (if cnt first.1 > (0, first).1 then (cnt first.1, first) else (0, first))
      = (cnt first.1, first) := by
    by_cases h : cnt first.1 > 0
    · simp [h]
    · have : cnt first.1 = 0 := by omega
      simp [this]
  rw [pickCenter_cons, h0]
  have key := pickCenter_inv cnt rest [first] (cnt first.1, first) (by simpa using hs)
    (by simp) rfl (by simp) (by simp)
  simp only [List.singleton_append] at key
  obtain ⟨k1, k2, k3, k4⟩ := key
  exact ⟨k1, fun e he => k2 ▸ k3 e he, fun e he h => k4 e he (k2 ▸ h)⟩

theorem pickCenter_mem_cons (cnt : α → Nat) (first : α × List Nat)
    (rest : List (α × List Nat)) :
    (pickCenter cnt (first :: rest) (0, first)).2 ∈ first :: rest := by
  rcases pickCenter_mem cnt (first :: rest) (0, first) with h | h
  · rw [h]; exact List.mem_cons_self _ _
  · exact h

/-! ### The loop on the list of unprocessed entries -/

theorem regroupRec_cons (Delta : α) (fuel : Nat) (first : α × List Nat)
    (rest : List (α × List Nat)) (r : Histogram α) :
    regroupRec Delta (fuel + 1) (first :: rest) r
      = regroupRec Delta fuel
          ((first :: rest).filter (fun e => !near Delta
            (pickCenter (neighbourhood (first :: rest) Delta) (first :: rest) (0, first)).2.1 e))
          (r.addAll (pickCenter (neighbourhood (first :: rest) Delta) (first :: rest) (0, first)).2.1
            (mergedIndices (first :: rest) Delta
              (pickCenter (neighbourhood (first :: rest) Delta) (first :: rest) (0, first)).2.1)) := by
  simp [regroupRec]

theorem flatten_filter_perm (P : (α × List Nat) → Bool) (l : List (α × List Nat)) :
    (((l.filter P).map Prod.snd).flatten ++ ((l.filter (fun e => !P e)).map Prod.snd).flatten).Perm
      ((l.map Prod.snd).flatten) := by
  induction l with
  | nil => simp
  | cons e l ih =>
    by_cases hP : P e
    · simp only [List.filter_cons, hP, if_true, List.map_cons, List.flatten_cons,
        Bool.not_true, Bool.false_eq_true, if_false, List.append_assoc]
      exact List.Perm.append_left e.2 ih
    · simp only [List.filter_cons, hP, if_false, List.map_cons, List.flatten_cons,
        Bool.not_false, if_true, Bool.false_eq_true]
      refine List.Perm.trans ?_ (List.Perm.append_left e.2 ih)
      simp only [← List.append_assoc]
      exact List.Perm.append_right _ List.perm_append_comm

/-- One pass of the loop, with the entries it leaves unprocessed and the
result it builds named. -/
theorem regroupRec_round (Delta : α) (fuel : Nat) (first : α × List Nat)
    (rest : List (α × List Nat)) (r : Histogram α) (rem : List (α × List Nat))
    (r' : Histogram α)
    (hrem : (first :: rest).filter (fun e => !near Delta
      (pickCenter (neighbourhood (first :: rest) Delta) (first :: rest) (0, first)).2.1 e) = rem)
    (hr : r.addAll (pickCenter (neighbourhood (first :: rest) Delta) (first :: rest) (0, first)).2.1
      (mergedIndices (first :: rest) Delta
        (pickCenter (neighbourhood (first :: rest) Delta) (first :: rest) (0, first)).2.1) = r') :
    regroupRec Delta (fuel + 1) (first :: rest) r = regroupRec Delta fuel rem r' := by
  rw [regroupRec_cons, hrem, hr]

/-- When every unprocessed value passes the test against itself, the loop ends
within one pass per unprocessed entry and the pass that breaks. -/
theorem regroupRec_returns (Delta : α) (fuel : Nat)
    (rem : List (α × List Nat)) (r : Histogram α)
    (hself : ∀ e ∈ rem, near Delta e.1 e = true) (hfuel : rem.length < fuel) :
    ∃ r', regroupRec Delta fuel rem r = some r' ∧
      r'.indices.Perm (r.indices ++ (rem.map Prod.snd).flatten) := by
  induction fuel generalizing rem r with
  | zero => exact absurd hfuel (Nat.not_lt_zero _)
  | succ fuel ih =>
    cases rem with
    | nil => exact ⟨r, by simp [regroupRec], by simp⟩
    | cons first rest =>
      rw [regroupRec_cons]
      generalize hc : (pickCenter (neighbourhood (first :: rest) Delta) (first :: rest)
        (0, first)) = best
      have hmem : best.2 ∈ first :: rest := hc ▸ pickCenter_mem_cons _ first rest
      have hlt : ((first :: rest).filter (fun e => !near Delta best.2.1 e)).length
          < (first :: rest).length :=
        List.length_filter_lt_length_iff_exists.2
          ⟨best.2, hmem, by simp [hself best.2 hmem]⟩
      obtain ⟨r', hr', hperm⟩ := ih ((first :: rest).filter (fun e => !near Delta best.2.1 e))
        (r.addAll best.2.1 (mergedIndices (first :: rest) Delta best.2.1))
        (fun e he => hself e (List.mem_filter.1 he).1)
        (by simp only [List.length_cons] at hfuel hlt ⊢; omega)
      refine ⟨r', hr', hperm.trans ?_⟩
      refine ((addAll_indices_perm r best.2.1 _).append_right _).trans ?_
      rw [List.append_assoc]
      exact List.Perm.append_left _ (flatten_filter_perm (near Delta best.2.1) (first :: rest))

theorem regroupRec_mono (Delta : α) (fuel : Nat) (rem : List (α × List Nat))
    (r x : Histogram α) (h : regroupRec Delta fuel rem r = some x) :
    regroupRec Delta (fuel + 1) rem r = some x := by
  induction fuel generalizing rem r with
  | zero => simp [regroupRec] at h
  | succ fuel ih =>
    cases rem with
    | nil => simpa [regroupRec] using h
    | cons first rest =>
      rw [regroupRec_cons] at h ⊢
      exact ih _ _ h

theorem regroupRec_addAll (Delta : α) (fuel : Nat) (rem : List (α × List Nat))
    (r : Histogram α) (c : α) (l : List Nat) (hc : c ∉ rem.map Prod.fst) :
    regroupRec Delta fuel rem (r.addAll c l)
      = (regroupRec Delta fuel rem r).map (fun x => x.addAll c l) := by
  induction fuel generalizing rem r with
  | zero => simp [regroupRec]
  | succ fuel ih =>
    cases rem with
    | nil => simp [regroupRec]
    | cons first rest =>
      rw [regroupRec_cons, regroupRec_cons]
      generalize hb : (pickCenter (neighbourhood (first :: rest) Delta) (first :: rest)
        (0, first)) = best
      have hmem : best.2 ∈ first :: rest := hb ▸ pickCenter_mem_cons _ first rest
      have hne : c ≠ best.2.1 := by
        intro h
        exact hc (h ▸ List.mem_map_of_mem Prod.fst hmem)
      rw [addAll_comm r c best.2.1 hne]
      apply ih
      intro h
      obtain ⟨e, he, hec⟩ := List.mem_map.1 h
      exact hc (List.mem_map.2 ⟨e, (List.mem_filter.1 he).1, hec⟩)

/-- When no unprocessed entry passes the test against any unprocessed value,
the loop never ends: no flag is set, and the next pass finds what this one
found. -/
theorem regroupRec_stuck (Delta : α) (fuel : Nat)
    (rem : List (α × List Nat)) (r : Histogram α) (hrem : rem ≠ [])
    (hfar : ∀ c ∈ rem, ∀ e ∈ rem, near Delta c.1 e = false) :
    regroupRec Delta fuel rem r = none := by
  induction fuel generalizing r with
  | zero => simp [regroupRec]
  | succ fuel ih =>
    cases rem with
    | nil => exact absurd rfl hrem
    | cons first rest =>
      rw [regroupRec_cons]
      generalize hb : (pickCenter (neighbourhood (first :: rest) Delta) (first :: rest)
        (0, first)) = best
      have hmem : best.2 ∈ first :: rest := hb ▸ pickCenter_mem_cons _ first rest
      have hsame : (first :: rest).filter (fun e => !near Delta best.2.1 e) = first :: rest := by
        apply List.filter_eq_self.2
        intro e he
        simp [hfar best.2 hmem e he]
      rw [hsame]
      exact ih _

/-- On a non-empty histogram none of whose values passes the test against any
of them, `regroup` never returns. -/
theorem regroup_stuck (h : Histogram α) (Delta : α) (hne : h.Data ≠ [])
    (hfar : ∀ c ∈ h.Data, ∀ e ∈ h.Data, near Delta c.1 e = false) (fuel : Nat) :
    h.regroup Delta fuel = none := by
  cases fuel with
  | zero =>
    unfold regroup empty
    cases hD : h.Data with
    | nil => exact absurd hD hne
    | cons e D => simp [regroupLoop]
  | succ fuel =>
    rw [regroup_eq]
    exact regroupRec_stuck Delta _ _ _ hne hfar

/-- With `Delta ≤ 0` and exact arithmetic the loop of `regroup` never ends on a
non-empty histogram: no group is within `Delta` of the centre, not even the
centre itself, so no flag is ever set. -/
theorem regroup_nonpositive_diverges {β : Type} [LinearOrderedCommRing β]
    (h : Histogram β) (Delta : β) (hΔ : Delta ≤ 0)
    (hne : h.Data ≠ []) (fuel : Nat) : h.regroup Delta fuel = none := by
  apply regroup_stuck h Delta hne
  intro c _ e _
  have : ¬ |e.1 - c.1| < Delta := not_lt.2 (le_trans hΔ (abs_nonneg _))
  simp [near, ValueType.within, this]

/-- With `Delta > 0` and exact arithmetic every value passes the test against
itself. -/
theorem near_self_exact {β : Type} [LinearOrderedCommRing β] (Delta : β) (hΔ : 0 < Delta)
    (v : β) : ValueType.within Delta v v = true := by
  simp [ValueType.within, hΔ]

theorem overflow_pos : 0 < Double.overflow := by decide!

/-- With `Delta > 0` every finite `double` passes the test against itself. -/
theorem near_self_double (Delta : Double) (hΔ : Double.fin 0 < Delta) (a : Int) :
    ValueType.within Delta (Double.fin a) (Double.fin a) = true := by
  have h0 : roundToDouble 0 = 0 := by decide
  have hlt : ¬ (Double.overflow ≤ 0) := not_le.2 overflow_pos
  show Double.within Delta (some (some a)) (some (some a)) = true
  simp only [Double.within, sub_self, Int.natAbs_zero, hlt, if_false, h0]
  simpa using hΔ

/-- The test on `double` does not depend on the order of its two values. -/
theorem within_comm_double (Delta c v : Double) :
    (ValueType.within Delta c v : Bool) = ValueType.within Delta v c := by
  show Double.within Delta c v = Double.within Delta v c
  rcases c with _ | _ | b <;> rcases v with _ | _ | a <;> simp only [Double.within]
  rw [show (a - b).natAbs = (b - a).natAbs from by rw [← Int.natAbs_neg, neg_sub]]

/-! ### Group values of the result -/

theorem insertIndex_values (i : Nat) (c : α) (D : List (α × List Nat)) :
    ∀ v ∈ (insertIndex i c D).map Prod.fst, v = c ∨ v ∈ D.map Prod.fst := by
  induction D with
  | nil => simp [insertIndex]
  | cons e D ih =>
    rcases e with ⟨w, is⟩
    intro v hv
    unfold insertIndex at hv
    split_ifs at hv with h1 h2
    · simpa using hv
    · right; simpa using hv
    · simp only [List.map_cons, List.mem_cons] at hv ⊢
      rcases hv with hv | hv
      · right; left; exact hv
      · rcases ih v hv with h | h
        · left; exact h
        · right; right; exact h

theorem addAll_values (r : Histogram α) (c : α) (l : List Nat) :
    ∀ v ∈ (r.addAll c l).values, v = c ∨ v ∈ r.values := by
  induction l generalizing r with
  | nil => intro v hv; right; simpa [addAll] using hv
  | cons i l ih =>
    intro v hv
    have h1 : r.addAll c (i :: l) = (r.add i c).addAll c l := by simp [addAll]
    rw [h1] at hv
    rcases ih (r.add i c) v hv with h | h
    · left; exact h
    · exact insertIndex_values i c r.Data v h

theorem regroupRec_values (Delta : α) (fuel : Nat) (rem : List (α × List Nat))
    (r x : Histogram α) (h : regroupRec Delta fuel rem r = some x) :
    ∀ v ∈ x.values, v ∈ r.values ∨ v ∈ rem.map Prod.fst := by
  induction fuel generalizing rem r with
  | zero => simp [regroupRec] at h
  | succ fuel ih =>
    cases rem with
    | nil =>
      simp only [regroupRec, Option.some.injEq] at h
      subst h
      intro v hv; left; exact hv
    | cons first rest =>
      rw [regroupRec_cons] at h
      generalize hb : (pickCenter (neighbourhood (first :: rest) Delta) (first :: rest)
        (0, first)) = best at h
      have hmem : best.2 ∈ first :: rest := hb ▸ pickCenter_mem_cons _ first rest
      intro v hv
      rcases ih _ _ h v hv with h1 | h1
      · rcases addAll_values r best.2.1 _ v h1 with h2 | h2
        · right; rw [h2]; exact List.mem_map_of_mem Prod.fst hmem
        · left; exact h2
      · right
        obtain ⟨e, he, hev⟩ := List.mem_map.1 h1
        exact List.mem_map.2 ⟨e, (List.mem_filter.1 he).1, hev⟩

/-! ### Groups are merged, never split -/

theorem mem_mergedIndices (rem : List (α × List Nat)) (Delta c : α) (i : Nat) :
    i ∈ mergedIndices rem Delta c ↔ ∃ e ∈ rem, near Delta c e = true ∧ i ∈ e.2 := by
  unfold mergedIndices
  constructor
  · intro h
    obtain ⟨l, hl, hil⟩ := List.mem_flatten.1 h
    obtain ⟨e, he, rfl⟩ := List.mem_map.1 hl
    exact ⟨e, (List.mem_filter.1 he).1, (List.mem_filter.1 he).2, hil⟩
  · rintro ⟨e, he, hnear, hi⟩
    exact List.mem_flatten.2 ⟨e.2, List.mem_map.2 ⟨e, List.mem_filter.2 ⟨he, hnear⟩, rfl⟩, hi⟩

theorem regroupRec_indices_perm (Delta : α) (fuel : Nat) (rem : List (α × List Nat))
    (r x : Histogram α) (hx : regroupRec Delta fuel rem r = some x) :
    x.indices.Perm (r.indices ++ (rem.map Prod.snd).flatten) := by
  induction fuel generalizing rem r with
  | zero => simp [regroupRec] at hx
  | succ fuel ih =>
    cases rem with
    | nil =>
      simp only [regroupRec, Option.some.injEq] at hx
      subst hx
      simp
    | cons first rest =>
      rw [regroupRec_cons] at hx
      refine (ih _ _ hx).trans ?_
      refine ((addAll_indices_perm r _ _).append_right _).trans ?_
      rw [List.append_assoc]
      exact List.Perm.append_left _ (flatten_filter_perm (near Delta _) (first :: rest))

/-- An index held by one group only of the unprocessed entries is held by one
group only of the result: groups are merged, never split. -/
theorem regroupRec_unique_group (Delta : α) (fuel : Nat)
    (rem : List (α × List Nat)) (x : Histogram α)
    (hself : ∀ e ∈ rem, near Delta e.1 e = true)
    (hx : regroupRec Delta fuel rem ⟨[]⟩ = some x) (i : Nat)
    (hi : ∃ e ∈ rem, i ∈ e.2 ∧ ∀ e' ∈ rem, i ∈ e'.2 → e' = e) :
    ∃ g ∈ x.Data, i ∈ g.2 ∧ ∀ g' ∈ x.Data, i ∈ g'.2 → g' = g := by
  induction fuel generalizing rem x with
  | zero => simp [regroupRec] at hx
  | succ fuel ih =>
    cases rem with
    | nil =>
      obtain ⟨e, he, -⟩ := hi
      exact absurd he (List.not_mem_nil _)
    | cons first rest =>
      rw [regroupRec_cons] at hx
      generalize hb : (pickCenter (neighbourhood (first :: rest) Delta) (first :: rest)
        (0, first)) = best at hx
      have hfresh : best.2.1 ∉ ((first :: rest).filter (fun e => !near Delta best.2.1 e)).map
          Prod.fst := by
        intro hin
        obtain ⟨e, he, hec⟩ := List.mem_map.1 hin
        have h1 := (List.mem_filter.1 he).2
        rw [← hec, hself e (List.mem_filter.1 he).1] at h1
        simp at h1
      rw [regroupRec_addAll Delta fuel _ ⟨[]⟩ best.2.1 _ hfresh] at hx
      cases hy : regroupRec Delta fuel
          ((first :: rest).filter (fun e => !near Delta best.2.1 e)) ⟨[]⟩ with
      | none => rw [hy] at hx; simp at hx
      | some y =>
        rw [hy] at hx
        simp only [Option.map_some', Option.some.injEq] at hx
        obtain ⟨e, he, hie, huniq⟩ := hi
        have hvals : best.2.1 ∉ y.values := by
          intro hin
          rcases regroupRec_values Delta fuel _ _ y hy _ hin with h1 | h1
          · simp [values] at h1
          · exact hfresh h1
        have hyfar : ∀ g ∈ y.Data, i ∈ g.2 → near Delta best.2.1 e = false := by
          intro g hg hig
          have hmem : i ∈ y.indices :=
            List.mem_flatten.2 ⟨g.2, List.mem_map.2 ⟨g, hg, rfl⟩, hig⟩
          have hmem' := (regroupRec_indices_perm Delta fuel _ _ y hy).mem_iff.1 hmem
          simp only [indices, List.map_nil, List.flatten_nil, List.nil_append] at hmem'
          obtain ⟨l, hl, hil⟩ := List.mem_flatten.1 hmem'
          obtain ⟨e', he', rfl⟩ := List.mem_map.1 hl
          have hee : e' = e := huniq e' (List.mem_filter.1 he').1 hil
          have hfar := (List.mem_filter.1 he').2
          rw [hee] at hfar
          simpa using hfar
        have hih : near Delta best.2.1 e = false →
            ∃ g ∈ y.Data, i ∈ g.2 ∧ ∀ g' ∈ y.Data, i ∈ g'.2 → g' = g := by
          intro hfar
          apply ih _ y (fun e he => hself e (List.mem_filter.1 he).1) hy
          exact ⟨e, List.mem_filter.2 ⟨he, by simp [hfar]⟩, hie,
            fun e' he' hie' => huniq e' (List.mem_filter.1 he').1 hie'⟩
        by_cases hm : mergedIndices (first :: rest) Delta best.2.1 = []
        · have hxy : x = y := by rw [← hx, hm]; rfl
          have hfar : near Delta best.2.1 e = false := by
            by_contra hne
            have : i ∈ mergedIndices (first :: rest) Delta best.2.1 :=
              (mem_mergedIndices _ _ _ _).2 ⟨e, he, by simpa using hne, hie⟩
            rw [hm] at this
            exact List.not_mem_nil _ this
          rw [hxy]
          exact hih hfar
        · have hdata := addAll_fresh best.2.1 y.Data _ hm hvals
          have hxd : x.Data = y.Data.takeWhile (fun e => decide (e.1 < best.2.1))
              ++ (best.2.1, mergedIndices (first :: rest) Delta best.2.1)
                :: y.Data.dropWhile (fun e => decide (e.1 < best.2.1)) := by
            rw [← hx]; exact hdata
          have hmemx : ∀ g, g ∈ x.Data ↔
              (g = (best.2.1, mergedIndices (first :: rest) Delta best.2.1) ∨ g ∈ y.Data) := by
            intro g
            rw [hxd]
            conv_rhs => rw [← List.takeWhile_append_dropWhile
              (fun e => decide (e.1 < best.2.1)) y.Data]
            simp only [List.mem_append, List.mem_cons]
            tauto
          cases hnear : near Delta best.2.1 e with
          | true =>
            have himerged : i ∈ mergedIndices (first :: rest) Delta best.2.1 :=
              (mem_mergedIndices _ _ _ _).2 ⟨e, he, hnear, hie⟩
            refine ⟨_, (hmemx _).2 (Or.inl rfl), himerged, ?_⟩
            intro g' hg' hig'
            rcases (hmemx g').1 hg' with h | h
            · exact h
            · have := hyfar g' h hig'
              rw [hnear] at this
              exact absurd this (by simp)
          | false =>
            obtain ⟨g, hg, hig, hgu⟩ := hih hnear
            refine ⟨g, (hmemx g).2 (Or.inr hg), hig, ?_⟩
            intro g' hg' hig'
            rcases (hmemx g').1 hg' with h | h
            · exfalso
              rw [h] at hig'
              obtain ⟨e', he', hnear', hie'⟩ := (mem_mergedIndices _ _ _ _).1 hig'
              rw [huniq e' he' hie', hnear] at hnear'
              exact absurd hnear' (by simp)
            · exact hgu g' h hig'

/-- When every value of the histogram passes the test `fabs(v - v) < Delta`
against itself (with exact arithmetic, and for finite values of a `double`,
that is `Delta > 0`), `regroup(Delta)` returns once its loop is given more
passes than there are groups, and the histogram it returns holds exactly the
indices of the input: the indices of the output, read group after group, are a
rearrangement of those of the input, so every index occurs in the output as
often as it was added, no other index occurs, the total count is unchanged,
and an index held by one input group only is held by one output group only. -/
theorem regroup_indices_of_self_near (h : Histogram α) (Delta : α) (fuel : Nat)
    (hself : ∀ e ∈ h.Data, ValueType.within Delta e.1 e.1 = true) (hfuel : h.groups < fuel) :
    ∃ r, h.regroup Delta fuel = some r ∧
      r.indices.Perm h.indices ∧
      (∀ i, r.indices.count i = h.indices.count i) ∧
      (∀ i, i ∈ r.indices ↔ i ∈ h.indices) ∧
      r.indices.length = h.indices.length ∧
      (∀ i, (∃ e ∈ h.Data, i ∈ e.2 ∧ ∀ e' ∈ h.Data, i ∈ e'.2 → e' = e) →
        ∃ g ∈ r.Data, i ∈ g.2 ∧ ∀ g' ∈ r.Data, i ∈ g'.2 → g' = g) := by
  obtain ⟨f, rfl⟩ : ∃ f, fuel = f + 1 := ⟨fuel - 1, by omega⟩
  obtain ⟨r, hr, hperm⟩ := regroupRec_returns Delta (f + 1) h.Data ⟨[]⟩ hself hfuel
  have hperm' : r.indices.Perm h.indices := by simpa [indices] using hperm
  exact ⟨r, by rw [regroup_eq]; exact hr, hperm', fun i => hperm'.count_eq i,
    fun i => hperm'.mem_iff, hperm'.length_eq,
    fun i hi => regroupRec_unique_group Delta (f + 1) h.Data r hself hr i hi⟩

/-- The indices are kept at a concrete input with exact arithmetic: values 5,
1, 5, 2 added under indices 0..3 and regrouped with `Delta = 2`. -/
theorem regroup_indices_of_self_near_example :
    ((((((⟨[]⟩ : Histogram Int).add 0 5).add 1 1).add 2 5).add 3 2).groups < 4) ∧
    (((((⟨[]⟩ : Histogram Int).add 0 5).add 1 1).add 2 5).add 3 2).regroup 2 4
      = some ⟨[(1, [1, 3]), (5, [0, 2])]⟩ ∧
    ∃ r, (((((⟨[]⟩ : Histogram Int).add 0 5).add 1 1).add 2 5).add 3 2).regroup 2 4 = some r ∧
      r.indices.Perm (((((⟨[]⟩ : Histogram Int).add 0 5).add 1 1).add 2 5).add 3 2).indices :=
  ⟨by decide, by decide,
    (regroup_indices_of_self_near (((((⟨[]⟩ : Histogram Int).add 0 5).add 1 1).add 2 5).add 3 2)
      2 4 (by decide) (by decide)).imp (fun _ hr => ⟨hr.1, hr.2.1⟩)⟩

/-- The indices are kept on `double` whatever the rounding, when the values are
finite and `Delta > 0`. -/
theorem regroup_indices_double (h : Histogram Double) (Delta : Double) (fuel : Nat)
    (hfin : ∀ e ∈ h.Data, ∃ a : Int, e.1 = Double.fin a) (hΔ : Double.fin 0 < Delta)
    (hfuel : h.groups < fuel) :
    ∃ r, h.regroup Delta fuel = some r ∧ r.indices.Perm h.indices := by
  have hself : ∀ e ∈ h.Data, ValueType.within Delta e.1 e.1 = true := by
    intro e he
    obtain ⟨a, ha⟩ := hfin e he
    rw [ha]
    exact near_self_double Delta hΔ a
  exact (regroup_indices_of_self_near h Delta fuel hself hfuel).imp (fun _ hr => ⟨hr.1, hr.2.1⟩)

/-- C2. On `value_t = double`, `regroup(1)` does not return on the histogram
with the single group `+infinity ↦ [0]` (one call `add(0, +infinity)`):
`fabs(inf - inf)` is NaN, the test of line 80 fails for the centre itself, no
flag is ever set, and whatever number of passes the loop is given, it is still
running. No histogram holding the index of the input is returned. -/
theorem regroup_infinite_value_never_returns :
    ¬ ∃ fuel r, (⟨[(Double.posInf, [0])]⟩ : Histogram Double).regroup (Double.fin 1) fuel
      = some r := by
  rintro ⟨fuel, r, h⟩
  rw [regroup_stuck ⟨[(Double.posInf, [0])]⟩ (Double.fin 1) (by simp) (by decide) fuel] at h
  exact Option.noConfusion h

theorem mergedIndices_ne_nil (rem : List (α × List Nat)) (Delta : α)
    (e : α × List Nat) (he : e ∈ rem) (hnear : near Delta e.1 e = true) (hne : e.2 ≠ []) :
    mergedIndices rem Delta e.1 ≠ [] := by
  intro h
  have hmem : e.2 ∈ (rem.filter (near Delta e.1)).map Prod.snd :=
    List.mem_map.2 ⟨e, List.mem_filter.2 ⟨he, hnear⟩, rfl⟩
  cases hl : e.2 with
  | nil => exact hne hl
  | cons i l =>
    have : i ∈ mergedIndices rem Delta e.1 :=
      List.mem_flatten.2 ⟨e.2, hmem, by rw [hl]; exact List.mem_cons_self _ _⟩
    rw [h] at this
    exact List.not_mem_nil _ this

/-- C3, with "within `Delta`" read as the code computes it. For a non-empty
histogram every value of which passes the test `fabs(v - v) < Delta` against
itself (with exact arithmetic, and for finite values of a `double`, that is
`Delta > 0`), with `c` the best centre (the group value with the largest
neighbourhood count, the smallest such value on ties), a value `v` counting as
within `Delta` of `c` when the test `fabs(v - c) < Delta` passes in `value_t`:
`regroup(Delta)` returns, its result has the group keyed by `c` that holds the
indices of every input group within `Delta` of `c`, in ascending value order,
and the other groups of the result are exactly `regroup(Delta)` of the input
groups not within `Delta` of `c`. -/
theorem regroup_first_group (h : Histogram α) (Delta : α) (fuel : Nat)
    (hwf : h.WF) (hne : h.Data ≠ [])
    (hself : ∀ e ∈ h.Data, ValueType.within Delta e.1 e.1 = true)
    (hfuel : h.groups < fuel) :
    ∃ c r rest,
      IsBestCenter h Delta c ∧
      h.regroup Delta fuel = some r ∧
      regroup ⟨h.Data.filter (fun e => !near Delta c e)⟩ Delta fuel = some rest ∧
      (c, mergedIndices h.Data Delta c) ∈ r.Data ∧
      r.Data.filter (fun g => decide (g.1 ≠ c)) = rest.Data := by
  obtain ⟨f, rfl⟩ : ∃ f, fuel = f + 1 := ⟨fuel - 1, by omega⟩
  rcases h with ⟨D⟩
  cases D with
  | nil => exact absurd rfl hne
  | cons first tl =>
    generalize hb : (pickCenter (neighbourhood (first :: tl) Delta) (first :: tl)
      (0, first)) = best
    have hspec := pickCenter_spec (neighbourhood (first :: tl) Delta) first tl hwf.1
    rw [hb] at hspec
    obtain ⟨hmem, hmax, hmin⟩ := hspec
    have hlt : ((first :: tl).filter (fun e => !near Delta best.2.1 e)).length
        < (first :: tl).length :=
      List.length_filter_lt_length_iff_exists.2
        ⟨best.2, hmem,
          by simp [show near Delta best.2.1 best.2 = true from hself best.2 hmem]⟩
    have hfresh : best.2.1 ∉ ((first :: tl).filter (fun e => !near Delta best.2.1 e)).map
        Prod.fst := by
      intro hin
      obtain ⟨e, he, hec⟩ := List.mem_map.1 hin
      have h1 := (List.mem_filter.1 he).2
      rw [← hec, show near Delta e.1 e = true from hself e (List.mem_filter.1 he).1] at h1
      simp at h1
    obtain ⟨rest, hrest, -⟩ := regroupRec_returns Delta f
      ((first :: tl).filter (fun e => !near Delta best.2.1 e)) ⟨[]⟩
      (fun e he => hself e (List.mem_filter.1 he).1)
      (by simp only [groups, List.length_cons] at hfuel hlt ⊢; omega)
    have hvals : best.2.1 ∉ rest.values := by
      intro hin
      rcases regroupRec_values Delta f _ _ rest hrest _ hin with h1 | h1
      · simp [values] at h1
      · exact hfresh h1
    have hmerged : mergedIndices (first :: tl) Delta best.2.1 ≠ [] :=
      mergedIndices_ne_nil _ Delta best.2 hmem (hself best.2 hmem) (hwf.2 _ hmem)
    have hdata := addAll_fresh best.2.1 rest.Data _ hmerged hvals
    refine ⟨best.2.1, rest.addAll best.2.1 (mergedIndices (first :: tl) Delta best.2.1), rest,
      ⟨List.mem_map_of_mem Prod.fst hmem, ?_, ?_⟩, ?_, ?_, ?_, ?_⟩
    · intro v hv
      obtain ⟨e, he, rfl⟩ := List.mem_map.1 hv
      exact hmax e he
    · intro v hv hcnt
      obtain ⟨e, he, rfl⟩ := List.mem_map.1 hv
      exact hmin e he hcnt
    · rw [regroup_eq]
      show regroupRec Delta (f + 1) (first :: tl) ⟨[]⟩ = _
      rw [regroupRec_cons, hb, regroupRec_addAll _ _ _ _ _ _ hfresh, hrest]
      rfl
    · rw [regroup_eq]
      exact regroupRec_mono Delta f _ _ _ hrest
    · show _ ∈ (addAll ⟨rest.Data⟩ _ _).Data
      rw [hdata]
      simp
    · show List.filter _ (addAll ⟨rest.Data⟩ _ _).Data = _
      rw [hdata, List.filter_append, List.filter_cons]
      simp only [ne_eq, not_true_eq_false, decide_False, Bool.false_eq_true, if_false]
      rw [← List.filter_append, List.takeWhile_append_dropWhile]
      apply List.filter_eq_self.2
      intro g hg
      have : g.1 ≠ best.2.1 := fun hgc => hvals (hgc ▸ List.mem_map_of_mem Prod.fst hg)
      simpa using this

/-- C3, at a concrete input with exact arithmetic: values 1, 2, 5 with
`Delta = 2`; the best centre is 1, its group takes the indices of the groups of
1 and 2. -/
theorem regroup_first_group_witness :
    (⟨[(1, [1]), (2, [3]), (5, [0, 2])]⟩ : Histogram Int).WF ∧
    (∀ e ∈ (⟨[(1, [1]), (2, [3]), (5, [0, 2])]⟩ : Histogram Int).Data,
      ValueType.within (2 : Int) e.1 e.1 = true) ∧
    (⟨[(1, [1]), (2, [3]), (5, [0, 2])]⟩ : Histogram Int).regroup 2 4
      = some ⟨[(1, [1, 3]), (5, [0, 2])]⟩ ∧
    ∃ c r rest,
      IsBestCenter (⟨[(1, [1]), (2, [3]), (5, [0, 2])]⟩ : Histogram Int) 2 c ∧
      (⟨[(1, [1]), (2, [3]), (5, [0, 2])]⟩ : Histogram Int).regroup 2 4 = some r ∧
      regroup ⟨([(1, [1]), (2, [3]), (5, [0, 2])] : List (Int × List Nat)).filter
        (fun e => !near 2 c e)⟩ 2 4 = some rest ∧
      (c, mergedIndices ([(1, [1]), (2, [3]), (5, [0, 2])] : List (Int × List Nat)) 2 c) ∈ r.Data ∧
      r.Data.filter (fun g => decide (g.1 ≠ c)) = rest.Data :=
  ⟨⟨by decide, by decide⟩, by decide, by decide,
    regroup_first_group ⟨[(1, [1]), (2, [3]), (5, [0, 2])]⟩ 2 4 ⟨by decide, by decide⟩
      (by decide) (by decide) (by decide)⟩

/-- C3 as stated, refuted on `value_t = double`: the values `-1` and
`2 ^ 53 + 2` and `Delta = 2 ^ 53 + 4` are doubles, and the two values differ by
`2 ^ 53 + 3`, which is less than `Delta`; so the group of the centre `-1`
should hold the indices of both groups. The difference as the code computes it
is rounded to `2 ^ 53 + 4`, which is not less than `Delta`: `regroup` returns
the two groups unmerged. -/
theorem regroup_first_group_rounded :
    roundToDouble (2 ^ 53 + 2) = 2 ^ 53 + 2 ∧ roundToDouble (2 ^ 53 + 4) = 2 ^ 53 + 4 ∧
    |((2 : Int) ^ 53 + 2) - (-1)| < 2 ^ 53 + 4 ∧
    (⟨[(Double.fin (-1), [0]), (Double.fin (2 ^ 53 + 2), [1])]⟩ : Histogram Double).regroup
        (Double.fin (2 ^ 53 + 4)) 3
      = some ⟨[(Double.fin (-1), [0]), (Double.fin (2 ^ 53 + 2), [1])]⟩ :=
  ⟨by decide!, by decide!, by decide, by decide!⟩

/-- C4. `regroup(0)` does not return on the histogram with the single group
`1 ↦ [0]`: whatever number of passes its loop is given, it is still running. -/
theorem regroup_zero_never_returns :
    ¬ ∃ fuel r, (⟨[(1, [0])]⟩ : Histogram Int).regroup 0 fuel = some r := by
  rintro ⟨fuel, r, h⟩
  rw [regroup_nonpositive_diverges ⟨[(1, [0])]⟩ 0 (le_refl _) (by decide) fuel] at h
  exact Option.noConfusion h

/-- C5, with "larger than the difference" read as the code computes it. For
a non-empty histogram and a `Delta` for which the test `fabs(a - b) < Delta`
passes in `value_t` for every two values `a`, `b` of the histogram (with exact
arithmetic: a `Delta` larger than largest minus smallest), `regroup(Delta)`
returns a histogram with exactly one group, keyed by one of the input values,
and that group holds every index of the input. -/
theorem regroup_wide_delta (h : Histogram α) (Delta : α) (fuel : Nat)
    (hwf : h.WF) (hne : h.Data ≠ [])
    (hΔ : ∀ a ∈ h.Data, ∀ b ∈ h.Data, ValueType.within Delta a.1 b.1 = true)
    (hfuel : h.groups < fuel) :
    ∃ c r, c ∈ h.values ∧ h.regroup Delta fuel = some r ∧ r.groups = 1 ∧
      r.Data = [(c, h.indices)] := by
  obtain ⟨f, rfl⟩ : ∃ f, fuel = f + 1 := ⟨fuel - 1, by omega⟩
  rcases h with ⟨D⟩
  cases D with
  | nil => exact absurd rfl hne
  | cons first tl =>
    obtain ⟨f', rfl⟩ : ∃ f', f = f' + 1 :=
      ⟨f - 1, by simp only [groups, List.length_cons] at hfuel; omega⟩
    generalize hb : (pickCenter (neighbourhood (first :: tl) Delta) (first :: tl)
      (0, first)) = best
    have hmem : best.2 ∈ first :: tl := hb ▸ pickCenter_mem_cons _ first tl
    have hnear : ∀ e ∈ first :: tl, near Delta best.2.1 e = true :=
      fun e he => hΔ best.2 hmem e he
    have hall : (first :: tl).filter (near Delta best.2.1) = first :: tl :=
      List.filter_eq_self.2 hnear
    have hnone : (first :: tl).filter (fun e => !near Delta best.2.1 e) = [] :=
      List.filter_eq_nil_iff.2 (fun e he => by simp [hnear e he])
    have hmerged : mergedIndices (first :: tl) Delta best.2.1
        = ((first :: tl).map Prod.snd).flatten := by
      unfold mergedIndices; rw [hall]
    have hnonempty : ((first :: tl).map Prod.snd).flatten ≠ [] := by
      rw [← hmerged]
      exact mergedIndices_ne_nil _ Delta best.2 hmem (hnear best.2 hmem) (hwf.2 _ hmem)
    have hdata := addAll_fresh best.2.1 [] _ hnonempty (by simp)
    refine ⟨best.2.1, ⟨[(best.2.1, ((first :: tl).map Prod.snd).flatten)]⟩,
      List.mem_map_of_mem Prod.fst hmem, ?_, rfl, rfl⟩
    rw [regroup_eq]
    show regroupRec Delta (f' + 1 + 1) (first :: tl) ⟨[]⟩ = _
    rw [regroupRec_cons, hb, hnone, hmerged]
    simp only [regroupRec, Option.some.injEq]
    cases hx : addAll (⟨[]⟩ : Histogram α) best.2.1 ((first :: tl).map Prod.snd).flatten with
    | mk d =>
      rw [hx] at hdata
      simp only [List.takeWhile_nil, List.dropWhile_nil, List.nil_append] at hdata
      rw [hdata]

/-- C5, at a concrete input with exact arithmetic: values 1, 2, 5 (largest
minus smallest is 4) with `Delta = 5`. -/
theorem regroup_wide_delta_witness :
    (⟨[(1, [1]), (2, [3]), (5, [0, 2])]⟩ : Histogram Int).WF ∧
    (∀ a ∈ (⟨[(1, [1]), (2, [3]), (5, [0, 2])]⟩ : Histogram Int).Data,
      ∀ b ∈ (⟨[(1, [1]), (2, [3]), (5, [0, 2])]⟩ : Histogram Int).Data,
        ValueType.within (5 : Int) a.1 b.1 = true) ∧
    (⟨[(1, [1]), (2, [3]), (5, [0, 2])]⟩ : Histogram Int).regroup 5 4
      = some ⟨[(1, [1, 3, 0, 2])]⟩ ∧
    ∃ c r, c ∈ (⟨[(1, [1]), (2, [3]), (5, [0, 2])]⟩ : Histogram Int).values ∧
      (⟨[(1, [1]), (2, [3]), (5, [0, 2])]⟩ : Histogram Int).regroup 5 4 = some r ∧
      r.groups = 1 ∧
      r.Data = [(c, (⟨[(1, [1]), (2, [3]), (5, [0, 2])]⟩ : Histogram Int).indices)] :=
  ⟨⟨by decide, by decide⟩, by decide, by decide,
    regroup_wide_delta ⟨[(1, [1]), (2, [3]), (5, [0, 2])]⟩ 5 4 ⟨by decide, by decide⟩
      (by decide) (by decide) (by decide)⟩

/-- With exact arithmetic the hypothesis of the one-group result is that
`Delta` is larger than every difference of two values of the histogram. -/
theorem within_of_wide_exact {β : Type} [LinearOrderedCommRing β] (D : List (β × List Nat))
    (Delta : β) (hΔ : ∀ a ∈ D, ∀ b ∈ D, a.1 - b.1 < Delta) :
    ∀ a ∈ D, ∀ b ∈ D, ValueType.within Delta a.1 b.1 = true := by
  intro a ha b hb
  have h1 := hΔ a ha b hb
  have h2 := hΔ b hb a ha
  simp only [ValueType.within, decide_eq_true_eq, abs_lt]
  constructor <;> linarith

/-- C5 as stated, refuted on `value_t = double`. With `Delta = +infinity` and
the values `-2 ^ 1023` and `2 ^ 1023` the difference overflows to infinity,
which is not less than `Delta`: `regroup` returns two groups. With the values
`-2` and `2 ^ 54 + 4` and `Delta = 2 ^ 54 + 8`, which is larger than the
difference `2 ^ 54 + 6` of largest and smallest, the computed difference is
rounded to `2 ^ 54 + 8`: `regroup` returns two groups. -/
theorem regroup_wide_delta_two_groups :
    (⟨[(Double.fin (-2 ^ 1023), [0]), (Double.fin (2 ^ 1023), [1])]⟩ : Histogram Double).regroup
        Double.posInf 3
      = some ⟨[(Double.fin (-2 ^ 1023), [0]), (Double.fin (2 ^ 1023), [1])]⟩ ∧
    roundToDouble (2 ^ 1023) = 2 ^ 1023 ∧
    ((2 : Int) ^ 54 + 4) - (-2) < 2 ^ 54 + 8 ∧
    roundToDouble (2 ^ 54 + 4) = 2 ^ 54 + 4 ∧ roundToDouble (2 ^ 54 + 8) = 2 ^ 54 + 8 ∧
    (⟨[(Double.fin (-2), [0]), (Double.fin (2 ^ 54 + 4), [1])]⟩ : Histogram Double).regroup
        (Double.fin (2 ^ 54 + 8)) 3
      = some ⟨[(Double.fin (-2), [0]), (Double.fin (2 ^ 54 + 4), [1])]⟩ :=
  ⟨by decide!, by decide!, by decide, by decide!, by decide!, by decide!⟩

/-! ### `onlyRepresentative` -/

theorem foldl_size (D : List (α × List Nat)) (n : Nat) :
    D.foldl (fun c it => c + it.2.length) n = n + ((D.map Prod.snd).flatten).length := by
  induction D generalizing n with
  | nil => simp
  | cons e D ih => simp [ih, Nat.add_assoc]

theorem foldl_keep (P : (α × List Nat) → Prop) [DecidablePred P] (l R : List (α × List Nat))
    (hs : (R ++ l).Pairwise (fun a b => a.1 < b.1)) (hne : ∀ g ∈ l, g.2 ≠ []) :
    l.foldl (fun (r : Histogram α) it => if P it then r.addAll it.1 it.2 else r) ⟨R⟩
      = ⟨R ++ l.filter (fun g => decide (P g))⟩ := by
  induction l generalizing R with
  | nil => simp
  | cons e l ih =>
    have hR : ∀ g ∈ R, g.1 < e.1 := fun g hg =>
      (List.pairwise_append.1 hs).2.2 g hg e (List.mem_cons_self _ _)
    have hne' : ∀ g ∈ l, g.2 ≠ [] := fun g hg => hne g (List.mem_cons_of_mem _ hg)
    by_cases hP : P e
    · have hfresh : e.1 ∉ R.map Prod.fst := by
        intro hin
        obtain ⟨g, hg, hge⟩ := List.mem_map.1 hin
        exact absurd hge (ne_of_lt (hR g hg))
      have hdata := addAll_fresh e.1 R e.2 (hne e (List.mem_cons_self _ _)) hfresh
      have htake : R.takeWhile (fun g => decide (g.1 < e.1)) = R :=
        List.takeWhile_eq_self_iff.2 (fun g hg => by simpa using hR g hg)
      have hdrop : R.dropWhile (fun g => decide (g.1 < e.1)) = [] :=
        List.dropWhile_eq_nil_iff.2 (fun g hg => by simpa using hR g hg)
      rw [htake, hdrop] at hdata
      have hstep : addAll (⟨R⟩ : Histogram α) e.1 e.2 = ⟨R ++ [e]⟩ := by
        cases hx : addAll (⟨R⟩ : Histogram α) e.1 e.2 with
        | mk d => rw [hx] at hdata; simp only at hdata; rw [hdata]
      simp only [List.foldl_cons, hP, if_true, hstep, List.filter_cons, decide_True]
      rw [ih (R ++ [e]) (by simpa [List.append_assoc] using hs) hne']
      simp [List.append_assoc]
    · simp only [List.foldl_cons, hP, if_false, List.filter_cons, decide_False,
        Bool.false_eq_true]
      refine ih R ?_ hne'
      exact hs.sublist (List.Sublist.append_left (List.sublist_cons_self e l) R)

/-- C6. On a non-empty histogram `onlyRepresentative()` returns exactly the
groups whose size is at least the truncated quotient of the number of indices
by the number of groups, each unchanged and in the same order, and no other
group; on groups of sizes 1, 1, 1 and 9 that threshold is 3 and the size-9
group alone remains. -/
theorem onlyRepresentative_eq_filter (h : Histogram α) (hwf : h.WF) (hne : h.Data ≠ []) :
    h.onlyRepresentative.Data
        = h.Data.filter (fun g => decide (h.indices.length / h.groups ≤ g.2.length)) ∧
    (∀ (v₁ v₂ v₃ v₄ : α) (i₁ i₂ i₃ : Nat) (l₉ : List Nat), l₉.length = 9 →
      h.Data = [(v₁, [i₁]), (v₂, [i₂]), (v₃, [i₃]), (v₄, l₉)] →
      h.indices.length / h.groups = 3 ∧ h.onlyRepresentative.Data = [(v₄, l₉)]) := by
  have main : h.onlyRepresentative.Data
      = h.Data.filter (fun g => decide (h.indices.length / h.groups ≤ g.2.length)) := by
    unfold onlyRepresentative empty
    cases hD : h.Data with
    | nil => exact absurd hD hne
    | cons e D =>
      simp only [List.isEmpty_cons, Bool.false_eq_true, if_false]
      rw [← hD, foldl_size, Nat.zero_add]
      have := foldl_keep (fun it : α × List Nat =>
        it.2.length ≥ ((h.Data.map Prod.snd).flatten).length / h.groups) h.Data []
        (by simpa using hwf.1) hwf.2
      simp only [List.nil_append] at this
      rw [this]
      rfl
  refine ⟨main, ?_⟩
  intro v₁ v₂ v₃ v₄ i₁ i₂ i₃ l₉ h9 hD
  have hthr : h.indices.length / h.groups = 3 := by
    simp [indices, groups, hD, h9]
  refine ⟨hthr, ?_⟩
  rw [main, hthr, hD]
  simp [List.filter_cons, h9]

/-- C6, at a concrete input: groups of sizes 1, 1, 1 and 9. -/
theorem onlyRepresentative_eq_filter_witness :
    (⟨[(1, [0]), (2, [1]), (3, [2]), (4, [3, 4, 5, 6, 7, 8, 9, 10, 11])]⟩ : Histogram Int).WF ∧
    (⟨[(1, [0]), (2, [1]), (3, [2]), (4, [3, 4, 5, 6, 7, 8, 9, 10, 11])]⟩ :
      Histogram Int).onlyRepresentative = ⟨[(4, [3, 4, 5, 6, 7, 8, 9, 10, 11])]⟩ ∧
    (⟨[(1, [0]), (2, [1]), (3, [2]), (4, [3, 4, 5, 6, 7, 8, 9, 10, 11])]⟩ :
      Histogram Int).onlyRepresentative.Data
      = ([(1, [0]), (2, [1]), (3, [2]), (4, [3, 4, 5, 6, 7, 8, 9, 10, 11])] :
          List (Int × List Nat)).filter (fun g => decide (
            (⟨[(1, [0]), (2, [1]), (3, [2]), (4, [3, 4, 5, 6, 7, 8, 9, 10, 11])]⟩ :
              Histogram Int).indices.length /
            (⟨[(1, [0]), (2, [1]), (3, [2]), (4, [3, 4, 5, 6, 7, 8, 9, 10, 11])]⟩ :
              Histogram Int).groups ≤ g.2.length)) :=
  ⟨⟨by decide, by decide⟩, by decide,
    (onlyRepresentative_eq_filter
      ⟨[(1, [0]), (2, [1]), (3, [2]), (4, [3, 4, 5, 6, 7, 8, 9, 10, 11])]⟩
      ⟨by decide, by decide⟩ (by decide)).1⟩

end Histogram

end gga

namespace imago

namespace CharacterRecognizerImp

/-- C1. On the 3 x 3 input `plusInput`, compared with the maps of the plus-sign
template (shift margin 1, step 1), `compareImages` returns 5, the sum read at
the fixed location `(y + PENALTY_SHIFT, x + PENALTY_SHIFT)`, while the minimum
over the offset pairs of the sums read at the shifted locations is 4. -/
theorem compareImages_ignores_offsets :
    compareImages plusConstants plusInput plusInk plusWhite = some 5 ∧
    shiftMinimum plusConstants plusInput plusInk plusWhite = some 4 ∧
    shiftedSum plusInput plusInk plusWhite 1 1 = 5 ∧
    shiftedSum plusInput plusInk plusWhite 0 1 = 4 := by
  decide

end CharacterRecognizerImp

namespace LabelCombiner

/-! ### Components and labels -/

theorem groupComponents_eq (cc : Nat) (comp : Nat → Nat) (n : Nat) :
    groupComponents cc comp n
      = (List.range cc).map (fun c => (List.range n).filter (fun i => decide (comp i = c))) := by
  induction n with
  | zero =>
    simp only [groupComponents, List.range_zero, List.foldl_nil, List.filter_nil]
    rw [List.map_const']
    simp
  | succ n ih =>
    unfold groupComponents at ih ⊢
    rw [List.range_succ, List.foldl_append, ih]
    simp only [List.foldl_cons, List.foldl_nil]
    apply List.ext_getElem?
    intro m
    rw [List.getElem?_modify]
    simp only [List.getElem?_map, List.filter_append]
    by_cases hm : m < cc
    · simp only [List.getElem?_range hm, Option.map_some', Option.map_eq_map]
      by_cases hc : comp n = m
      · simp [hc, List.filter_cons]
      · simp [hc, List.filter_cons]
    · have : (List.range cc)[m]? = none := by
        simp only [List.getElem?_eq_none_iff, List.length_range]; omega
      simp [this]

theorem sum_indicator (cc k m : Nat) :
    ((List.range cc).map (fun c => if m = c then k else 0)).sum = if m < cc then k else 0 := by
  induction cc with
  | zero => simp
  | succ cc ih =>
    rw [List.range_succ, List.map_append, List.sum_append, ih]
    by_cases h1 : m < cc
    · have h2 : m ≠ cc := by omega
      have h3 : m < cc + 1 := by omega
      simp [h1, h2, h3]
    · by_cases h2 : m = cc
      · simp [h2]
      · have h3 : ¬ m < cc + 1 := by omega
        simp [h1, h2, h3]

/-- Sorting a list of numbers into the buckets `0 .. cc - 1` by a key below
`cc` rearranges the list. -/
theorem buckets_perm (cc : Nat) (key : Nat → Nat) (l : List Nat)
    (hkey : ∀ i ∈ l, key i < cc) :
    (((List.range cc).map (fun c => l.filter (fun i => decide (key i = c)))).flatten).Perm l := by
  rw [List.perm_iff_count]
  intro a
  rw [List.count_flatten, List.map_map]
  have hfun : (List.count a ∘ fun c => l.filter (fun i => decide (key i = c)))
      = fun c => if key a = c then List.count a l else 0 := by
    funext c
    simp only [Function.comp]
    by_cases h : key a = c
    · rw [if_pos h, List.count_filter (by simpa using h)]
    · rw [if_neg h]
      apply List.count_eq_zero.2
      intro hmem
      exact h (by simpa using (List.mem_filter.1 hmem).2)
  rw [hfun, sum_indicator]
  by_cases ha : a ∈ l
  · simp [hkey a ha]
  · simp [List.count_eq_zero.2 ha]

theorem filterMap_range_getElem? (segs : List Segment) (k : Nat) (hk : k ≤ segs.length) :
    (List.range k).filterMap (fun j => segs[j]?) = segs.take k := by
  induction k with
  | zero => simp
  | succ k ih =>
    rw [List.range_succ, List.filterMap_append, ih (by omega), List.take_succ]
    have hlt : k < segs.length := by omega
    simp [List.getElem?_eq_getElem hlt]

theorem assembleLabels_partition (fresh : Label) (segs : List Segment) (cc : Nat)
    (comp : Nat → Nat)
    (hrange : ∀ i < segs.length, comp i < cc)
    (hused : ∀ c < cc, ∃ i < segs.length, comp i = c) :
    (assembleLabels fresh segs cc comp).length = cc ∧
    (assembleLabels fresh segs cc comp).map (fun l => l.symbols)
      = (groupComponents cc comp segs.length).map
          (fun c => c.filterMap (fun j => segs[j]?)) ∧
    (∀ c ∈ groupComponents cc comp segs.length, ∀ j ∈ c, j < segs.length) ∧
    (∀ i < segs.length,
      ((groupComponents cc comp segs.length).getD (comp i) []).count i = 1 ∧
      ∀ c, c ≠ comp i → i ∉ (groupComponents cc comp segs.length).getD c []) ∧
    (∀ l ∈ assembleLabels fresh segs cc comp, l.symbols ≠ []) ∧
    ((assembleLabels fresh segs cc comp).map (fun l => l.symbols.length)).sum = segs.length ∧
    (((assembleLabels fresh segs cc comp).map (fun l => l.symbols)).flatten).Perm segs := by
  have hsym : (assembleLabels fresh segs cc comp).map (fun l => l.symbols)
      = (groupComponents cc comp segs.length).map
          (fun c => c.filterMap (fun j => segs[j]?)) := by
    simp [assembleLabels, List.map_map, Function.comp]
  have hget : ∀ c, (groupComponents cc comp segs.length).getD c []
      = if c < cc then (List.range segs.length).filter (fun i => decide (comp i = c))
        else [] := by
    intro c
    rw [groupComponents_eq, List.getD_eq_getElem?_getD, List.getElem?_map]
    by_cases hc : c < cc
    · simp [List.getElem?_range hc, hc]
    · have : (List.range cc)[c]? = none := by
        simp only [List.getElem?_eq_none_iff, List.length_range]; omega
      simp [this, hc]
  have hperm : (((assembleLabels fresh segs cc comp).map (fun l => l.symbols)).flatten).Perm
      segs := by
    rw [hsym, ← List.filterMap_flatten, groupComponents_eq]
    have h1 := (buckets_perm cc comp (List.range segs.length)
      (fun i hi => hrange i (List.mem_range.1 hi))).filterMap (fun j => segs[j]?)
    rw [filterMap_range_getElem? segs segs.length (le_refl _), List.take_length] at h1
    exact h1
  refine ⟨by simp [assembleLabels, groupComponents_eq], hsym, ?_, ?_, ?_, ?_, hperm⟩
  · intro c hc j hj
    rw [groupComponents_eq] at hc
    obtain ⟨c', -, rfl⟩ := List.mem_map.1 hc
    exact List.mem_range.1 (List.mem_filter.1 hj).1
  · intro i hi
    constructor
    · rw [hget, if_pos (hrange i hi)]
      apply List.count_eq_one_of_mem ((List.nodup_range _).filter _)
      exact List.mem_filter.2 ⟨List.mem_range.2 hi, by simp⟩
    · intro c hc
      rw [hget]
      split_ifs with hlt
      · intro hmem
        have hci : comp i = c := by simpa using (List.mem_filter.1 hmem).2
        exact hc hci.symm
      · exact List.not_mem_nil _
  · intro l hl hnil
    simp only [assembleLabels, List.mem_map] at hl
    obtain ⟨c, hc, rfl⟩ := hl
    rw [groupComponents_eq] at hc
    obtain ⟨k, hk, rfl⟩ := List.mem_map.1 hc
    obtain ⟨i, hi, hik⟩ := hused k (List.mem_range.1 hk)
    have hmem : i ∈ (List.range segs.length).filter (fun i => decide (comp i = k)) :=
      List.mem_filter.2 ⟨List.mem_range.2 hi, by simpa using hik⟩
    have : segs[i] ∈ ((List.range segs.length).filter
        (fun i => decide (comp i = k))).filterMap (fun j => segs[j]?) :=
      List.mem_filterMap.2 ⟨i, hmem, List.getElem?_eq_getElem hi⟩
    simp only at hnil
    rw [hnil] at this
    exact List.not_mem_nil _ this
  · have h1 := hperm.length_eq
    rw [List.length_flatten, List.map_map] at h1
    exact h1

theorem keepEdge_isSome (glib : GraphLib) (g : SegmentsGraph) (e : Nat × Nat)
    (hlen : g.positions.length = g.segs.length)
    (h1 : e.1 < g.segs.length) (h2 : e.2 < g.segs.length)
    (hpos : g.positions[e.1]? ≠ g.positions[e.2]?) :
    ∃ b, keepEdge glib g e = some b := by
  have hp1 : e.1 < g.positions.length := by omega
  have hp2 : e.2 < g.positions.length := by omega
  rw [List.getElem?_eq_getElem hp1, List.getElem?_eq_getElem hp2] at hpos
  have hne : ¬ ((g.positions[e.2]).x - (g.positions[e.1]).x = 0 ∧
      (g.positions[e.2]).y - (g.positions[e.1]).y = 0) := by
    rintro ⟨hx, hy⟩
    apply hpos
    congr 1
    cases hb : g.positions[e.1] with
    | mk bx by_ =>
      cases he : g.positions[e.2] with
      | mk ex ey =>
        rw [hb, he] at hx hy
        simp only at hx hy
        congr 1 <;> linarith
  simp only [keepEdge, List.getElem?_eq_getElem hp1, List.getElem?_eq_getElem hp2,
    List.getElem?_eq_getElem h1, List.getElem?_eq_getElem h2, Option.bind_eq_bind,
    Option.some_bind, edgeTest, if_neg hne]
  exact ⟨_, rfl⟩

theorem pruneEdges_isSome (glib : GraphLib) (g : SegmentsGraph) (es : List (Nat × Nat))
    (hlen : g.positions.length = g.segs.length)
    (hes : ∀ e ∈ es, e.1 < g.segs.length ∧ e.2 < g.segs.length ∧
      g.positions[e.1]? ≠ g.positions[e.2]?) :
    ∃ kept, pruneEdges glib g es = some kept := by
  induction es with
  | nil => exact ⟨[], rfl⟩
  | cons e es ih =>
    obtain ⟨kept, hk⟩ := ih (fun e' he' => hes e' (List.mem_cons_of_mem _ he'))
    obtain ⟨h1, h2, h3⟩ := hes e (List.mem_cons_self _ _)
    obtain ⟨b, hb⟩ := keepEdge_isSome glib g e hlen h1 h2 h3
    exact ⟨if b then e :: kept else kept, by
      simp only [pruneEdges, hb, hk, Option.bind_eq_bind, Option.some_bind]⟩

/-- C7. On a well-formed graph over the symbol layer, with
`connected_components` giving every vertex a component number below `cc` and
using every number below `cc`, `_locateLabels` returns, and the labels it
leaves partition the symbol layer: there are `cc` labels; label `c` holds the
symbols of the vertices numbered `c`; the `i`-th input symbol is put exactly
once into the label of its component and into no other label; no label is
empty; the symbol counts of the labels sum to the number of input symbols,
and all labels together hold a rearrangement of the input. -/
theorem locateLabels_partition (glib : GraphLib) (fresh : Label) (symbols : List Segment)
    (hsegs : (glib.build symbols).segs = symbols)
    (hgraph : GraphOk (glib.build symbols))
    (hcc : ∀ kept : List (Nat × Nat),
      (∀ i < symbols.length,
        (glib.connected_components { glib.build symbols with edges := kept }).2 i
          < (glib.connected_components { glib.build symbols with edges := kept }).1) ∧
      (∀ c < (glib.connected_components { glib.build symbols with edges := kept }).1,
        ∃ i < symbols.length,
          (glib.connected_components { glib.build symbols with edges := kept }).2 i = c)) :
    ∃ kept cc comp labels,
      pruneEdges glib (glib.build symbols) (glib.build symbols).edges = some kept ∧
      glib.connected_components { glib.build symbols with edges := kept } = (cc, comp) ∧
      _locateLabels glib fresh symbols = some labels ∧
      labels.length = cc ∧
      labels.map (fun l => l.symbols)
        = (groupComponents cc comp symbols.length).map
            (fun c => c.filterMap (fun j => symbols[j]?)) ∧
      (∀ c ∈ groupComponents cc comp symbols.length, ∀ j ∈ c, j < symbols.length) ∧
      (∀ i < symbols.length,
        ((groupComponents cc comp symbols.length).getD (comp i) []).count i = 1 ∧
        ∀ c, c ≠ comp i → i ∉ (groupComponents cc comp symbols.length).getD c []) ∧
      (∀ l ∈ labels, l.symbols ≠ []) ∧
      (labels.map (fun l => l.symbols.length)).sum = symbols.length ∧
      ((labels.map (fun l => l.symbols)).flatten).Perm symbols := by
  obtain ⟨kept, hkept⟩ := pruneEdges_isSome glib (glib.build symbols)
    (glib.build symbols).edges hgraph.1 hgraph.2
  obtain ⟨hrange, hused⟩ := hcc kept
  have hloc : _locateLabels glib fresh symbols
      = some (assembleLabels fresh symbols
          (glib.connected_components { glib.build symbols with edges := kept }).1
          (glib.connected_components { glib.build symbols with edges := kept }).2) := by
    simp only [_locateLabels, hkept, Option.bind_eq_bind, Option.some_bind, hsegs]
  exact ⟨kept, _, _, _, hkept, rfl, hloc,
    assembleLabels_partition fresh symbols _ _ hrange hused⟩

/-- C7, at a concrete input: three symbols in two components. -/
theorem locateLabels_partition_witness :
    (threeGraphLib.build threeSymbols).segs = threeSymbols ∧
    (groupComponents 2 threeComponents threeSymbols.length).map
        (fun c => c.filterMap (fun j => threeSymbols[j]?))
      = [[⟨0, 0, 10, 12⟩, ⟨12, 0, 10, 12⟩], [⟨40, 60, 8, 12⟩]] ∧
    ∃ labels, _locateLabels threeGraphLib freshLabel threeSymbols = some labels ∧
      ((labels.map (fun l => l.symbols)).flatten).Perm threeSymbols := by
  have h := locateLabels_partition threeGraphLib freshLabel threeSymbols rfl
    (by
      refine ⟨rfl, ?_⟩
      intro e he
      simp only [threeGraphLib, List.mem_singleton] at he
      subst he
      refine ⟨by decide, by decide, ?_⟩
      simp [threeGraphLib, threeSymbols, boxCenter])
    (fun _ => ⟨show ∀ i < threeSymbols.length, threeComponents i < 2 by decide,
      show ∀ c < 2, ∃ i < threeSymbols.length, threeComponents i = c by decide⟩)
  obtain ⟨_, _, _, labels, -, -, hl, -, -, -, -, -, -, hp⟩ := h
  exact ⟨rfl, by decide, labels, hl, hp⟩

/-! ### `_fillLabelInfo` -/

theorem comparator_trans (a b c : Segment) (h1 : _segmentsComparator b a = false)
    (h2 : _segmentsComparator c b = false) : _segmentsComparator c a = false := by
  simp only [_segmentsComparator] at h1 h2 ⊢
  split_ifs at h1 h2 ⊢ <;> first | rfl | omega

theorem comparator_total (a b : Segment) :
    _segmentsComparator b a = false ∨ _segmentsComparator a b = false := by
  simp only [_segmentsComparator]
  split_ifs <;> first | (left; rfl) | (right; rfl) | omega

theorem compareX_trans (a b c : Segment) (h1 : _segmentsCompareX b a = false)
    (h2 : _segmentsCompareX c b = false) : _segmentsCompareX c a = false := by
  simp only [_segmentsCompareX] at h1 h2 ⊢
  split_ifs at h1 h2 ⊢ <;> first | rfl | omega

theorem compareX_total (a b : Segment) :
    _segmentsCompareX b a = false ∨ _segmentsCompareX a b = false := by
  simp only [_segmentsCompareX]
  split_ifs <;> first | (left; rfl) | (right; rfl) | omega

theorem compareX_false_iff (a b : Segment) : _segmentsCompareX b a = false ↔ a.x ≤ b.x := by
  simp only [_segmentsCompareX]
  split_ifs with h
  · simp; omega
  · simp; omega

theorem comparator_false_iff (a b : Segment) :
    _segmentsComparator b a = false ↔ (a.y < b.y ∨ (a.y = b.y ∧ a.x ≤ b.x)) := by
  simp only [_segmentsComparator]
  split_ifs with h1 h2 h3
  · simp; omega
  · simp; omega
  · simp; omega
  · simp; omega

/-- After `std::sort` with `_segmentsCompareX` the x coordinates do not decrease. -/
theorem sortX_sorted (lib : StdLib) (l : List Segment) :
    (lib.sort _segmentsCompareX l).Pairwise (fun a b => a.x ≤ b.x) :=
  (lib.sort_sorted _segmentsCompareX l compareX_trans compareX_total).imp
    (fun {a b} h => (compareX_false_iff a b).1 h)

/-- After `std::sort` with `_segmentsComparator` the pairs `(y, x)` do not
decrease. -/
theorem sortYX_sorted (lib : StdLib) (l : List Segment) :
    (lib.sort _segmentsComparator l).Pairwise
      (fun a b => a.y < b.y ∨ (a.y = b.y ∧ a.x ≤ b.x)) :=
  (lib.sort_sorted _segmentsComparator l comparator_trans comparator_total).imp
    (fun {a b} h => (comparator_false_iff a b).1 h)

/-- The loop of lines 322-342 leaves `new_line_sep` at -1 or at the number of a
symbol that comes after the first capital-sized one. -/
theorem scanLines_sep (lib : StdLib) (lc : LabelCombiner) (syms : List Segment)
    (i first_cap first_line_y : Int) (hfc : first_cap < i) (hi : 0 ≤ i) :
    (scanLines lib lc syms i first_cap first_line_y).2 = -1 ∨
    (0 < (scanLines lib lc syms i first_cap first_line_y).2 ∧
      i ≤ (scanLines lib lc syms i first_cap first_line_y).2 ∧
      (scanLines lib lc syms i first_cap first_line_y).2 < i + syms.length) := by
  induction syms generalizing i first_cap first_line_y with
  | nil => left; rfl
  | cons s rest ih =>
    unfold scanLines
    split_ifs with h1 h2
    · rcases ih (i + 1) i (s.y + s.height) (by omega) (by omega) with h | ⟨h, h', h''⟩
      · left; exact h
      · right
        refine ⟨h, by omega, ?_⟩
        simp only [List.length_cons, Nat.cast_add, Nat.cast_one]
        omega
    · right
      simp only [List.length_cons, Nat.cast_add, Nat.cast_one]
      omega
    · rcases ih (i + 1) first_cap first_line_y (by omega) (by omega) with h | ⟨h, h', h''⟩
      · left; exact h
      · right
        refine ⟨h, by omega, ?_⟩
        simp only [List.length_cons, Nat.cast_add, Nat.cast_one]
        omega

theorem newLineSep_range (lib : StdLib) (lc : LabelCombiner) (l : Label) :
    newLineSep lib lc l = -1 ∨
    (0 < newLineSep lib lc l ∧ newLineSep lib lc l < l.symbols.length) := by
  unfold newLineSep
  rcases scanLines_sep lib lc (lib.sort _segmentsComparator l.symbols) 0 (-1) (-1)
    (by omega) (le_refl _) with h | ⟨h, -, h'⟩
  · left; exact h
  · right
    rw [(lib.sort_perm _ l.symbols).length_eq] at h'
    exact ⟨h, by omega⟩

theorem getElem?_zero_eq_head? (L : List Segment) : L[0]? = L.head? :=
  (List.head?_eq_getElem? L).symm

theorem getElem?_pred_eq_getLast? (L : List Segment) (k : Nat) (hk : L.length = k) :
    L[k - 1]? = L.getLast? := by
  subst hk
  exact (List.getLast?_eq_getElem? L).symm

theorem fill_single (lib : StdLib) (lc : LabelCombiner) (l : Label)
    (hsep : ¬ 0 < newLineSep lib lc l) (a z a' z' : Segment)
    (h1 : (lib.sort _segmentsComparator l.symbols).head? = some a)
    (h2 : (lib.sort _segmentsComparator l.symbols).getLast? = some z)
    (h3 : (lib.sort _segmentsCompareX (lib.sort _segmentsComparator l.symbols)).head? = some a')
    (h4 : (lib.sort _segmentsCompareX (lib.sort _segmentsComparator l.symbols)).getLast?
      = some z') :
    _fillLabelInfo lib lc l
      = some ⟨⟨a'.x, a.y, z'.x + z'.width - a'.x, z.y + z.height - a.y⟩,
          lib.sort _segmentsCompareX (lib.sort _segmentsComparator l.symbols),
          (scanLines lib lc (lib.sort _segmentsComparator l.symbols) 0 (-1) (-1)).1,
          l.multi_begin, l.multi_line_y⟩ := by
  unfold newLineSep at hsep
  have e1 := getElem?_zero_eq_head? (lib.sort _segmentsComparator l.symbols)
  have e2 := getElem?_pred_eq_getLast? (lib.sort _segmentsComparator l.symbols)
    l.symbols.length (lib.sort_perm _ _).length_eq
  have e3 := getElem?_zero_eq_head?
    (lib.sort _segmentsCompareX (lib.sort _segmentsComparator l.symbols))
  have e4 := getElem?_pred_eq_getLast?
    (lib.sort _segmentsCompareX (lib.sort _segmentsComparator l.symbols))
    l.symbols.length (((lib.sort_perm _ _).trans (lib.sort_perm _ _)).length_eq)
  simp only [_fillLabelInfo, if_neg hsep, e1, e2, e3, e4, h1, h2, h3, h4, Option.bind_eq_bind,
    Option.some_bind, gt_iff_lt]

theorem fill_multi (lib : StdLib) (lc : LabelCombiner) (l : Label)
    (hsep : 0 < newLineSep lib lc l) (a z f zf zg : Segment)
    (h1 : (lib.sort _segmentsComparator l.symbols).head? = some a)
    (h2 : (lib.sort _segmentsComparator l.symbols).getLast? = some z)
    (h3 : (lib.sort _segmentsCompareX ((lib.sort _segmentsComparator l.symbols).take
      (newLineSep lib lc l).toNat)).head? = some f)
    (h4 : (lib.sort _segmentsCompareX ((lib.sort _segmentsComparator l.symbols).take
      (newLineSep lib lc l).toNat)).getLast? = some zf)
    (h5 : (lib.sort _segmentsCompareX ((lib.sort _segmentsComparator l.symbols).drop
      (newLineSep lib lc l).toNat)).getLast? = some zg) :
    _fillLabelInfo lib lc l
      = some ⟨⟨f.x, a.y, max (zf.x + zf.width) (zg.x + zg.width) - f.x,
            z.y + z.height - a.y⟩,
          lib.sort _segmentsCompareX ((lib.sort _segmentsComparator l.symbols).take
              (newLineSep lib lc l).toNat)
            ++ lib.sort _segmentsCompareX ((lib.sort _segmentsComparator l.symbols).drop
              (newLineSep lib lc l).toNat),
          (scanLines lib lc (lib.sort _segmentsComparator l.symbols) 0 (-1) (-1)).1,
          newLineSep lib lc l,
          (secondLineY lc (lib.sort _segmentsCompareX
            ((lib.sort _segmentsComparator l.symbols).drop
              (newLineSep lib lc l).toNat))).getD l.multi_line_y⟩ := by
  have hrange : 0 < newLineSep lib lc l ∧ newLineSep lib lc l < l.symbols.length := by
    rcases newLineSep_range lib lc l with h | h
    · omega
    · exact h
  generalize hn : (newLineSep lib lc l).toNat = n at h3 h4 h5 ⊢
  have hn1 : 0 < n := by omega
  have hn2 : n < l.symbols.length := by omega
  generalize hS : lib.sort _segmentsComparator l.symbols = S0 at h1 h2 h3 h4 h5 ⊢
  have hlen0 : S0.length = l.symbols.length := hS ▸ (lib.sort_perm _ _).length_eq
  generalize hF : lib.sort _segmentsCompareX (S0.take n) = F at h3 h4 ⊢
  generalize hG : lib.sort _segmentsCompareX (S0.drop n) = G at h5 ⊢
  have hlenF : F.length = n := by
    rw [← hF, (lib.sort_perm _ _).length_eq, List.length_take]; omega
  have hlenD : (S0.drop n).length = l.symbols.length - n := by
    rw [List.length_drop, hlen0]
  have hlenG : G.length = l.symbols.length - n := by
    rw [← hG, (lib.sort_perm _ _).length_eq, hlenD]
  have e1 : S0[0]? = some a := by rw [getElem?_zero_eq_head?]; exact h1
  have e2 : (F ++ S0.drop n)[0]? = some f := by
    rw [List.getElem?_append_left (by omega), getElem?_zero_eq_head?]; exact h3
  have e3 : (F ++ S0.drop n)[l.symbols.length - 1]? = some z := by
    rw [List.getElem?_append_right (by omega), List.getElem?_drop, ← h2,
      ← getElem?_pred_eq_getLast? S0 _ hlen0]
    congr 1; omega
  have e4 : (F ++ S0.drop n).take n = F := by
    rw [List.take_append_of_le_length (by omega), List.take_of_length_le (by omega)]
  have e5 : (F ++ S0.drop n).drop n = S0.drop n := by
    rw [← hlenF]; exact List.drop_left _ _
  have e6 : (F ++ G)[n - 1]? = some zf := by
    rw [List.getElem?_append_left (by omega), getElem?_pred_eq_getLast? F n hlenF]; exact h4
  have e7 : (F ++ G)[l.symbols.length - 1]? = some zg := by
    rw [List.getElem?_append_right (by omega), ← h5,
      ← getElem?_pred_eq_getLast? G _ hlenG]
    congr 1; omega
  have e8 : (F ++ G).drop n = G := by
    rw [← hlenF]; exact List.drop_left _ _
  unfold newLineSep at hsep hn
  rw [hS] at hsep hn
  simp only [_fillLabelInfo, hS, gt_iff_lt, if_pos hsep, hn, hF, e1, e2, e3, e4, e5, hG, e6, e7,
    e8, Option.bind_eq_bind, Option.some_bind, newLineSep]

theorem exists_head?_getLast? (L : List Segment) (h : L ≠ []) :
    ∃ a z, L.head? = some a ∧ L.getLast? = some z :=
  ⟨L.head h, L.getLast h, List.head?_eq_head h, List.getLast?_eq_getLast _ h⟩

theorem sort_ne_nil (lib : StdLib) (lt : Segment → Segment → Bool) (L : List Segment)
    (h : L ≠ []) : lib.sort lt L ≠ [] := by
  intro hnil
  have := (lib.sort_perm lt L).length_eq
  rw [hnil] at this
  exact h (List.length_eq_zero.1 this.symm)

/-- C9. On a label with at least one symbol `_fillLabelInfo` returns, and the
symbols it leaves are a rearrangement of the symbols it was given. When no
second line is found they are in non-decreasing x order. When a second line
is found, at `multi_begin = new_line_sep`, the symbols before `multi_begin`
are in non-decreasing x order, so are the symbols from `multi_begin` on, and
the first run is made of the first `multi_begin` symbols of the list sorted by
`_segmentsComparator`, which is in (y, then x) ascending order. -/
theorem fillLabelInfo_order (lib : StdLib) (lc : LabelCombiner) (l : Label)
    (hne : l.symbols ≠ []) :
    ∃ l', _fillLabelInfo lib lc l = some l' ∧
      l'.symbols.Perm l.symbols ∧
      (lib.sort _segmentsComparator l.symbols).Pairwise
        (fun a b => a.y < b.y ∨ (a.y = b.y ∧ a.x ≤ b.x)) ∧
      (¬ 0 < newLineSep lib lc l → l'.symbols.Pairwise (fun a b => a.x ≤ b.x)) ∧
      (0 < newLineSep lib lc l →
        l'.multi_begin = newLineSep lib lc l ∧
        newLineSep lib lc l < l.symbols.length ∧
        (l'.symbols.take (newLineSep lib lc l).toNat).Pairwise (fun a b => a.x ≤ b.x) ∧
        (l'.symbols.drop (newLineSep lib lc l).toNat).Pairwise (fun a b => a.x ≤ b.x) ∧
        (l'.symbols.take (newLineSep lib lc l).toNat).Perm
          ((lib.sort _segmentsComparator l.symbols).take (newLineSep lib lc l).toNat)) := by
  have hS0 : lib.sort _segmentsComparator l.symbols ≠ [] := sort_ne_nil lib _ _ hne
  obtain ⟨a, z, h1, h2⟩ := exists_head?_getLast? _ hS0
  by_cases hsep : 0 < newLineSep lib lc l
  · have hrange : newLineSep lib lc l < l.symbols.length := by
      rcases newLineSep_range lib lc l with h | h
      · omega
      · exact h.2
    have hlen0 : (lib.sort _segmentsComparator l.symbols).length = l.symbols.length :=
      (lib.sort_perm _ _).length_eq
    have htake : (lib.sort _segmentsComparator l.symbols).take (newLineSep lib lc l).toNat
        ≠ [] := by
      intro h
      have := congrArg List.length h
      rw [List.length_take] at this
      simp only [List.length_nil] at this
      omega
    have hdrop : (lib.sort _segmentsComparator l.symbols).drop (newLineSep lib lc l).toNat
        ≠ [] := by
      intro h
      have := congrArg List.length h
      rw [List.length_drop] at this
      simp only [List.length_nil] at this
      omega
    obtain ⟨f, zf, h3, h4⟩ := exists_head?_getLast? _ (sort_ne_nil lib _segmentsCompareX _ htake)
    obtain ⟨_, zg, -, h5⟩ := exists_head?_getLast? _ (sort_ne_nil lib _segmentsCompareX _ hdrop)
    have hlenF : (lib.sort _segmentsCompareX ((lib.sort _segmentsComparator l.symbols).take
        (newLineSep lib lc l).toNat)).length = (newLineSep lib lc l).toNat := by
      rw [(lib.sort_perm _ _).length_eq, List.length_take]; omega
    refine ⟨_, fill_multi lib lc l hsep a z f zf zg h1 h2 h3 h4 h5, ?_, sortYX_sorted lib _,
      fun h => absurd hsep h, fun _ => ⟨rfl, hrange, ?_, ?_, ?_⟩⟩
    · refine (((lib.sort_perm _ _).append (lib.sort_perm _ _)).trans ?_).trans
        (lib.sort_perm _segmentsComparator l.symbols)
      rw [List.take_append_drop]
    · simp only
      rw [List.take_left' hlenF]
      exact sortX_sorted lib _
    · simp only
      rw [List.drop_left' hlenF]
      exact sortX_sorted lib _
    · simp only
      rw [List.take_left' hlenF]
      exact lib.sort_perm _ _
  · obtain ⟨a', z', h3, h4⟩ := exists_head?_getLast? _ (sort_ne_nil lib _segmentsCompareX _ hS0)
    refine ⟨_, fill_single lib lc l hsep a z a' z' h1 h2 h3 h4, ?_, sortYX_sorted lib _,
      fun _ => sortX_sorted lib _, fun h => absurd h hsep⟩
    exact (lib.sort_perm _ _).trans (lib.sort_perm _ _)

/-- C9, at a concrete input: three symbols, the third on a second line. -/
theorem fillLabelInfo_order_witness :
    twoLineLabel.symbols ≠ [] ∧
    _fillLabelInfo insertionLib capitalTen twoLineLabel
      = some ⟨⟨0, 0, 28, 22⟩, [⟨0, 0, 10, 10⟩, ⟨11, 0, 10, 10⟩, ⟨22, 14, 6, 8⟩], 10, 2, -1⟩ ∧
    ∃ l', _fillLabelInfo insertionLib capitalTen twoLineLabel = some l' ∧
      l'.symbols.Perm twoLineLabel.symbols :=
  ⟨by decide,
    by norm_num [_fillLabelInfo, insertionLib, capitalTen, twoLineLabel, scanLines,
      _segmentsComparator, _segmentsCompareX, List.insertionSort, List.orderedInsert,
      secondLineY, (by decide : Int.toNat 2 = 2)],
    (fillLabelInfo_order insertionLib capitalTen twoLineLabel (by decide)).imp
      (fun _ h => ⟨h.1, h.2.1⟩)⟩

theorem pairwise_head {R : Segment → Segment → Prop} (L : List Segment) (a : Segment)
    (hp : L.Pairwise R) (hh : L.head? = some a) : ∀ t ∈ L, t = a ∨ R a t := by
  obtain ⟨ys, rfl⟩ := List.head?_eq_some_iff.1 hh
  intro t ht
  rcases List.mem_cons.1 ht with h | h
  · left; exact h
  · right; exact (List.pairwise_cons.1 hp).1 t h

theorem pairwise_getLast {R : Segment → Segment → Prop} (L : List Segment) (z : Segment)
    (hp : L.Pairwise R) (hl : L.getLast? = some z) : ∀ t ∈ L, t = z ∨ R t z := by
  obtain ⟨ys, rfl⟩ := List.getLast?_eq_some_iff.1 hl
  intro t ht
  rcases List.mem_append.1 ht with h | h
  · right; exact (List.pairwise_append.1 hp).2.2 t h z (List.mem_singleton_self z)
  · left; exact List.mem_singleton.1 h

/-- What `_fillLabelInfo` leaves in the rectangle. On a label with at least
one symbol `_fillLabelInfo` returns, and its rectangle is taken from the ends of the
sorted runs: `rect.y` is the smallest y of any symbol; `rect.y + rect.height`
is the bottom edge of a symbol that is last in (y, then x) order. When no
second line is found `rect.x` is the smallest x of any symbol and
`rect.x + rect.width` is the right edge of a symbol with the largest x. When a
second line is found `rect.x` is the smallest x of the first-line run and
`rect.x + rect.width` is the larger of the right edges of a largest-x symbol of
the first run and a largest-x symbol of the second run. -/
theorem fillLabelInfo_rect (lib : StdLib) (lc : LabelCombiner) (l : Label)
    (hne : l.symbols ≠ []) :
    ∃ l', _fillLabelInfo lib lc l = some l' ∧
      (∀ s ∈ l.symbols, l'.rect.y ≤ s.y) ∧
      (∃ s ∈ l.symbols, l'.rect.y = s.y) ∧
      (∃ s ∈ l.symbols, (∀ t ∈ l.symbols, t.y < s.y ∨ (t.y = s.y ∧ t.x ≤ s.x)) ∧
        l'.rect.y + l'.rect.height = s.y + s.height) ∧
      (¬ 0 < newLineSep lib lc l →
        (∀ s ∈ l.symbols, l'.rect.x ≤ s.x) ∧
        (∃ s ∈ l.symbols, l'.rect.x = s.x) ∧
        (∃ s ∈ l.symbols, (∀ t ∈ l.symbols, t.x ≤ s.x) ∧
          l'.rect.x + l'.rect.width = s.x + s.width)) ∧
      (0 < newLineSep lib lc l →
        (∀ s ∈ l'.symbols.take (newLineSep lib lc l).toNat, l'.rect.x ≤ s.x) ∧
        (∃ s ∈ l'.symbols.take (newLineSep lib lc l).toNat, l'.rect.x = s.x) ∧
        (∃ s₁ ∈ l'.symbols.take (newLineSep lib lc l).toNat,
          ∃ s₂ ∈ l'.symbols.drop (newLineSep lib lc l).toNat,
            (∀ t ∈ l'.symbols.take (newLineSep lib lc l).toNat, t.x ≤ s₁.x) ∧
            (∀ t ∈ l'.symbols.drop (newLineSep lib lc l).toNat, t.x ≤ s₂.x) ∧
            l'.rect.x + l'.rect.width = max (s₁.x + s₁.width) (s₂.x + s₂.width))) := by
  have hS0 : lib.sort _segmentsComparator l.symbols ≠ [] := sort_ne_nil lib _ _ hne
  obtain ⟨a, z, h1, h2⟩ := exists_head?_getLast? _ hS0
  have hperm0 := lib.sort_perm _segmentsComparator l.symbols
  have ha : a ∈ l.symbols := hperm0.mem_iff.1 (List.mem_of_mem_head? h1)
  have hz : z ∈ l.symbols := hperm0.mem_iff.1 (List.mem_of_getLast?_eq_some h2)
  have htop : ∀ s ∈ l.symbols, a.y ≤ s.y := by
    intro s hs
    rcases pairwise_head _ a (sortYX_sorted lib l.symbols) h1 s (hperm0.mem_iff.2 hs)
      with h | h | h
    · rw [h]
    · omega
    · omega
  have hbot : ∀ t ∈ l.symbols, t.y < z.y ∨ (t.y = z.y ∧ t.x ≤ z.x) := by
    intro t ht
    rcases pairwise_getLast _ z (sortYX_sorted lib l.symbols) h2 t (hperm0.mem_iff.2 ht)
      with h | h
    · right; rw [h]; exact ⟨rfl, le_refl _⟩
    · exact h
  by_cases hsep : 0 < newLineSep lib lc l
  · have hrange : newLineSep lib lc l < l.symbols.length := by
      rcases newLineSep_range lib lc l with h | h
      · omega
      · exact h.2
    have hlen0 : (lib.sort _segmentsComparator l.symbols).length = l.symbols.length :=
      hperm0.length_eq
    have htake : (lib.sort _segmentsComparator l.symbols).take (newLineSep lib lc l).toNat
        ≠ [] := by
      intro h
      have := congrArg List.length h
      rw [List.length_take] at this
      simp only [List.length_nil] at this
      omega
    have hdrop : (lib.sort _segmentsComparator l.symbols).drop (newLineSep lib lc l).toNat
        ≠ [] := by
      intro h
      have := congrArg List.length h
      rw [List.length_drop] at this
      simp only [List.length_nil] at this
      omega
    obtain ⟨f, zf, h3, h4⟩ := exists_head?_getLast? _ (sort_ne_nil lib _segmentsCompareX _ htake)
    obtain ⟨_, zg, -, h5⟩ := exists_head?_getLast? _ (sort_ne_nil lib _segmentsCompareX _ hdrop)
    have hlenF : (lib.sort _segmentsCompareX ((lib.sort _segmentsComparator l.symbols).take
        (newLineSep lib lc l).toNat)).length = (newLineSep lib lc l).toNat := by
      rw [(lib.sort_perm _ _).length_eq, List.length_take]; omega
    refine ⟨_, fill_multi lib lc l hsep a z f zf zg h1 h2 h3 h4 h5, htop, ⟨a, ha, rfl⟩,
      ⟨z, hz, hbot, by simp⟩, fun h => absurd hsep h, fun _ => ?_⟩
    simp only
    rw [List.take_left' hlenF, List.drop_left' hlenF]
    refine ⟨?_, ⟨f, List.mem_of_mem_head? h3, rfl⟩,
      ⟨zf, List.mem_of_getLast?_eq_some h4, zg, List.mem_of_getLast?_eq_some h5, ?_, ?_, by simp⟩⟩
    · intro s hs
      rcases pairwise_head _ f (sortX_sorted lib _) h3 s hs with h | h
      · rw [h]
      · exact h
    · intro t ht
      rcases pairwise_getLast _ zf (sortX_sorted lib _) h4 t ht with h | h
      · rw [h]
      · exact h
    · intro t ht
      rcases pairwise_getLast _ zg (sortX_sorted lib _) h5 t ht with h | h
      · rw [h]
      · exact h
  · obtain ⟨a', z', h3, h4⟩ := exists_head?_getLast? _ (sort_ne_nil lib _segmentsCompareX _ hS0)
    have hpermX := (lib.sort_perm _segmentsCompareX
      (lib.sort _segmentsComparator l.symbols)).trans hperm0
    refine ⟨_, fill_single lib lc l hsep a z a' z' h1 h2 h3 h4, htop, ⟨a, ha, rfl⟩,
      ⟨z, hz, hbot, by simp⟩, fun _ => ⟨?_, ⟨a', hpermX.mem_iff.1 (List.mem_of_mem_head? h3),
        rfl⟩, ⟨z', hpermX.mem_iff.1 (List.mem_of_getLast?_eq_some h4), ?_, by simp⟩⟩,
      fun h => absurd h hsep⟩
    · intro s hs
      rcases pairwise_head _ a' (sortX_sorted lib _) h3 s (hpermX.mem_iff.2 hs) with h | h
      · rw [h]
      · exact h
    · intro t ht
      rcases pairwise_getLast _ z' (sortX_sorted lib _) h4 t (hpermX.mem_iff.2 ht) with h | h
      · rw [h]
      · exact h

/-- The rectangle at a concrete input: the letter with a dot in its opening. -/
theorem fillLabelInfo_rect_example :
    dottedLabel.symbols ≠ [] ∧
    ∃ l', _fillLabelInfo insertionLib capitalTen dottedLabel = some l' ∧
      (∀ s ∈ dottedLabel.symbols, l'.rect.y ≤ s.y) ∧
      (∃ s ∈ dottedLabel.symbols, l'.rect.y = s.y) :=
  ⟨by decide,
    (fillLabelInfo_rect insertionLib capitalTen dottedLabel (by decide)).imp
      (fun _ h => ⟨h.1, h.2.1, h.2.2.1⟩)⟩

/-! ### Two glyphs side by side -/

theorem perm_pair (L : List Segment) (a b : Segment) (h : L.Perm [a, b]) :
    L = [a, b] ∨ L = [b, a] := by
  have hlen := h.length_eq
  match L, hlen with
  | [x, y], _ =>
    have hx : x ∈ [a, b] := h.mem_iff.1 (List.mem_cons_self _ _)
    have hy : y ∈ [a, b] := h.mem_iff.1 (List.mem_cons_of_mem _ (List.mem_cons_self _ _))
    have ha : a ∈ [x, y] := h.mem_iff.2 (List.mem_cons_self _ _)
    have hb : b ∈ [x, y] := h.mem_iff.2 (List.mem_cons_of_mem _ (List.mem_cons_self _ _))
    simp only [List.mem_cons, List.mem_singleton, List.not_mem_nil, or_false] at hx hy ha hb
    rcases hx with rfl | rfl <;> rcases hy with rfl | rfl
    · rcases hb with rfl | rfl <;> simp
    · simp
    · simp
    · rcases ha with rfl | rfl <;> simp

theorem locateLabels_pair (glib : GraphLib) (fresh : Label) (l r : Segment)
    (pos : List Vec2d) (e : Nat × Nat)
    (hbuild : glib.build [l, r] = ⟨[l, r], pos, [e]⟩)
    (hkeep : keepEdge glib ⟨[l, r], pos, [e]⟩ e = some true)
    (he : e = (0, 1) ∨ e = (1, 0))
    (hcc : ComponentsOk ⟨[l, r], pos, [e]⟩
      (glib.connected_components ⟨[l, r], pos, [e]⟩).1
      (glib.connected_components ⟨[l, r], pos, [e]⟩).2) :
    _locateLabels glib fresh [l, r] = some [{ fresh with symbols := [l, r] }] := by
  simp only [_locateLabels, hbuild, pruneEdges, hkeep, Option.bind_eq_bind, Option.some_bind,
    if_true]
  generalize (glib.connected_components ⟨[l, r], pos, [e]⟩).1 = cc at hcc ⊢
  generalize (glib.connected_components ⟨[l, r], pos, [e]⟩).2 = comp at hcc ⊢
  obtain ⟨h1, h2, h3⟩ := hcc
  simp only [List.length_cons, List.length_nil] at h1 h2
  have h01 : comp 0 = comp 1 := by
    have := h3 e (List.mem_singleton_self e)
    rcases he with rfl | rfl
    · exact this
    · exact this.symm
  have hc0 : comp 0 < cc := h1 0 (by omega)
  have hzero : comp 0 = 0 := by
    obtain ⟨i, hi, hic⟩ := h2 0 (by omega)
    have : i = 0 ∨ i = 1 := by omega
    rcases this with rfl | rfl
    · exact hic
    · rw [h01]; exact hic
  have hcc1 : cc = 1 := by
    by_contra hne
    obtain ⟨i, hi, hic⟩ := h2 1 (by omega)
    have : i = 0 ∨ i = 1 := by omega
    rcases this with rfl | rfl
    · omega
    · omega
  have hone : comp 1 = 0 := by rw [← h01]; exact hzero
  subst hcc1
  simp [assembleLabels, groupComponents_eq, List.range_succ, List.filter_cons, hzero, hone]

/-- Two symbols joined by an edge that the pruning loop keeps land in one
label. -/
theorem locateLabels_twoGlyph (srcLeft : Bool) (l r : Segment)
    (hkeep : keepEdge (twoGlyphLib srcLeft) ((twoGlyphLib srcLeft).build [l, r])
      (if srcLeft then (0, 1) else (1, 0)) = some true) :
    _locateLabels (twoGlyphLib srcLeft) freshLabel [l, r]
      = some [{ freshLabel with symbols := [l, r] }] := by
  apply locateLabels_pair (twoGlyphLib srcLeft) freshLabel l r [intCenter l, intCenter r]
    (if srcLeft then (0, 1) else (1, 0)) rfl hkeep
  · cases srcLeft
    · right; simp
    · left; simp
  · simp only [ComponentsOk, twoGlyphLib]
    cases srcLeft <;>
      exact ⟨fun i _ => by simp, fun c hc => ⟨0, by simp, by simp at hc ⊢; omega⟩,
        fun e _ => by simp⟩

/-- C8. The rectangle that `_fillLabelInfo` leaves is not the bounding
rectangle. Without a second line: for the letter `(0, 0, 10, 10)` with a dot
`(6, 4, 2, 2)` in its opening the rectangle is `(0, 0, 8, 6)`, and the letter,
whose right and bottom edges are at 10, does not lie inside it (the pruning
loop keeps the edge between the two, so `_locateLabels` puts them in one
label). With a second line: for the capital `(2, 0, 10, 10)` with the digit `(1, 12, 6, 8)` below it,
which `_locateLabels` puts in one label, the rectangle is `(2, 0, 10, 20)`, and
the digit, whose left edge is at 1, does not lie inside it. -/
theorem fillLabelInfo_rect_not_bounding :
    _locateLabels (twoGlyphLib true) freshLabel [⟨6, 4, 2, 2⟩, ⟨0, 0, 10, 10⟩]
      = some [dottedLabel] ∧
    _fillLabelInfo insertionLib capitalTen dottedLabel
      = some ⟨⟨0, 0, 8, 6⟩, [⟨0, 0, 10, 10⟩, ⟨6, 4, 2, 2⟩], 10, -1, -1⟩ ∧
    (⟨0, 0, 10, 10⟩ : Segment) ∈ dottedLabel.symbols ∧
    (0 : Int) + 8 < (⟨0, 0, 10, 10⟩ : Segment).x + (⟨0, 0, 10, 10⟩ : Segment).width ∧
    (0 : Int) + 6 < (⟨0, 0, 10, 10⟩ : Segment).y + (⟨0, 0, 10, 10⟩ : Segment).height ∧
    keepEdge (twoGlyphLib true) ((twoGlyphLib true).build [⟨2, 0, 10, 10⟩, ⟨1, 12, 6, 8⟩])
      (0, 1) = some true ∧
    _locateLabels (twoGlyphLib true) freshLabel [⟨2, 0, 10, 10⟩, ⟨1, 12, 6, 8⟩]
      = some [⟨⟨0, 0, 0, 0⟩, [⟨2, 0, 10, 10⟩, ⟨1, 12, 6, 8⟩], -1, -1, -1⟩] ∧
    _fillLabelInfo insertionLib capitalTen
        ⟨⟨0, 0, 0, 0⟩, [⟨2, 0, 10, 10⟩, ⟨1, 12, 6, 8⟩], -1, -1, -1⟩
      = some ⟨⟨2, 0, 10, 20⟩, [⟨2, 0, 10, 10⟩, ⟨1, 12, 6, 8⟩], 10, 1, -1⟩ ∧
    (⟨1, 12, 6, 8⟩ : Segment).x < 2 := by
  have hkeep : keepEdge (twoGlyphLib true)
      ((twoGlyphLib true).build [⟨2, 0, 10, 10⟩, ⟨1, 12, 6, 8⟩]) (0, 1) = some true := by
    norm_num [keepEdge, twoGlyphLib, intCenter, edgeTest, abs_lt]
  refine ⟨?_, ?_, by decide, by decide, by decide, hkeep,
    locateLabels_twoGlyph true _ _ hkeep, ?_, by decide⟩
  · exact locateLabels_twoGlyph true _ _
      (by norm_num [keepEdge, twoGlyphLib, intCenter, edgeTest, abs_lt])
  · norm_num [_fillLabelInfo, insertionLib, capitalTen, dottedLabel, scanLines,
      _segmentsComparator, _segmentsCompareX, List.insertionSort, List.orderedInsert,
      secondLineY]
  · norm_num [_fillLabelInfo, insertionLib, capitalTen, scanLines,
      _segmentsComparator, _segmentsCompareX, List.insertionSort, List.orderedInsert,
      secondLineY]

end LabelCombiner

end imago

namespace imago

namespace LabelCombiner

/-! ### The second line of a label -/

theorem sort_singleton (lib : StdLib) (lt : Segment → Segment → Bool) (s : Segment) :
    lib.sort lt [s] = [s] :=
  List.perm_singleton.1 (lib.sort_perm lt [s])

/-- C11, as the code has it. On a label of a capital-sized symbol `cap` and a
symbol `small` that starts below it and whose rounded vertical midpoint lies
more than `_space` below the bottom edge of `cap`, `_fillLabelInfo` returns
with `multi_begin = 1`, the symbols in the order `cap`, `small` and `line_y` at
the bottom edge of `cap`; `multi_line_y` is assigned the bottom edge of
`small` when `small` is taller than `_cap_height_error * _cap_height`, and
keeps the value it had before the call otherwise. -/
theorem fillLabelInfo_second_line (lib : StdLib) (lc : LabelCombiner) (l : Label)
    (cap small : Segment) (hperm : l.symbols.Perm [cap, small])
    (hcap : (cap.height : ℚ) > lc._cap_height_error * 0.5 * lc._cap_height)
    (hbelow : cap.y < small.y)
    (hmid : lib.round ((small.y : ℚ) + 0.5 * small.height) - (cap.y + cap.height) > lc._space) :
    ∃ l', _fillLabelInfo lib lc l = some l' ∧ l'.multi_begin = 1 ∧
      l'.symbols = [cap, small] ∧ l'.line_y = cap.y + cap.height ∧
      l'.multi_line_y =
        if (small.height : ℚ) > lc._cap_height_error * lc._cap_height
        then small.y + small.height else l.multi_line_y := by
  have hS : lib.sort _segmentsComparator l.symbols = [cap, small] := by
    have hsorted := sortYX_sorted lib l.symbols
    rcases perm_pair _ cap small ((lib.sort_perm _ l.symbols).trans hperm) with h | h
    · exact h
    · exfalso
      rw [h] at hsorted
      have := (List.pairwise_cons.1 hsorted).1 cap (List.mem_singleton_self cap)
      omega
  have hscan : scanLines lib lc [cap, small] 0 (-1) (-1) = (cap.y + cap.height, 1) := by
    have h1 : ((-1 : Int) < 0 ∧
        (cap.height : ℚ) > lc._cap_height_error * 0.5 * lc._cap_height) := ⟨by decide, hcap⟩
    have h2 : ¬ ((0 : Int) < 0 ∧
        (small.height : ℚ) > lc._cap_height_error * 0.5 * lc._cap_height) :=
      fun h => absurd h.1 (by decide)
    have h3 : ((0 : Int) ≥ 0 ∧
        lib.round ((small.y : ℚ) + 0.5 * small.height) - (cap.y + cap.height) > lc._space) :=
      ⟨by decide, hmid⟩
    rw [scanLines, if_pos h1]
    simp only [zero_add]
    rw [scanLines, if_neg h2, if_pos h3]
  have hlen : l.symbols.length = 2 := hperm.length_eq
  by_cases htall : (small.height : ℚ) > lc._cap_height_error * lc._cap_height
  · refine ⟨⟨⟨cap.x, cap.y, max (cap.x + cap.width) (small.x + small.width) - cap.x,
      small.y + small.height - cap.y⟩, [cap, small], cap.y + cap.height, 1,
      small.y + small.height⟩, ?_, rfl, rfl, rfl, ?_⟩
    · simp [_fillLabelInfo, hS, hscan, hlen, sort_singleton, secondLineY, htall]
    · simp [htall]
  · refine ⟨⟨⟨cap.x, cap.y, max (cap.x + cap.width) (small.x + small.width) - cap.x,
      small.y + small.height - cap.y⟩, [cap, small], cap.y + cap.height, 1,
      l.multi_line_y⟩, ?_, rfl, rfl, rfl, ?_⟩
    · simp [_fillLabelInfo, hS, hscan, hlen, sort_singleton, secondLineY, htall]
    · simp [htall]

/-- C11, at a concrete input: a 10 x 10 capital and an 8 x 12 symbol below it,
shifted to the right, which is taller than the capital height; the pruning
loop keeps their edge and `_locateLabels` puts them in one label. -/
theorem fillLabelInfo_second_line_witness :
    keepEdge (twoGlyphLib true) ((twoGlyphLib true).build [⟨4, 12, 8, 12⟩, ⟨0, 0, 10, 10⟩])
      (0, 1) = some true ∧
    _locateLabels (twoGlyphLib true) freshLabel [⟨4, 12, 8, 12⟩, ⟨0, 0, 10, 10⟩]
      = some [{ freshLabel with symbols := [⟨4, 12, 8, 12⟩, ⟨0, 0, 10, 10⟩] }] ∧
    ∃ l', _fillLabelInfo insertionLib capitalTen
        { freshLabel with symbols := [⟨4, 12, 8, 12⟩, ⟨0, 0, 10, 10⟩] } = some l' ∧
      l'.multi_begin = 1 ∧ l'.symbols = [⟨0, 0, 10, 10⟩, ⟨4, 12, 8, 12⟩] ∧
      l'.line_y = 10 ∧ l'.multi_line_y = 24 := by
  have hkeep : keepEdge (twoGlyphLib true)
      ((twoGlyphLib true).build [⟨4, 12, 8, 12⟩, ⟨0, 0, 10, 10⟩]) (0, 1) = some true := by
    norm_num [keepEdge, twoGlyphLib, intCenter, edgeTest, abs_lt]
  have h := fillLabelInfo_second_line insertionLib capitalTen
    { freshLabel with symbols := [⟨4, 12, 8, 12⟩, ⟨0, 0, 10, 10⟩] }
    ⟨0, 0, 10, 10⟩ ⟨4, 12, 8, 12⟩ (List.Perm.swap _ _ _)
    (by norm_num [capitalTen]) (by decide)
    (by norm_num [capitalTen, insertionLib])
  obtain ⟨l', h1, h2, h3, h4, h5⟩ := h
  refine ⟨hkeep, locateLabels_twoGlyph true _ _ hkeep, l', h1, h2, h3, h4, ?_⟩
  rw [h5]
  norm_num [capitalTen]

/-- C11, the claim as stated fails: for a 10 x 10 capital at `(0, 0)`
followed by an 8 x 8 digit at `(4, 12)`, below it and shifted to the right,
whose midpoint 16 lies 6 > 5 below the bottom edge 10 of the capital, the
pruning loop keeps the edge between them in either direction (with integer and
with exact centres), `_locateLabels` puts them in one label, and
`_fillLabelInfo` reports `multi_begin = 1` and leaves `multi_line_y` at the
value -1 that it had before the call, which is the bottom edge of neither
symbol. -/
theorem fillLabelInfo_baseline_not_assigned :
    keepEdge (twoGlyphLib true) ((twoGlyphLib true).build [⟨0, 0, 10, 10⟩, ⟨4, 12, 8, 8⟩])
      (0, 1) = some true ∧
    keepEdge (twoGlyphLib false) ((twoGlyphLib false).build [⟨0, 0, 10, 10⟩, ⟨4, 12, 8, 8⟩])
      (1, 0) = some true ∧
    keepEdge pairGraphLib (pairGraphLib.build [⟨0, 0, 10, 10⟩, ⟨4, 12, 8, 8⟩]) (0, 1)
      = some true ∧
    _locateLabels (twoGlyphLib true) freshLabel [⟨0, 0, 10, 10⟩, ⟨4, 12, 8, 8⟩]
      = some [⟨⟨0, 0, 0, 0⟩, [⟨0, 0, 10, 10⟩, ⟨4, 12, 8, 8⟩], -1, -1, -1⟩] ∧
    ((10 : Int) : ℚ) > capitalTen._cap_height_error * 0.5 * capitalTen._cap_height ∧
    insertionLib.round (((12 : Int) : ℚ) + 0.5 * ((8 : Int) : ℚ)) - (0 + 10) = 6 ∧
    capitalTen._space = 5 ∧
    _fillLabelInfo insertionLib capitalTen
        ⟨⟨0, 0, 0, 0⟩, [⟨0, 0, 10, 10⟩, ⟨4, 12, 8, 8⟩], -1, -1, -1⟩
      = some ⟨⟨0, 0, 12, 20⟩, [⟨0, 0, 10, 10⟩, ⟨4, 12, 8, 8⟩], 10, 1, -1⟩ := by
  have hkeep : keepEdge (twoGlyphLib true)
      ((twoGlyphLib true).build [⟨0, 0, 10, 10⟩, ⟨4, 12, 8, 8⟩]) (0, 1) = some true := by
    norm_num [keepEdge, twoGlyphLib, intCenter, edgeTest, abs_lt]
  refine ⟨hkeep, ?_, ?_, locateLabels_twoGlyph true _ _ hkeep, by norm_num [capitalTen],
    by norm_num [insertionLib], rfl, ?_⟩
  · norm_num [keepEdge, twoGlyphLib, intCenter, edgeTest, abs_lt]
  · norm_num [keepEdge, pairGraphLib, boxCenter, edgeTest, abs_lt]
  · norm_num [_fillLabelInfo, insertionLib, capitalTen, scanLines,
      _segmentsComparator, _segmentsCompareX, List.insertionSort, List.orderedInsert,
      secondLineY]

end LabelCombiner

end imago

namespace imago

/-! ### `recognizeMat` -/

/-- The keys of `m.assign k v` are `k` and the keys of `m`. -/
theorem RecognitionDistance.mem_keys_assign {α : Type} (m : RecognitionDistance α) (k : Char)
    (v : α) (ch : Char) (h : ch ∈ (m.assign k v).map Prod.fst) :
    ch = k ∨ ch ∈ m.map Prod.fst := by
  induction m with
  | nil =>
    simp only [RecognitionDistance.assign, List.map_cons, List.map_nil,
      List.mem_singleton] at h
    exact Or.inl h
  | cons e rest ih =>
    obtain ⟨k', v'⟩ := e
    simp only [RecognitionDistance.assign] at h
    split_ifs at h with h1 h2
    · simp only [List.map_cons, List.mem_cons] at h ⊢
      exact h
    · simp only [List.map_cons, List.mem_cons] at h ⊢
      rcases h with h | h
      · exact Or.inl h
      · exact Or.inr (Or.inr h)
    · simp only [List.map_cons, List.mem_cons] at h ⊢
      rcases h with h | h
      · exact Or.inr (Or.inl h)
      · rcases ih h with h | h
        · exact Or.inl h
        · exact Or.inr (Or.inr h)

namespace CharacterRecognizerImp

variable {α : Type} [LinearOrderedField α]

theorem compareImages_isSome {β : Type} [LinearOrderedCommRing β] (c : Constants β)
    (hstep : 0 < c.PENALTY_STEP) (img : Mat Nat) (ink white : Mat β) :
    ∃ d, compareImages c img ink white = some d := by
  unfold compareImages
  rw [if_neg (by omega)]
  exact ⟨_, rfl⟩

/-- With a positive `PENALTY_STEP` the loop over the templates ends, and every
entry of `results` carries the text of a template that passed the filter of
line 412. -/
theorem scoreTemplates_spec (c : Constants α) (hstep : 0 < c.PENALTY_STEP) (img : Mat Nat)
    (ratio : α) (candidates : List Char) (templates : List (MatchRecord α)) :
    ∃ results, scoreTemplates c img ratio candidates templates = some results ∧
      ∀ e ∈ results, ∃ t ∈ templates, t.text = e.text ∧
        (candidates = [] ∨ t.text <:+: candidates) := by
  induction templates with
  | nil => exact ⟨[], rfl, by simp⟩
  | cons t ts ih =>
    obtain ⟨rest, hrest, hspec⟩ := ih
    unfold scoreTemplates
    split_ifs with hskip
    · refine ⟨rest, hrest, fun e he => ?_⟩
      obtain ⟨t', ht', h⟩ := hspec e he
      exact ⟨t', List.mem_cons_of_mem _ ht', h⟩
    · obtain ⟨d, hd⟩ := compareImages_isSome c hstep img t.penalty_ink t.penalty_white
      refine ⟨⟨adjustDistance d |ratio - t.wh_ratio|, t.text⟩ :: rest, ?_, fun e he => ?_⟩
      · simp [hd, hrest]
      · rcases List.mem_cons.1 he with rfl | he
        · refine ⟨t, List.mem_cons_self _ _, rfl, ?_⟩
          by_cases hc : candidates = []
          · exact Or.inl hc
          · right
            by_contra hn
            exact hskip ⟨hc, hn⟩
        · obtain ⟨t', ht', h⟩ := hspec e he
          exact ⟨t', List.mem_cons_of_mem _ ht', h⟩

/-- Every key of the mapping built by the loop of lines 437-444 is the
one-character text of an entry of `results`. -/
theorem topVariants_keys (lib : RecognizerLib α) (vars : CharacterSettings α)
    (results : List (ResultEntry α)) (ch : Char)
    (h : ch ∈ (topVariants lib vars results).map Prod.fst) :
    ∃ e ∈ results, e.text = [ch] := by
  unfold topVariants at h
  split_ifs at h with hempty
  · simp at h
  · have key : ∀ (us : List Nat) (init : RecognitionDistance α),
        ch ∈ (us.foldl
          (fun _result u =>
            match (lib.sort results)[u]? with
            | some entry =>
              match entry.text with
              | [ch] => _result.assign ch (entry.value / vars.DistanceScaleFactor)
              | _ => _result
            | none => _result)
          init).map Prod.fst →
        ch ∈ init.map Prod.fst ∨ ∃ e ∈ lib.sort results, e.text = [ch] := by
      intro us
      induction us with
      | nil => intro init h; exact Or.inl h
      | cons u us ih =>
        intro init h
        rw [List.foldl_cons] at h
        rcases ih _ h with h | h
        · split at h
          · next entry hu =>
            have hmem : entry ∈ lib.sort results := List.mem_iff_getElem?.2 ⟨u, hu⟩
            split at h
            · next k htext =>
              rcases RecognitionDistance.mem_keys_assign _ _ _ _ h with h | h
              · exact Or.inr ⟨entry, hmem, by rw [htext, h]⟩
              · exact Or.inl h
            · exact Or.inl h
          · exact Or.inl h
        · exact Or.inr h
    rcases key _ _ h with h | ⟨e, he, het⟩
    · simp at h
    · exact ⟨e, (lib.sort_perm results).mem_iff.1 he, het⟩

theorem recognizeMat_spec (c : Constants α) (hstep : 0 < c.PENALTY_STEP) (lib : RecognizerLib α)
    (vars : CharacterSettings α) (rect : Mat Nat) (candidates : List Char)
    (templates : List (MatchRecord α)) :
    ∃ r, recognizeMat c lib vars rect candidates templates = some r ∧
      ∀ ch ∈ r.map Prod.fst, ∃ t ∈ templates, t.text = [ch] ∧
        (candidates = [] ∨ [ch] <:+: candidates) := by
  obtain ⟨results, hres, hspec⟩ := scoreTemplates_spec c hstep (lib.prepareImage rect).1
    (lib.prepareImage rect).2 candidates templates
  refine ⟨topVariants lib vars results, ?_, fun ch hch => ?_⟩
  · simp [recognizeMat, hres]
  · obtain ⟨e, he, het⟩ := topVariants_keys lib vars results ch hch
    obtain ⟨t, ht, htext, hc⟩ := hspec e he
    rw [het] at htext
    exact ⟨t, ht, htext, by rw [← htext]; exact hc⟩

/-- C14, the claim fails on the code: with `MaxTopVariantsLookup = 1`, no
candidate filter and three templates `A`, `B`, `C` at the distances 0, 1, 2
from the input, the loop of lines 437-444 runs for `u = 1` and `u = 0` and the
returned mapping has the two characters `A` and `B`. -/
theorem recognizeMat_keeps_one_more :
    topOne.MaxTopVariantsLookup = 1 ∧
    scoreTemplates unitConstants (plainLib.prepareImage inkPixel).1
        (plainLib.prepareImage inkPixel).2 [] abcTemplates
      = some [⟨0, ['A']⟩, ⟨1, ['B']⟩, ⟨2, ['C']⟩] ∧
    lookupIndices topOne 3 = [1, 0] ∧
    recognizeMat unitConstants plainLib topOne inkPixel [] abcTemplates
      = some [('A', 0), ('B', 1)] ∧
    ((([('A', 0), ('B', 1)] : RecognitionDistance ℚ).length : Int)
      > topOne.MaxTopVariantsLookup) := by
  refine ⟨rfl, ?_, by decide, ?_, by decide⟩
  · norm_num [scoreTemplates, plainLib, abcTemplates, inkPixel, unitConstants, compareImages,
      shifts, pixelSum, adjustDistance, Mat.ofRows, List.range_succ]
  · norm_num [recognizeMat, scoreTemplates, topVariants, lookupIndices, plainLib, topOne,
      abcTemplates, inkPixel, unitConstants, compareImages, shifts, pixelSum, adjustDistance,
      Mat.ofRows, RecognitionDistance.assign, List.range_succ, List.insertionSort,
      List.orderedInsert]
    decide

/-- C15. The aspect-ratio penalty of lines 419-422 multiplies the distance by
1.1 when the ratio difference is above 0.3 and leaves it unchanged otherwise;
the branch that multiplies by 1.3 is reached for no ratio difference, since it
needs a difference that is not above 0.3 and above 0.5; and the entry that
`recognizeMat` pushes for a template carries the distance of `compareImages`
adjusted this way with the difference `|ratio - wh_ratio|`. -/
theorem adjustDistance_only_first (distance ratio_diff ratio : α) (c : Constants α)
    (img : Mat Nat) (t : MatchRecord α) :
    adjustDistance distance ratio_diff
      = (if ratio_diff > 0.3 then distance * 1.1 else distance) ∧
    ¬ (¬ ratio_diff > 0.3 ∧ ratio_diff > 0.5) ∧
    (ratio_diff > 0.5 → adjustDistance distance ratio_diff = distance * 1.1) ∧
    scoreTemplates c img ratio [] [t]
      = (compareImages c img t.penalty_ink t.penalty_white).map
          (fun d => [⟨if |ratio - t.wh_ratio| > 0.3 then d * 1.1 else d, t.text⟩]) := by
  have h35 : (0.3 : α) < 0.5 := by norm_num
  have hno : ¬ (¬ ratio_diff > 0.3 ∧ ratio_diff > 0.5) := by
    rintro ⟨h1, h2⟩
    exact h1 (lt_trans h35 h2)
  have hadj : ∀ d x : α, adjustDistance d x = (if x > 0.3 then d * 1.1 else d) := by
    intro d x
    unfold adjustDistance
    split_ifs with h1 h2
    · rfl
    · exact absurd (lt_trans h35 h2) h1
    · rfl
  refine ⟨hadj _ _, hno, fun h => ?_, ?_⟩
  · rw [hadj, if_pos (lt_trans h35 h)]
  · cases hd : compareImages c img t.penalty_ink t.penalty_white with
    | none => simp [scoreTemplates, hd]
    | some d => simp [scoreTemplates, hd, hadj]

/-- C16. With a non-empty candidate string and a positive `PENALTY_STEP`,
`recognizeMat` returns a mapping, and every character of the mapping occurs in
the candidate string and is the one-character text of a template. -/
theorem recognizeMat_keys_in_candidates (c : Constants α) (hstep : 0 < c.PENALTY_STEP)
    (lib : RecognizerLib α) (vars : CharacterSettings α) (rect : Mat Nat)
    (candidates : List Char) (hne : candidates ≠ []) (templates : List (MatchRecord α)) :
    ∃ r, recognizeMat c lib vars rect candidates templates = some r ∧
      ∀ ch ∈ r.map Prod.fst, ch ∈ candidates ∧ ∃ t ∈ templates, t.text = [ch] := by
  obtain ⟨r, hr, hspec⟩ := recognizeMat_spec c hstep lib vars rect candidates templates
  refine ⟨r, hr, fun ch hch => ?_⟩
  obtain ⟨t, ht, htext, hc⟩ := hspec ch hch
  refine ⟨?_, t, ht, htext⟩
  rcases hc with hc | hc
  · exact absurd hc hne
  · exact hc.subset (List.mem_singleton_self ch)

/-- C16, at a concrete input: the candidates `AB` on the templates `A`, `B`,
`C`. -/
theorem recognizeMat_keys_in_candidates_witness :
    0 < unitConstants.PENALTY_STEP ∧ ['A', 'B'] ≠ ([] : List Char) ∧
    ∃ r, recognizeMat unitConstants plainLib topOne inkPixel ['A', 'B'] abcTemplates = some r ∧
      ∀ ch ∈ r.map Prod.fst, ch ∈ ['A', 'B'] ∧ ∃ t ∈ abcTemplates, t.text = [ch] :=
  ⟨by decide, by decide,
    recognizeMat_keys_in_candidates unitConstants (by decide) plainLib topOne inkPixel
      ['A', 'B'] (by decide) abcTemplates⟩

end CharacterRecognizerImp

end imago

namespace imago

namespace CharacterRecognizer

open CharacterRecognizerImp

variable {α : Type} [LinearOrderedField α]

/-! ### `isPossibleCharacter` -/

/-- C17. When the best character of the recognition result is `!`,
`isPossibleCharacter` returns false, whatever the distance, the quality, the
settings, the number of endpoints and the loose flag are. -/
theorem isPossibleCharacter_graphics (api : DistanceApi α) (vars : CharacterSettings α)
    (rd : RecognitionDistance α) (endpoints : Int) (loose_cmp : Bool)
    (h : (api.getBest rd).1 = '!') :
    isPossibleCharacter api vars rd endpoints loose_cmp = false := by
  unfold isPossibleCharacter
  simp only [h, if_true]

/-- C17, at a concrete input: the best character `!` at distance 0 with
quality 5, thresholds 3 and 4, minimal quality 0 and the loose flag set. -/
theorem isPossibleCharacter_graphics_witness :
    (listApi.getBest [('!', 0), ('A', 5)]).1 = '!' ∧
    (listApi.getBest [('!', 0), ('A', 5)]).2 < topOne.PossibleCharacterDistanceStrong ∧
    listApi.getQuality [('!', 0), ('A', 5)] > topOne.PossibleCharacterMinimalQuality ∧
    isPossibleCharacter listApi topOne [('!', 0), ('A', 5)] 7 true = false :=
  ⟨by norm_num [listApi], by norm_num [listApi, topOne], by norm_num [listApi, topOne],
    isPossibleCharacter_graphics listApi topOne [('!', 0), ('A', 5)] 7 true
      (by norm_num [listApi])⟩

/-- C18. The method `isPossibleCharacter` returns true exactly when the best
character is not `!`; it is not one of `lL1iIVv` or the segment has at least
`MinEndpointsPossible` endpoints; the quality is above
`PossibleCharacterMinimalQuality`; and the best distance is below
`PossibleCharacterDistanceStrong`, or the loose flag is set and the best
distance is below `PossibleCharacterDistanceWeak`. -/
theorem isPossibleCharacter_iff (api : DistanceApi α) (vars : CharacterSettings α)
    (rd : RecognitionDistance α) (endpoints : Int) (loose_cmp : Bool) :
    isPossibleCharacter api vars rd endpoints loose_cmp = true ↔
      ((api.getBest rd).1 ≠ '!' ∧
       ((api.getBest rd).1 ∉ ['l', 'L', '1', 'i', 'I', 'V', 'v'] ∨
          vars.MinEndpointsPossible ≤ endpoints) ∧
       api.getQuality rd > vars.PossibleCharacterMinimalQuality ∧
       ((api.getBest rd).2 < vars.PossibleCharacterDistanceStrong ∨
          (loose_cmp = true ∧ (api.getBest rd).2 < vars.PossibleCharacterDistanceWeak))) := by
  unfold isPossibleCharacter like_bonds
  dsimp only
  constructor
  · intro h
    split_ifs at h with h1 h2 h3 h4
    · have hb : ¬ ((api.getBest rd).1 ∈ ['l', 'L', '1', 'i', 'I', 'V', 'v'] ∧
          endpoints < vars.MinEndpointsPossible) := h2
      refine ⟨h1, ?_, h3.2, Or.inl h3.1⟩
      by_cases hm : (api.getBest rd).1 ∈ ['l', 'L', '1', 'i', 'I', 'V', 'v']
      · exact Or.inr (not_lt.1 (fun hlt => hb ⟨hm, hlt⟩))
      · exact Or.inl hm
    · have hb : ¬ ((api.getBest rd).1 ∈ ['l', 'L', '1', 'i', 'I', 'V', 'v'] ∧
          endpoints < vars.MinEndpointsPossible) := h2
      refine ⟨h1, ?_, h4.2.2, Or.inr ⟨h4.1, h4.2.1⟩⟩
      by_cases hm : (api.getBest rd).1 ∈ ['l', 'L', '1', 'i', 'I', 'V', 'v']
      · exact Or.inr (not_lt.1 (fun hlt => hb ⟨hm, hlt⟩))
      · exact Or.inl hm
  · rintro ⟨h1, h2, h3, h4⟩
    have hb : ¬ ((api.getBest rd).1 ∈ ['l', 'L', '1', 'i', 'I', 'V', 'v'] ∧
        endpoints < vars.MinEndpointsPossible) := by
      rintro ⟨hm, hlt⟩
      rcases h2 with h2 | h2
      · exact h2 hm
      · exact absurd hlt (not_lt.2 h2)
    rw [if_neg h1, if_neg hb]
    rcases h4 with h4 | ⟨h4, h5⟩
    · rw [if_pos ⟨h4, h3⟩]
    · split_ifs with h6 h7
      · rfl
      · rfl
      · exact absurd ⟨h4, h5, h3⟩ h7

end CharacterRecognizer

end imago

namespace imago

namespace CharacterRecognizer

open CharacterRecognizerImp

variable {α : Type} [LinearOrderedField α]

/-! ### The recognition cache -/

theorem recognizeImage_isSome (c : Constants α) (hstep : 0 < c.PENALTY_STEP)
    (lib : RecognizerLib α) (vars : CharacterSettings α) (seg : Raster)
    (candidates : List Char) (templates : List (MatchRecord α)) :
    ∃ r, recognizeImage c lib vars seg candidates templates = some r := by
  obtain ⟨r, hr, -⟩ := recognizeMat_spec c hstep lib vars (lib.copyImageToMat seg) candidates
    templates
  exact ⟨r, hr⟩

/-- A call of `recognize` with the cache `m` at a fingerprint that is a key. -/
theorem recognize_hit (c : Constants α) (lib : RecognizerLib α) (vars : CharacterSettings α)
    (templates : List (MatchRecord α)) (m : Nat → Option (RecognitionDistance α))
    (seg : Raster) (candidates : List Char) (rec : RecognitionDistance α)
    (hm : m (getSegmentHash seg candidates) = some rec) :
    recognize c lib vars templates (some m) seg candidates = some (rec, some m) := by
  simp [recognize, hm]

/-- A call of `recognize` with the cache `m` at a fingerprint that is no key. -/
theorem recognize_miss (c : Constants α) (lib : RecognizerLib α) (vars : CharacterSettings α)
    (templates : List (MatchRecord α)) (m : Nat → Option (RecognitionDistance α))
    (seg : Raster) (candidates : List Char)
    (hm : m (getSegmentHash seg candidates) = none) :
    recognize c lib vars templates (some m) seg candidates
      = (recognizeImage c lib vars seg candidates templates).map
          (fun rec => (rec, some (Function.update m (getSegmentHash seg candidates)
            (some rec)))) := by
  cases hr : recognizeImage c lib vars seg candidates templates <;>
    simp [recognize, hm, hr]

/-- A call of `recognize` without a cache. -/
theorem recognize_uncached (c : Constants α) (lib : RecognizerLib α)
    (vars : CharacterSettings α) (templates : List (MatchRecord α)) (seg : Raster)
    (candidates : List Char) :
    recognize c lib vars templates none seg candidates
      = (recognizeImage c lib vars seg candidates templates).map (fun rec => (rec, none)) := by
  cases hr : recognizeImage c lib vars seg candidates templates <;>
    simp [recognize, hr]

/-- The fingerprint is a value for every candidate string; on the candidate
string `CharacterRecognizer::all` (75 characters, shift counts up to 55) and a
segment without ink it is 692011035. -/
theorem getSegmentHash_all :
    CharacterRecognizer.all.length = 75 ∧
    getSegmentHash ⟨0, 0, fun _ _ => 255⟩ CharacterRecognizer.all = 692011035 := by
  decide

/-- C19. With a cache `m` present and a positive `PENALTY_STEP`, `segHash`
being the fingerprint `getSegmentHash(seg, candidates)`: when `segHash` is a
key of `m`, `recognize` returns the stored value and the cache `m`; otherwise
it returns the result `rec` of `recognizeImage` and a cache that maps `segHash`
to `rec` and agrees with `m` at every other key. In both cases a second call
with the same arguments on the cache left by the first returns the same result
and the same cache. -/
theorem recognize_cache (c : Constants α) (hstep : 0 < c.PENALTY_STEP)
    (lib : RecognizerLib α) (vars : CharacterSettings α) (templates : List (MatchRecord α))
    (m : Nat → Option (RecognitionDistance α)) (seg : Raster) (candidates : List Char) :
    (∀ rec, m (getSegmentHash seg candidates) = some rec →
      recognize c lib vars templates (some m) seg candidates = some (rec, some m)) ∧
    (m (getSegmentHash seg candidates) = none →
      ∃ rec m', recognizeImage c lib vars seg candidates templates = some rec ∧
        recognize c lib vars templates (some m) seg candidates = some (rec, some m') ∧
        m' (getSegmentHash seg candidates) = some rec ∧
        (∀ k, k ≠ getSegmentHash seg candidates → m' k = m k) ∧
        recognize c lib vars templates (some m') seg candidates = some (rec, some m')) := by
  refine ⟨fun rec hm => recognize_hit c lib vars templates m seg candidates rec hm,
    fun hm => ?_⟩
  obtain ⟨rec, hrec⟩ := recognizeImage_isSome c hstep lib vars seg candidates templates
  refine ⟨rec, Function.update m (getSegmentHash seg candidates) (some rec), hrec, ?_,
    Function.update_same _ _ _, fun k hk => Function.update_noteq hk _ _, ?_⟩
  · rw [recognize_miss c lib vars templates m seg candidates hm, hrec]
    rfl
  · exact recognize_hit c lib vars templates _ seg candidates rec
      (Function.update_same _ _ _)

/-- C19, at a concrete input: the empty cache, one ink pixel and the
candidates `AB`, with the fingerprint 197. -/
theorem recognize_cache_witness :
    0 < unitConstants.PENALTY_STEP ∧ getSegmentHash inkRaster ['A', 'B'] = 197 ∧
    ∃ rec m', recognizeImage unitConstants plainLib topOne inkRaster ['A', 'B'] abcTemplates
        = some rec ∧
      recognize unitConstants plainLib topOne abcTemplates (some (fun _ => none)) inkRaster
        ['A', 'B'] = some (rec, some m') ∧
      m' (getSegmentHash inkRaster ['A', 'B']) = some rec ∧
      (∀ k, k ≠ getSegmentHash inkRaster ['A', 'B'] → m' k = none) ∧
      recognize unitConstants plainLib topOne abcTemplates (some m') inkRaster ['A', 'B']
        = some (rec, some m') :=
  ⟨by decide, by decide,
    (recognize_cache unitConstants (by decide) plainLib topOne abcTemplates (fun _ => none)
      inkRaster ['A', 'B']).2 rfl⟩

/-- Every entry of a cache that earlier calls of `recognize` filled was in the
cache at the start or is the `recognizeImage` result of an earlier call with
that fingerprint. -/
theorem cacheAfter_entries (c : Constants α) (lib : RecognizerLib α)
    (vars : CharacterSettings α) (templates : List (MatchRecord α))
    (calls : List (Raster × List Char)) :
    ∀ (m₀ m : Nat → Option (RecognitionDistance α)),
      cacheAfter c lib vars templates m₀ calls = some m →
      ∀ h rec, m h = some rec →
        m₀ h = some rec ∨
        ∃ call ∈ calls, getSegmentHash call.1 call.2 = h ∧
          recognizeImage c lib vars call.1 call.2 templates = some rec := by
  induction calls with
  | nil =>
    intro m₀ m hm h rec hrec
    simp only [cacheAfter, Option.some.injEq] at hm
    subst hm
    exact Or.inl hrec
  | cons call calls ih =>
    intro m₀ m hm h rec hrec
    unfold cacheAfter at hm
    cases hk : m₀ (getSegmentHash call.1 call.2) with
    | some stored =>
      rw [recognize_hit c lib vars templates m₀ call.1 call.2 stored hk] at hm
      rcases ih m₀ m hm h rec hrec with h1 | ⟨call', hc', h1⟩
      · exact Or.inl h1
      · exact Or.inr ⟨call', List.mem_cons_of_mem _ hc', h1⟩
    | none =>
      rw [recognize_miss c lib vars templates m₀ call.1 call.2 hk] at hm
      cases hr : recognizeImage c lib vars call.1 call.2 templates with
      | none => simp [hr] at hm
      | some fresh =>
        simp only [hr, Option.map_some'] at hm
        rcases ih _ m hm h rec hrec with h1 | ⟨call', hc', h1⟩
        · by_cases hkh : h = getSegmentHash call.1 call.2
          · subst hkh
            rw [Function.update_same] at h1
            exact Or.inr ⟨call, List.mem_cons_self _ _, rfl, by rw [hr, ← h1]⟩
          · rw [Function.update_noteq hkh] at h1
            exact Or.inl h1
        · exact Or.inr ⟨call', List.mem_cons_of_mem _ hc', h1⟩

/-- With a positive `PENALTY_STEP` every call of a sequence returns, and leaves
a cache. -/
theorem cacheAfter_isSome (c : Constants α) (hstep : 0 < c.PENALTY_STEP)
    (lib : RecognizerLib α) (vars : CharacterSettings α) (templates : List (MatchRecord α))
    (calls : List (Raster × List Char)) :
    ∀ m₀ : Nat → Option (RecognitionDistance α),
      ∃ m, cacheAfter c lib vars templates m₀ calls = some m := by
  induction calls with
  | nil => exact fun m₀ => ⟨m₀, rfl⟩
  | cons call calls ih =>
    intro m₀
    unfold cacheAfter
    cases hk : m₀ (getSegmentHash call.1 call.2) with
    | some stored =>
      rw [recognize_hit c lib vars templates m₀ call.1 call.2 stored hk]
      exact ih m₀
    | none =>
      obtain ⟨fresh, hr⟩ := recognizeImage_isSome c hstep lib vars call.1 call.2 templates
      rw [recognize_miss c lib vars templates m₀ call.1 call.2 hk, hr]
      exact ih _

/-- C20, as the code has it. With a positive `PENALTY_STEP`, a sequence `calls`
of earlier `recognize` calls, started on the empty cache, returns and leaves a
cache `m`. For every input `(seg, candidates)`: if every earlier call that has
the fingerprint of `(seg, candidates)` has the same `recognizeImage` result as
`(seg, candidates)`, then `recognize` with the cache `m` and `recognize`
without a cache both return, and return the same `RecognitionDistance`. -/
theorem recognize_cached_eq_uncached (c : Constants α) (hstep : 0 < c.PENALTY_STEP)
    (lib : RecognizerLib α) (vars : CharacterSettings α) (templates : List (MatchRecord α))
    (calls : List (Raster × List Char)) :
    ∃ m, cacheAfter c lib vars templates (fun _ => none) calls = some m ∧
      ∀ (seg : Raster) (candidates : List Char),
        (∀ call ∈ calls,
          getSegmentHash call.1 call.2 = getSegmentHash seg candidates →
          recognizeImage c lib vars call.1 call.2 templates
            = recognizeImage c lib vars seg candidates templates) →
        ∃ rec m',
          recognize c lib vars templates (some m) seg candidates = some (rec, some m') ∧
          recognize c lib vars templates none seg candidates = some (rec, none) := by
  obtain ⟨m, hm⟩ := cacheAfter_isSome c hstep lib vars templates calls (fun _ => none)
  refine ⟨m, hm, fun seg candidates hdet => ?_⟩
  obtain ⟨fresh, hr⟩ := recognizeImage_isSome c hstep lib vars seg candidates templates
  rw [recognize_uncached c lib vars templates seg candidates, hr]
  cases hk : m (getSegmentHash seg candidates) with
  | some stored =>
    rw [recognize_hit c lib vars templates m seg candidates stored hk]
    rcases cacheAfter_entries c lib vars templates calls _ m hm _ stored hk with
      h1 | ⟨call, hc, h1, h2⟩
    · simp at h1
    · have h3 := hdet call hc h1
      rw [h2, hr] at h3
      exact ⟨stored, m, rfl, by rw [Option.some.inj h3]; rfl⟩
  | none =>
    rw [recognize_miss c lib vars templates m seg candidates hk, hr]
    exact ⟨fresh, _, rfl, rfl⟩

/-- C20, at a concrete input: the call for one ink pixel with the candidates
`AB`, made a second time. -/
theorem recognize_cached_eq_uncached_witness :
    0 < unitConstants.PENALTY_STEP ∧
    ∃ m, cacheAfter unitConstants plainLib topOne abcTemplates (fun _ => none)
        [(inkRaster, ['A', 'B'])] = some m ∧
      ∃ rec m',
        recognize unitConstants plainLib topOne abcTemplates (some m) inkRaster ['A', 'B']
          = some (rec, some m') ∧
        recognize unitConstants plainLib topOne abcTemplates none inkRaster ['A', 'B']
          = some (rec, none) := by
  obtain ⟨m, hm, h⟩ := recognize_cached_eq_uncached unitConstants (by decide) plainLib topOne
    abcTemplates [(inkRaster, ['A', 'B'])]
  refine ⟨by decide, m, hm, h inkRaster ['A', 'B'] (fun call hc _ => ?_)⟩
  rw [List.mem_singleton.1 hc]

/-- C20, the claim as stated fails: on one ink pixel the candidate strings
`AB` and `CC` have the same fingerprint 197, their uncached results are the
mappings with the characters `A`, `B` and with the character `C`, and after a
call for `AB` the cached `recognize` returns for `CC` the mapping of `AB`. -/
theorem fingerprint_collision :
    getSegmentHash inkRaster ['A', 'B'] = 197 ∧
    getSegmentHash inkRaster ['C', 'C'] = 197 ∧
    (recognize unitConstants plainLib topOne abcTemplates none inkRaster ['A', 'B']).map
      Prod.fst = some [('A', 0), ('B', 1)] ∧
    (recognize unitConstants plainLib topOne abcTemplates none inkRaster ['C', 'C']).map
      Prod.fst = some [('C', 2)] ∧
    (cacheAfter unitConstants plainLib topOne abcTemplates (fun _ => none)
      [(inkRaster, ['A', 'B'])]).bind
        (fun m => (recognize unitConstants plainLib topOne abcTemplates (some m) inkRaster
          ['C', 'C']).map Prod.fst) = some [('A', 0), ('B', 1)] := by
  have hAB : getSegmentHash inkRaster ['A', 'B'] = 197 := by decide
  have hCC : getSegmentHash inkRaster ['C', 'C'] = 197 := by decide
  have hiAB : recognizeImage unitConstants plainLib topOne inkRaster ['A', 'B'] abcTemplates
      = some [('A', 0), ('B', 1)] := by
    norm_num [recognizeImage, recognizeMat, scoreTemplates, topVariants, lookupIndices,
      plainLib, topOne, abcTemplates, inkRaster, unitConstants, compareImages, shifts,
      pixelSum, adjustDistance, Mat.ofRows, RecognitionDistance.assign, List.range_succ,
      List.insertionSort, List.orderedInsert]
    decide
  have hiCC : recognizeImage unitConstants plainLib topOne inkRaster ['C', 'C'] abcTemplates
      = some [('C', 2)] := by
    norm_num [recognizeImage, recognizeMat, scoreTemplates, topVariants, lookupIndices,
      plainLib, topOne, abcTemplates, inkRaster, unitConstants, compareImages, shifts,
      pixelSum, adjustDistance, Mat.ofRows, RecognitionDistance.assign, List.range_succ,
      List.insertionSort, List.orderedInsert]
    decide
  refine ⟨hAB, hCC, ?_, ?_, ?_⟩
  · rw [recognize_uncached, hiAB]
    rfl
  · rw [recognize_uncached, hiCC]
    rfl
  · have hcache : cacheAfter unitConstants plainLib topOne abcTemplates (fun _ => none)
        [(inkRaster, ['A', 'B'])]
        = some (Function.update (fun _ => none : Nat → Option (RecognitionDistance ℚ)) 197
            (some [('A', 0), ('B', 1)])) := by
      unfold cacheAfter
      rw [recognize_miss _ _ _ _ _ _ _ rfl, hiAB, hAB]
      rfl
    rw [hcache, Option.some_bind,
      recognize_hit _ _ _ _ _ _ _ [('A', 0), ('B', 1)]
        (by rw [hCC]; exact Function.update_same _ _ _)]
    rfl

end CharacterRecognizer

end imago

namespace imago

namespace CharacterRecognizerImp

/-! ### The penalty maps -/

/-- The number `roundSqrt n` is the least `k` with `n ≤ k * k + k`. -/
theorem roundSqrt_spec (n : Nat) :
    n ≤ roundSqrt n * roundSqrt n + roundSqrt n ∧
    ∀ j, j < roundSqrt n → ¬ n ≤ j * j + j := by
  unfold roundSqrt
  cases h : (List.range (n + 1)).find? (fun k => decide (n ≤ k * k + k)) with
  | none =>
    exfalso
    rw [List.find?_range_eq_none] at h
    have := h n (Nat.lt_succ_self n)
    simp only [Bool.not_eq_true', decide_eq_false_iff_not, not_le] at this
    nlinarith
  | some k =>
    rw [List.find?_range_eq_some] at h
    obtain ⟨h1, -, h3⟩ := h
    simp only [Option.getD_some]
    refine ⟨of_decide_eq_true h1, fun j hj => ?_⟩
    have := h3 j hj
    simpa using this

theorem roundSqrt_le_iff (n R : Nat) : roundSqrt n ≤ R ↔ n ≤ R * R + R := by
  obtain ⟨h1, h2⟩ := roundSqrt_spec n
  constructor
  · intro h
    have : roundSqrt n * roundSqrt n ≤ R * R := Nat.mul_le_mul h h
    omega
  · intro h
    by_contra hlt
    exact h2 R (by omega) h

theorem roundSqrt_zero : roundSqrt 0 = 0 := by
  have := (roundSqrt_le_iff 0 0).2 (by omega)
  omega

theorem mem_offsetRange (radius : Nat) (z : Int) :
    z ∈ offsetRange radius ↔ -(radius : Int) ≤ z ∧ z ≤ radius := by
  unfold offsetRange
  simp only [List.mem_map, List.mem_range]
  constructor
  · rintro ⟨k, hk, rfl⟩
    omega
  · rintro ⟨h1, h2⟩
    exact ⟨(z + radius).toNat, by omega, by omega⟩

theorem length_CircleOffsetPoints (radius : Nat) :
    (CircleOffsetPoints radius).length = radius + 1 := by
  simp [CircleOffsetPoints]

/-- The points of entry `d` of the table. -/
theorem mem_CircleOffsetPoints (radius d : Nat) (p : Int × Int) :
    p ∈ (CircleOffsetPoints radius).getD d [] ↔
      d ≤ radius ∧ (-(radius : Int) ≤ p.1 ∧ p.1 ≤ radius) ∧
        (-(radius : Int) ≤ p.2 ∧ p.2 ≤ radius) ∧
        roundSqrt (p.1 * p.1 + p.2 * p.2).toNat = d := by
  unfold CircleOffsetPoints
  by_cases hd : d < radius + 1
  · rw [List.getD_eq_getElem?_getD, List.getElem?_map, List.getElem?_range hd]
    simp only [Option.map_some', Option.getD_some, List.mem_filter, List.mem_flatMap,
      List.mem_map, decide_eq_true_eq, mem_offsetRange]
    constructor
    · rintro ⟨⟨dx, hdx, dy, hdy, rfl⟩, h⟩
      exact ⟨by omega, hdx, hdy, h⟩
    · rintro ⟨-, h1, h2, h3⟩
      exact ⟨⟨p.1, h1, p.2, h2, rfl⟩, h3⟩
  · rw [List.getD_eq_getElem?_getD, List.getElem?_eq_none (by simp; omega)]
    simp only [Option.getD_none, List.not_mem_nil, false_iff]
    rintro ⟨h, -⟩
    omega

/-- A point whose rounded length is at most `radius` has both coordinates in
`[-radius, radius]`. -/
theorem offset_in_range (radius : Nat) (dx dy : Int)
    (h : roundSqrt (dx * dx + dy * dy).toNat ≤ radius) :
    (-(radius : Int) ≤ dx ∧ dx ≤ radius) ∧ (-(radius : Int) ≤ dy ∧ dy ≤ radius) := by
  rw [roundSqrt_le_iff] at h
  have h0 : 0 ≤ dx * dx + dy * dy := by nlinarith [mul_self_nonneg dx, mul_self_nonneg dy]
  have h' : dx * dx + dy * dy ≤ (radius : Int) * radius + radius := by
    have : ((dx * dx + dy * dy).toNat : Int) ≤ ((radius * radius + radius : Nat) : Int) := by
      exact_mod_cast h
    rw [Int.toNat_of_nonneg h0] at this
    push_cast at this
    exact this
  have hr : (0 : Int) ≤ radius := Int.natCast_nonneg radius
  refine ⟨⟨?_, ?_⟩, ⟨?_, ?_⟩⟩ <;> nlinarith [mul_self_nonneg dx, mul_self_nonneg dy]

variable {α : Type} [LinearOrderedCommRing α]

/-- A pixel `(i, j)` of `img` with the value `value` is hit from the cell
`(x, y)` by the point `(i - x, j - y)`. -/
theorem hitsValue_pixel (img : Mat Nat) (value : Nat) (y x : Int) (j i : Nat)
    (hj : j < img.cols) (hi : i < img.rows) (hv : img.get j i = value) :
    hitsValue img value y x ((i : Int) - x, (j : Int) - y) = true := by
  unfold hitsValue
  have e1 : y + ((j : Int) - y) = j := by ring
  have e2 : x + ((i : Int) - x) = i := by ring
  simp only [e1, e2, Int.toNat_ofNat]
  rw [if_neg (by omega), if_neg (by omega)]
  exact decide_eq_true hv

/-- A point that hits lands on a pixel of `img` with the value `value`. -/
theorem pixel_of_hitsValue (img : Mat Nat) (value : Nat) (y x : Int) (p : Int × Int)
    (h : hitsValue img value y x p = true) :
    ∃ j, j < img.cols ∧ ∃ i, i < img.rows ∧ img.get j i = value ∧
      (i : Int) - x = p.1 ∧ (j : Int) - y = p.2 := by
  unfold hitsValue at h
  dsimp only at h
  split_ifs at h with h1 h2
  refine ⟨(y + p.2).toNat, by omega, (x + p.1).toNat, by omega, of_decide_eq_true h, ?_, ?_⟩
  · rw [Int.toNat_of_nonneg (by omega)]
    ring
  · rw [Int.toNat_of_nonneg (by omega)]
    ring

/-- The value `min_dist` of the cell `(x, y)` and the pixel value `value` is
the ring radius of the nearest pixel of that value. -/
theorem minDist_spec (c : Constants α) (img : Mat Nat) (value : Nat) (y x : Int) :
    IsRingRadius c.REQUIRED_SIZE img value y x (minDist c img value y x) := by
  unfold IsRingRadius
  have hhit : ∀ j, j < img.cols → ∀ i, i < img.rows → img.get j i = value →
      ∀ e, roundSqrt ((((i : Int) - x) * ((i : Int) - x)
            + ((j : Int) - y) * ((j : Int) - y)).toNat) = e → e ≤ c.REQUIRED_SIZE →
        ((CircleOffsetPoints c.REQUIRED_SIZE).getD e []).any (hitsValue img value y x)
          = true := by
    intro j hj i hi hv e he hle
    rw [List.any_eq_true]
    refine ⟨((i : Int) - x, (j : Int) - y), ?_, hitsValue_pixel img value y x j i hj hi hv⟩
    rw [mem_CircleOffsetPoints]
    obtain ⟨h1, h2⟩ := offset_in_range c.REQUIRED_SIZE ((i : Int) - x) ((j : Int) - y)
      (by rw [he]; exact hle)
    exact ⟨hle, h1, h2, he⟩
  unfold minDist
  rw [length_CircleOffsetPoints]
  cases hf : (List.range (c.REQUIRED_SIZE + 1)).find?
      (fun radius => ((CircleOffsetPoints c.REQUIRED_SIZE).getD radius []).any
        (hitsValue img value y x)) with
  | none =>
    rw [List.find?_range_eq_none] at hf
    simp only [Option.getD_none]
    refine ⟨le_refl _, fun j hj i hi hv => ?_, Or.inl trivial⟩
    by_contra hlt
    have h := hf _ (by omega : roundSqrt ((((i : Int) - x) * ((i : Int) - x)
            + ((j : Int) - y) * ((j : Int) - y)).toNat) < c.REQUIRED_SIZE + 1)
    rw [hhit j hj i hi hv _ rfl (by omega)] at h
    exact absurd h (by decide)
  | some d =>
    rw [List.find?_range_eq_some] at hf
    obtain ⟨h1, h2, h3⟩ := hf
    have hd : d ≤ c.REQUIRED_SIZE := by
      have := List.mem_range.1 h2
      omega
    simp only [Option.getD_some]
    refine ⟨hd, fun j hj i hi hv => ?_, Or.inr ?_⟩
    · by_contra hlt
      have h := h3 _ (by omega : roundSqrt ((((i : Int) - x) * ((i : Int) - x)
            + ((j : Int) - y) * ((j : Int) - y)).toNat) < d)
      rw [hhit j hj i hi hv _ rfl (by omega)] at h
      exact absurd h (by decide)
    · rw [List.any_eq_true] at h1
      obtain ⟨p, hp, hhits⟩ := h1
      obtain ⟨j, hj, i, hi, hv, e1, e2⟩ := pixel_of_hitsValue img value y x p hhits
      rw [mem_CircleOffsetPoints] at hp
      exact ⟨j, hj, i, hi, hv, by rw [e1, e2]; exact hp.2.2.2⟩

/-- On a pixel of `img` that has the value `value`, `min_dist` is 0. -/
theorem minDist_self (c : Constants α) (img : Mat Nat) (value : Nat) (j i : Nat)
    (hj : j < img.cols) (hi : i < img.rows) (hv : img.get j i = value) :
    minDist c img value j i = 0 := by
  have h := (minDist_spec c img value j i).2.1 j hj i hi hv
  simp only [sub_self, mul_zero, add_zero, Int.toNat_zero, roundSqrt_zero] at h
  omega

theorem foldl_fixed {β γ : Type} (f : β → γ → β) (l : List γ)
    (h : ∀ b, ∀ x ∈ l, f b x = b) (b : β) : l.foldl f b = b := by
  induction l generalizing b with
  | nil => rfl
  | cons x l ih =>
    rw [List.foldl_cons, h b x (List.mem_cons_self _ _)]
    exact ih (fun b' x' hx' => h b' x' (List.mem_cons_of_mem _ hx')) b

/-- A loop whose body maps every `best` that is not negative to 0, run at
least once on such a `best`, leaves 0. -/
theorem foldl_best_zero {γ : Type} (g : α → α) (hg : ∀ b, 0 ≤ b → g b = 0) (l : List γ)
    (b : α) (hb : 0 ≤ b) (hl : l ≠ [] ∨ b = 0) :
    l.foldl (fun best _ => g best) b = 0 := by
  induction l generalizing b with
  | nil =>
    rcases hl with hl | hl
    · exact absurd rfl hl
    · exact hl
  | cons x l ih =>
    rw [List.foldl_cons, hg b hb]
    exact ih 0 (le_refl _) (Or.inr rfl)

/-- On a binary image the sum of `compareImages` against the maps built from
the image itself is 0. -/
theorem pixelSum_self (c : Constants α) (sqrt : Nat → α) (hsqrt : sqrt 0 = 0) (img : Mat Nat)
    (hbin : ∀ y, y < img.cols → ∀ x, x < img.rows → img.get y x = 0 ∨ img.get y x = 255) :
    pixelSum c img (calculatePenalties c sqrt img).1 (calculatePenalties c sqrt img).2 = 0 := by
  unfold pixelSum
  apply foldl_fixed
  intro result y hy
  apply foldl_fixed
  intro result x hx
  have hy' := List.mem_range.1 hy
  have hx' := List.mem_range.1 hx
  have ey : (((y + c.PENALTY_SHIFT : Nat) : Int) - (c.PENALTY_SHIFT : Int)) = (y : Int) := by
    push_cast
    ring
  have ex : (((x + c.PENALTY_SHIFT : Nat) : Int) - (c.PENALTY_SHIFT : Int)) = (x : Int) := by
    push_cast
    ring
  simp only [calculatePenalties, ey, ex]
  split_ifs with h0
  · rw [minDist_self c img 0 y x hy' hx' h0]
    simp
  · have h255 : img.get y x = 255 := (hbin y hy' x hx').resolve_left h0
    rw [minDist_self c img 255 y x hy' hx' h255, hsqrt]
    simp

/-- C12. For every binary image (every pixel 0 or 255), of the canonical size
or of any other, with a positive `PENALTY_STEP`, a positive `DIST_INF` and
`sqrt(0) = 0`: `compareImages` of the image against the two maps that
`calculatePenalties` builds from the image itself returns exactly 0. -/
theorem compareImages_self (c : Constants α) (hstep : 0 < c.PENALTY_STEP)
    (hinf : 0 < c.DIST_INF) (sqrt : Nat → α) (hsqrt : sqrt 0 = 0) (img : Mat Nat)
    (hbin : ∀ y, y < img.cols → ∀ x, x < img.rows → img.get y x = 0 ∨ img.get y x = 255) :
    compareImages c img (calculatePenalties c sqrt img).1 (calculatePenalties c sqrt img).2
      = some 0 := by
  unfold compareImages
  rw [if_neg (by omega), pixelSum_self c sqrt hsqrt img hbin]
  have hne : shifts c ≠ [] := by
    unfold shifts
    rw [List.range_succ]
    simp
  have hstep0 : ∀ b : α, 0 ≤ b → (if (0 : α) < b then 0 else b) = 0 := by
    intro b hb
    split_ifs with h
    · rfl
    · exact le_antisymm (not_lt.1 h) hb
  have hinner : ∀ b : α, 0 ≤ b →
      (shifts c).foldl (fun best _shift_y => if (0 : α) < best then 0 else best) b = 0 :=
    fun b hb => foldl_best_zero _ hstep0 (shifts c) b hb (Or.inl hne)
  congr 1
  exact foldl_best_zero _ hinner (shifts c) c.DIST_INF (le_of_lt hinf) (Or.inl hne)

/-- C12, at a concrete input: the 3 x 3 plus sign, with the integer square
root in the place of `sqrt`. -/
theorem compareImages_self_witness :
    compareImages plusConstants plusTemplate
      (calculatePenalties plusConstants (fun n => (Nat.sqrt n : Int)) plusTemplate).1
      (calculatePenalties plusConstants (fun n => (Nat.sqrt n : Int)) plusTemplate).2
      = some 0 :=
  compareImages_self plusConstants (by decide) (by decide) (fun n => (Nat.sqrt n : Int))
    (by decide) plusTemplate (by decide)

/-- C13. The two maps of `calculatePenalties` are squares of side
`REQUIRED_SIZE + 2 * PENALTY_SHIFT`. At row `r` and column `k`, the cell
`(x, y) = (k - PENALTY_SHIFT, r - PENALTY_SHIFT)`, the ink map holds a number
`d` and the white map holds `sqrt e`, where `d` for the ink pixels (value 0)
and `e` for the background pixels (value 255) are the ring radius of the
nearest such pixel: at most `REQUIRED_SIZE`, at most the rounded distance from
the cell to every such pixel, and equal to `REQUIRED_SIZE` or to the rounded
distance to one such pixel. With a `sqrt` that is not negative the entries of
both maps are not negative. -/
theorem calculatePenalties_ring (c : Constants α) (sqrt : Nat → α)
    (hsqrt : ∀ n, 0 ≤ sqrt n) (img : Mat Nat) :
    (calculatePenalties c sqrt img).1.rows = c.REQUIRED_SIZE + 2 * c.PENALTY_SHIFT ∧
    (calculatePenalties c sqrt img).1.cols = c.REQUIRED_SIZE + 2 * c.PENALTY_SHIFT ∧
    (calculatePenalties c sqrt img).2.rows = c.REQUIRED_SIZE + 2 * c.PENALTY_SHIFT ∧
    (calculatePenalties c sqrt img).2.cols = c.REQUIRED_SIZE + 2 * c.PENALTY_SHIFT ∧
    ∀ r k : Nat, ∃ d e : Nat,
      (calculatePenalties c sqrt img).1.get r k = (d : α) ∧
      (calculatePenalties c sqrt img).2.get r k = sqrt e ∧
      0 ≤ (calculatePenalties c sqrt img).1.get r k ∧
      0 ≤ (calculatePenalties c sqrt img).2.get r k ∧
      IsRingRadius c.REQUIRED_SIZE img 0 ((r : Int) - c.PENALTY_SHIFT)
        ((k : Int) - c.PENALTY_SHIFT) d ∧
      IsRingRadius c.REQUIRED_SIZE img 255 ((r : Int) - c.PENALTY_SHIFT)
        ((k : Int) - c.PENALTY_SHIFT) e := by
  refine ⟨rfl, rfl, rfl, rfl, fun r k => ?_⟩
  exact ⟨minDist c img 0 ((r : Int) - c.PENALTY_SHIFT) ((k : Int) - c.PENALTY_SHIFT),
    minDist c img 255 ((r : Int) - c.PENALTY_SHIFT) ((k : Int) - c.PENALTY_SHIFT),
    rfl, rfl, Nat.cast_nonneg _, hsqrt _, minDist_spec c img 0 _ _, minDist_spec c img 255 _ _⟩

/-- C13, at a concrete input: the 3 x 3 plus sign, with the integer square
root in the place of `sqrt`; at the corner cell `(-1, -1)` the ink map holds 2
and the white map holds 1. -/
theorem calculatePenalties_ring_witness :
    (calculatePenalties plusConstants (fun n => (Nat.sqrt n : Int)) plusTemplate).1.rows = 5 ∧
    (calculatePenalties plusConstants (fun n => (Nat.sqrt n : Int)) plusTemplate).1.get 0 0
      = 2 ∧
    (calculatePenalties plusConstants (fun n => (Nat.sqrt n : Int)) plusTemplate).2.get 0 0
      = 1 ∧
    IsRingRadius 3 plusTemplate 0 (-1) (-1) 2 ∧
    ∃ d e : Nat,
      (calculatePenalties plusConstants (fun n => (Nat.sqrt n : Int)) plusTemplate).1.get 0 0
        = (d : Int) ∧
      (calculatePenalties plusConstants (fun n => (Nat.sqrt n : Int)) plusTemplate).2.get 0 0
        = ((Nat.sqrt e : Nat) : Int) ∧
      IsRingRadius 3 plusTemplate 0 (-1) (-1) d ∧
      IsRingRadius 3 plusTemplate 255 (-1) (-1) e := by
  have h := calculatePenalties_ring plusConstants (fun n => (Nat.sqrt n : Int))
    (fun n => Int.natCast_nonneg _) plusTemplate
  obtain ⟨d, e, h1, h2, -, -, h5, h6⟩ := h.2.2.2.2 0 0
  exact ⟨h.1, by decide, by decide, by decide, d, e, h1, h2, h5, h6⟩

end CharacterRecognizerImp

end imago

namespace gga

namespace Histogram

/-! ### `average`, `range` and `add` -/

section Statistics

variable {α : Type} [LinearOrderedField α]

theorem foldl_add_eq_sum {β γ : Type} [AddCommMonoid β] (f : γ → β) (l : List γ) (b : β) :
    l.foldl (fun s it => s + f it) b = b + (l.map f).sum := by
  induction l generalizing b with
  | nil => simp
  | cons x l ih => simp [ih, add_assoc]

/-- The sum that `average()` builds grows by `value` with every `add`. -/
theorem weighted_insertIndex (i : Nat) (c : α) (D : List (α × List Nat)) :
    ((insertIndex i c D).map (fun it => it.1 * (it.2.length : α))).sum
      = (D.map (fun it => it.1 * (it.2.length : α))).sum + c := by
  induction D with
  | nil => simp [insertIndex]
  | cons e D ih =>
    rcases e with ⟨v, is⟩
    unfold insertIndex
    split_ifs with h1 h2
    · simp only [List.map_cons, List.sum_cons, List.length_singleton, Nat.cast_one, mul_one]
      ring
    · subst h2
      simp only [List.map_cons, List.sum_cons, List.length_append, List.length_singleton,
        Nat.cast_add, Nat.cast_one]
      ring
    · simp only [List.map_cons, List.sum_cons, ih]
      ring

/-- The count that `average()` builds grows by one with every `add`. -/
theorem count_insertIndex (i : Nat) (c : α) (D : List (α × List Nat)) :
    ((insertIndex i c D).map (fun it => it.2.length)).sum
      = (D.map (fun it => it.2.length)).sum + 1 := by
  induction D with
  | nil => simp [insertIndex]
  | cons e D ih =>
    rcases e with ⟨v, is⟩
    unfold insertIndex
    split_ifs with h1 h2
    · simp only [List.map_cons, List.sum_cons, List.length_singleton]
      omega
    · simp only [List.map_cons, List.sum_cons, List.length_append, List.length_singleton]
      omega
    · simp only [List.map_cons, List.sum_cons, ih]
      omega

theorem build_sums (pairs : List (Nat × α)) (h : Histogram α) :
    (((pairs.foldl (fun h p => h.add p.1 p.2) h).Data.map
        (fun it => it.1 * (it.2.length : α))).sum
      = (h.Data.map (fun it => it.1 * (it.2.length : α))).sum + (pairs.map Prod.snd).sum) ∧
    (((pairs.foldl (fun h p => h.add p.1 p.2) h).Data.map (fun it => it.2.length)).sum
      = (h.Data.map (fun it => it.2.length)).sum + pairs.length) := by
  induction pairs generalizing h with
  | nil => simp
  | cons p pairs ih =>
    obtain ⟨h1, h2⟩ := ih (h.add p.1 p.2)
    simp only [List.foldl_cons, List.map_cons, List.sum_cons, List.length_cons]
    rw [h1, h2]
    simp only [add, weighted_insertIndex, count_insertIndex]
    constructor
    · ring
    · omega

/-- C24, the claim fails on the code: on the empty histogram `average()`
reaches the division `sum / (value_t)count` with `count = 0`, and `range()`
reaches the read `Data.begin()->first` of an empty map; neither has a test for
the empty histogram before it. -/
theorem average_range_empty :
    (⟨[]⟩ : Histogram ℚ).empty = true ∧
    List.foldl (fun (count : Nat) (it : ℚ × List Nat) => count + it.2.length) 0
      (⟨[]⟩ : Histogram ℚ).Data = 0 ∧
    average (⟨[]⟩ : Histogram ℚ) = none ∧
    range (⟨[]⟩ : Histogram ℚ) = none :=
  ⟨rfl, rfl, rfl, rfl⟩

/-- C25. For a non-empty list of pairs `(i_1, v_1)`, ..., `(i_n, v_n)` added
one after the other to a new histogram, `average()` returns
`(v_1 + ... + v_n) / n`; the sum it divides is the sum over the groups of the
value times the group size, and the divisor is the number of indices. -/
theorem average_build (pairs : List (Nat × α)) (hne : pairs ≠ []) :
    average (build pairs) = some ((pairs.map Prod.snd).sum / (pairs.length : α)) ∧
    (((build pairs).Data.map (fun it => it.1 * (it.2.length : α))).sum
      = (pairs.map Prod.snd).sum) ∧
    (build pairs).indices.length = pairs.length := by
  obtain ⟨h1, h2⟩ := build_sums pairs (⟨[]⟩ : Histogram α)
  simp only [List.map_nil, List.sum_nil, zero_add] at h1 h2
  have hlen : pairs.length ≠ 0 := fun h => hne (List.length_eq_zero.1 h)
  refine ⟨?_, h1, ?_⟩
  · unfold average build
    simp only [foldl_add_eq_sum, zero_add]
    rw [h2, if_neg hlen, h1]
  · unfold indices build
    rw [List.length_flatten, List.map_map]
    exact h2

/-- C25, at a concrete input: the values 1, 1, 4 have the mean 2, while the
mean of the distinct values 1 and 4 is 5 / 2. -/
theorem average_build_witness :
    average (build [(0, (1 : ℚ)), (1, 1), (2, 4)]) = some 2 ∧
    (build [(0, (1 : ℚ)), (1, 1), (2, 4)]).values = [1, 4] := by
  refine ⟨?_, ?_⟩
  · rw [(average_build [(0, (1 : ℚ)), (1, 1), (2, 4)] (by simp)).1]
    norm_num
  · norm_num [build, add, insertIndex, values]

end Statistics

end Histogram

end gga

namespace gga

namespace Histogram

section AddFrame

variable {α : Type} [LinearOrderedField α]

theorem find?_insertIndex_other (i : Nat) (c w : α) (hw : w ≠ c) (D : List (α × List Nat)) :
    (insertIndex i c D).find? (fun e => decide (e.1 = w))
      = D.find? (fun e => decide (e.1 = w)) := by
  induction D with
  | nil => simp [insertIndex, Ne.symm hw]
  | cons e D ih =>
    rcases e with ⟨v, is⟩
    unfold insertIndex
    split_ifs with h1 h2
    · simp [List.find?_cons, Ne.symm hw]
    · have hvw : ¬ v = w := fun h => hw (h.symm.trans h2.symm)
      simp [List.find?_cons, hvw]
    · by_cases hv : v = w
      · simp [List.find?_cons, hv]
      · simp [List.find?_cons, hv, ih]

theorem find?_insertIndex_self (i : Nat) (c : α) (D : List (α × List Nat))
    (hs : D.Pairwise (fun a b => a.1 < b.1)) :
    ((insertIndex i c D).find? (fun e => decide (e.1 = c))).map Prod.snd
      = some (((D.find? (fun e => decide (e.1 = c))).map Prod.snd).getD [] ++ [i]) := by
  induction D with
  | nil => simp [insertIndex]
  | cons e D ih =>
    rcases e with ⟨v, is⟩
    have hD := List.pairwise_cons.1 hs
    unfold insertIndex
    split_ifs with h1 h2
    · have hnone : ((v, is) :: D).find? (fun e => decide (e.1 = c)) = none := by
        rw [List.find?_eq_none]
        intro e he
        simp only [decide_eq_true_eq]
        rcases List.mem_cons.1 he with rfl | he
        · exact ne_of_gt h1
        · exact ne_of_gt (lt_trans h1 (hD.1 e he))
      simp [List.find?_cons, hnone]
    · subst h2
      simp [List.find?_cons]
    · have hv : ¬ v = c := fun h => h2 h.symm
      simp only [List.find?_cons, hv, decide_False]
      exact ih hD.2

theorem filter_insertIndex (i : Nat) (c : α) (D : List (α × List Nat)) :
    (insertIndex i c D).filter (fun e => decide (e.1 ≠ c))
      = D.filter (fun e => decide (e.1 ≠ c)) := by
  induction D with
  | nil => simp [insertIndex]
  | cons e D ih =>
    rcases e with ⟨v, is⟩
    unfold insertIndex
    split_ifs with h1 h2
    · simp [List.filter_cons]
    · subst h2
      simp [List.filter_cons]
    · simp only [List.filter_cons, ih]

theorem length_insertIndex (i : Nat) (c : α) (D : List (α × List Nat))
    (hs : D.Pairwise (fun a b => a.1 < b.1)) :
    (insertIndex i c D).length
      = if c ∈ D.map Prod.fst then D.length else D.length + 1 := by
  induction D with
  | nil => simp [insertIndex]
  | cons e D ih =>
    rcases e with ⟨v, is⟩
    have hD := List.pairwise_cons.1 hs
    unfold insertIndex
    by_cases h1 : c < v
    · have hnot : c ∉ ((v, is) :: D).map Prod.fst := by
        intro hc
        obtain ⟨e, he, hec⟩ := List.mem_map.1 hc
        rcases List.mem_cons.1 he with rfl | he
        · exact absurd hec (ne_of_gt h1)
        · exact absurd hec (ne_of_gt (lt_trans h1 (hD.1 e he)))
      rw [if_pos h1, if_neg hnot]
      simp
    · by_cases h2 : c = v
      · have hin : c ∈ ((v, is) :: D).map Prod.fst := by
          rw [h2]
          exact List.mem_map_of_mem Prod.fst (List.mem_cons_self _ _)
        rw [if_neg h1, if_pos h2, if_pos hin]
        simp
      · have hiff : c ∈ ((v, is) :: D).map Prod.fst ↔ c ∈ D.map Prod.fst := by
          simp only [List.map_cons, List.mem_cons]
          exact ⟨fun h => h.resolve_left h2, Or.inr⟩
        rw [if_neg h1, if_neg h2]
        simp only [List.length_cons, ih hD.2]
        by_cases hc : c ∈ D.map Prod.fst
        · rw [if_pos hc, if_pos (hiff.2 hc)]
        · rw [if_neg hc, if_neg (fun h => hc (hiff.1 h))]

theorem insertIndex_sorted (i : Nat) (c : α) (D : List (α × List Nat))
    (hs : D.Pairwise (fun a b => a.1 < b.1)) :
    (insertIndex i c D).Pairwise (fun a b => a.1 < b.1) := by
  induction D with
  | nil => simp [insertIndex]
  | cons e D ih =>
    rcases e with ⟨v, is⟩
    have hD := List.pairwise_cons.1 hs
    unfold insertIndex
    split_ifs with h1 h2
    · refine List.pairwise_cons.2 ⟨fun e he => ?_, hs⟩
      rcases List.mem_cons.1 he with rfl | he
      · exact h1
      · exact lt_trans h1 (hD.1 e he)
    · exact List.pairwise_cons.2 ⟨hD.1, hD.2⟩
    · refine List.pairwise_cons.2 ⟨fun e he => ?_, ih hD.2⟩
      have hvc : v < c := lt_of_le_of_ne (not_lt.1 h1) (fun h => h2 h.symm)
      have hk := insertIndex_values i c D e.1 (List.mem_map_of_mem Prod.fst he)
      rcases hk with hk | hk
      · rw [hk]; exact hvc
      · obtain ⟨e', he', hee⟩ := List.mem_map.1 hk
        rw [← hee]
        exact hD.1 e' he'

theorem insertIndex_nonempty (i : Nat) (c : α) (D : List (α × List Nat))
    (hne : ∀ g ∈ D, g.2 ≠ []) : ∀ g ∈ insertIndex i c D, g.2 ≠ [] := by
  induction D with
  | nil => simp [insertIndex]
  | cons e D ih =>
    rcases e with ⟨v, is⟩
    unfold insertIndex
    split_ifs with h1 h2
    · intro g hg
      rcases List.mem_cons.1 hg with rfl | hg
      · simp
      · exact hne g hg
    · intro g hg
      rcases List.mem_cons.1 hg with rfl | hg
      · simp
      · exact hne g (List.mem_cons_of_mem _ hg)
    · intro g hg
      rcases List.mem_cons.1 hg with rfl | hg
      · exact hne _ (List.mem_cons_self _ _)
      · exact ih (fun g hg => hne g (List.mem_cons_of_mem _ hg)) g hg

/-- C26. On a histogram that meets the invariant of its map (ascending
values), `add(index, value)` appends `index` at the end of the indices held
under `value`, which are none when `value` has no group; the indices under
every other value are the same; the other groups are the same, in the same
order; the number of indices grows by one; `groups()` grows by one when
`value` had no group and stays otherwise; and the invariant holds again. -/
theorem add_frame (h : Histogram α) (hwf : h.WF) (index : Nat) (value : α) :
    (h.add index value).indicesOf value = h.indicesOf value ++ [index] ∧
    (∀ w, w ≠ value → (h.add index value).indicesOf w = h.indicesOf w) ∧
    (h.add index value).Data.filter (fun e => decide (e.1 ≠ value))
      = h.Data.filter (fun e => decide (e.1 ≠ value)) ∧
    (h.add index value).indices.length = h.indices.length + 1 ∧
    (h.add index value).groups = (if value ∈ h.values then h.groups else h.groups + 1) ∧
    (h.add index value).WF := by
  refine ⟨?_, fun w hw => ?_, filter_insertIndex index value h.Data, ?_,
    length_insertIndex index value h.Data hwf.1,
    insertIndex_sorted index value h.Data hwf.1, insertIndex_nonempty index value h.Data hwf.2⟩
  · unfold indicesOf add
    rw [find?_insertIndex_self index value h.Data hwf.1]
    rfl
  · unfold indicesOf add
    rw [find?_insertIndex_other index value w hw]
  · unfold indices add
    rw [List.length_flatten, List.length_flatten, List.map_map, List.map_map]
    exact count_insertIndex index value h.Data

/-- C26, at a concrete input: `add(7, 2)` and `add(8, 3)` on the histogram with
the groups `1 -> [0]` and `2 -> [1, 5]`. -/
theorem add_frame_witness :
    (⟨[(1, [0]), (2, [1, 5])]⟩ : Histogram ℚ).WF ∧
    (⟨[(1, [0]), (2, [1, 5])]⟩ : Histogram ℚ).add 7 2 = ⟨[(1, [0]), (2, [1, 5, 7])]⟩ ∧
    (⟨[(1, [0]), (2, [1, 5])]⟩ : Histogram ℚ).add 8 3 = ⟨[(1, [0]), (2, [1, 5]), (3, [8])]⟩ ∧
    ((⟨[(1, [0]), (2, [1, 5])]⟩ : Histogram ℚ).add 7 2).indicesOf 2
      = (⟨[(1, [0]), (2, [1, 5])]⟩ : Histogram ℚ).indicesOf 2 ++ [7] := by
  have hwf : (⟨[(1, [0]), (2, [1, 5])]⟩ : Histogram ℚ).WF := by
    constructor
    · norm_num
    · simp
  exact ⟨hwf, by norm_num [add, insertIndex], by norm_num [add, insertIndex],
    (add_frame _ hwf 7 2).1⟩

end AddFrame

end Histogram

end gga

namespace gga

namespace Histogram

section Rounds

variable {α : Type} [LinearOrder α] [ValueType α]

/-! ### The rounds of `regroup`: number of groups, merged groups, distances -/

/-- The place at which `add` puts an index: after the entries with a smaller
value, in the entry of the value, which is created when the next entry has
another value. -/
theorem insertIndex_split (i : Nat) (c : α) (D : List (α × List Nat)) :
    ∃ A is B, (∀ e ∈ A, e.1 < c) ∧ insertIndex i c D = A ++ (c, is ++ [i]) :: B ∧
      (D = A ++ B ∨ D = A ++ (c, is) :: B) := by
  induction D with
  | nil => exact ⟨[], [], [], by simp, by simp [insertIndex], Or.inl rfl⟩
  | cons e D ih =>
    rcases e with ⟨v, vs⟩
    unfold insertIndex
    split_ifs with h1 h2
    · exact ⟨[], [], (v, vs) :: D, by simp, by simp, Or.inl rfl⟩
    · subst h2
      exact ⟨[], vs, D, by simp, by simp, Or.inr rfl⟩
    · obtain ⟨A, is, B, hA, heq, hD⟩ := ih
      have hvc : v < c := lt_of_le_of_ne (not_lt.1 h1) (fun h => h2 h.symm)
      refine ⟨(v, vs) :: A, is, B, ?_, by simp [heq], ?_⟩
      · intro e he
        rcases List.mem_cons.1 he with rfl | he
        · exact hvc
        · exact hA e he
      · rcases hD with hD | hD
        · left; simp [hD]
        · right; simp [hD]

theorem addAll_split (c : α) (D : List (α × List Nat)) (l : List Nat) (hl : l ≠ []) :
    ∃ A is B, (∀ e ∈ A, e.1 < c) ∧ (addAll ⟨D⟩ c l).Data = A ++ (c, is ++ l) :: B ∧
      (D = A ++ B ∨ D = A ++ (c, is) :: B) := by
  cases l with
  | nil => exact absurd rfl hl
  | cons i l =>
    obtain ⟨A, is, B, hA, heq, hD⟩ := insertIndex_split i c D
    refine ⟨A, is, B, hA, ?_, hD⟩
    have h1 : addAll ⟨D⟩ c (i :: l) = addAll ⟨A ++ (c, is ++ [i]) :: B⟩ c l := by
      simp [addAll, add, heq]
    rw [h1, addAll_at c A B (is ++ [i]) l hA]
    simp

theorem addAll_groups_le (r : Histogram α) (c : α) (l : List Nat) :
    (r.addAll c l).groups ≤ r.groups + 1 := by
  by_cases hl : l = []
  · subst hl
    simp [addAll]
  · obtain ⟨A, is, B, -, heq, hD⟩ := addAll_split c r.Data l hl
    unfold groups
    rw [heq]
    rcases hD with hD | hD
    · rw [hD]
      simp
      omega
    · rw [hD]
      simp

/-- After `addAll` every old group is part of a group, and the added indices
are in one group. -/
theorem addAll_keeps (r : Histogram α) (c : α) (l : List Nat) :
    (∀ g0 ∈ r.Data, ∃ g ∈ (r.addAll c l).Data, ∀ i ∈ g0.2, i ∈ g.2) ∧
    (l ≠ [] → ∃ g ∈ (r.addAll c l).Data, ∀ i ∈ l, i ∈ g.2) := by
  by_cases hl : l = []
  · subst hl
    exact ⟨fun g0 hg0 => ⟨g0, by simpa [addAll] using hg0, fun i hi => hi⟩,
      fun h => absurd rfl h⟩
  · obtain ⟨A, is, B, -, heq, hD⟩ := addAll_split c r.Data l hl
    have hnew : (c, is ++ l) ∈ (r.addAll c l).Data := by
      rw [heq]
      simp
    refine ⟨fun g0 hg0 => ?_, fun _ => ⟨(c, is ++ l), hnew, fun i hi => by simp [hi]⟩⟩
    have hcases : g0 ∈ A ∨ g0 ∈ B ∨ g0 = (c, is) := by
      rcases hD with hD | hD
      · rw [hD] at hg0
        rcases List.mem_append.1 hg0 with h | h
        · exact Or.inl h
        · exact Or.inr (Or.inl h)
      · rw [hD] at hg0
        rcases List.mem_append.1 hg0 with h | h
        · exact Or.inl h
        · rcases List.mem_cons.1 h with h | h
          · exact Or.inr (Or.inr h)
          · exact Or.inr (Or.inl h)
    rcases hcases with h | h | h
    · exact ⟨g0, by rw [heq]; simp [h], fun i hi => hi⟩
    · exact ⟨g0, by rw [heq]; simp [h], fun i hi => hi⟩
    · exact ⟨(c, is ++ l), hnew, fun i hi => by rw [h] at hi; simp [hi]⟩

theorem regroupRec_groups_le (Delta : α) (fuel : Nat)
    (rem : List (α × List Nat)) (r x : Histogram α)
    (hself : ∀ e ∈ rem, near Delta e.1 e = true)
    (hx : regroupRec Delta fuel rem r = some x) : x.groups ≤ r.groups + rem.length := by
  induction fuel generalizing rem r with
  | zero => simp [regroupRec] at hx
  | succ fuel ih =>
    cases rem with
    | nil =>
      simp only [regroupRec, Option.some.injEq] at hx
      subst hx
      simp
    | cons first rest =>
      rw [regroupRec_cons] at hx
      generalize hb : (pickCenter (neighbourhood (first :: rest) Delta) (first :: rest)
        (0, first)) = best at hx
      have hmem : best.2 ∈ first :: rest := hb ▸ pickCenter_mem_cons _ first rest
      have hlt : ((first :: rest).filter (fun e => !near Delta best.2.1 e)).length
          < (first :: rest).length :=
        List.length_filter_lt_length_iff_exists.2
          ⟨best.2, hmem, by simp [hself best.2 hmem]⟩
      have h1 := ih _ _ (fun e he => hself e (List.mem_filter.1 he).1) hx
      have h2 := addAll_groups_le r best.2.1 (mergedIndices (first :: rest) Delta best.2.1)
      omega

theorem regroupRec_keeps (Delta : α) (fuel : Nat) (rem : List (α × List Nat))
    (r x : Histogram α) (hx : regroupRec Delta fuel rem r = some x) :
    (∀ g0 ∈ r.Data, ∃ g ∈ x.Data, ∀ i ∈ g0.2, i ∈ g.2) ∧
    (∀ e ∈ rem, e.2 ≠ [] → ∃ g ∈ x.Data, ∀ i ∈ e.2, i ∈ g.2) := by
  induction fuel generalizing rem r with
  | zero => simp [regroupRec] at hx
  | succ fuel ih =>
    cases rem with
    | nil =>
      simp only [regroupRec, Option.some.injEq] at hx
      subst hx
      exact ⟨fun g0 hg0 => ⟨g0, hg0, fun i hi => hi⟩, by simp⟩
    | cons first rest =>
      rw [regroupRec_cons] at hx
      generalize hb : (pickCenter (neighbourhood (first :: rest) Delta) (first :: rest)
        (0, first)) = best at hx
      obtain ⟨ih1, ih2⟩ := ih _ _ hx
      obtain ⟨k1, k2⟩ := addAll_keeps r best.2.1
        (mergedIndices (first :: rest) Delta best.2.1)
      refine ⟨fun g0 hg0 => ?_, fun e he hne => ?_⟩
      · obtain ⟨g1, hg1, hsub1⟩ := k1 g0 hg0
        obtain ⟨g, hg, hsub⟩ := ih1 g1 hg1
        exact ⟨g, hg, fun i hi => hsub i (hsub1 i hi)⟩
      · by_cases hnear : near Delta best.2.1 e = true
        · have hsubm : ∀ i ∈ e.2, i ∈ mergedIndices (first :: rest) Delta best.2.1 :=
            fun i hi => (mem_mergedIndices _ _ _ i).2 ⟨e, he, hnear, hi⟩
          have hmne : mergedIndices (first :: rest) Delta best.2.1 ≠ [] := by
            obtain ⟨i, hi⟩ := List.exists_mem_of_ne_nil e.2 hne
            exact List.ne_nil_of_mem (hsubm i hi)
          obtain ⟨g1, hg1, hsub1⟩ := k2 hmne
          obtain ⟨g, hg, hsub⟩ := ih1 g1 hg1
          exact ⟨g, hg, fun i hi => hsub i (hsub1 i (hsubm i hi))⟩
        · exact ih2 e (List.mem_filter.2 ⟨he, by simpa using hnear⟩) hne

/-- Every value of the result was the centre of a round, and an entry that is
still unprocessed when a later round picks its centre failed the test against
every earlier centre: of two different values of the result, the later centre
is not within `Delta` of the earlier one. -/
theorem regroupRec_separated (Delta : α) (fuel : Nat) (rem : List (α × List Nat))
    (r x : Histogram α) (hx : regroupRec Delta fuel rem r = some x)
    (hfar : ∀ v ∈ r.values, ∀ e ∈ rem, ValueType.within Delta v e.1 = false)
    (hsep : ∀ v ∈ r.values, ∀ w ∈ r.values, v ≠ w →
      ValueType.within Delta v w = false ∨ ValueType.within Delta w v = false) :
    ∀ v ∈ x.values, ∀ w ∈ x.values, v ≠ w →
      ValueType.within Delta v w = false ∨ ValueType.within Delta w v = false := by
  induction fuel generalizing rem r with
  | zero => simp [regroupRec] at hx
  | succ fuel ih =>
    cases rem with
    | nil =>
      simp only [regroupRec, Option.some.injEq] at hx
      subst hx
      exact hsep
    | cons first rest =>
      rw [regroupRec_cons] at hx
      generalize hb : (pickCenter (neighbourhood (first :: rest) Delta) (first :: rest)
        (0, first)) = best at hx
      have hmem : best.2 ∈ first :: rest := hb ▸ pickCenter_mem_cons _ first rest
      have hvals := addAll_values r best.2.1 (mergedIndices (first :: rest) Delta best.2.1)
      apply ih _ _ hx
      · intro v hv e he
        have he' := List.mem_filter.1 he
        rcases hvals v hv with h | h
        · rw [h]
          simpa [near] using he'.2
        · exact hfar v h e he'.1
      · intro v hv w hw hvw
        rcases hvals v hv with h1 | h1 <;> rcases hvals w hw with h2 | h2
        · exact absurd (h1.trans h2.symm) hvw
        · rw [h1]
          exact Or.inr (hfar w h2 best.2 hmem)
        · rw [h2]
          exact Or.inl (hfar v h1 best.2 hmem)
        · exact hsep v h1 w h2 hvw

/-- When every value of the histogram passes the test `fabs(v - v) < Delta`
against itself (with exact arithmetic, and for finite values of a `double`,
that is `Delta > 0`), `regroup(Delta)` returns within `groups()` rounds and the
pass that finds every group processed; the result has no more groups than the
input; and the indices of every input group are together in one group of the
result. -/
theorem regroup_rounds_of_self_near (h : Histogram α) (Delta : α)
    (hself : ∀ e ∈ h.Data, ValueType.within Delta e.1 e.1 = true) :
    ∃ r, h.regroup Delta (h.groups + 1) = some r ∧ r.groups ≤ h.groups ∧
      ∀ e ∈ h.Data, e.2 ≠ [] → ∃ g ∈ r.Data, ∀ i ∈ e.2, i ∈ g.2 := by
  obtain ⟨r, hr, -⟩ := regroupRec_returns Delta (h.groups + 1) h.Data ⟨[]⟩ hself
    (Nat.lt_succ_self _)
  refine ⟨r, by rw [regroup_eq]; exact hr, ?_, (regroupRec_keeps Delta _ _ _ r hr).2⟩
  have := regroupRec_groups_le Delta _ _ _ r hself hr
  simpa [groups] using this

/-- The bound on the rounds at a concrete input with exact arithmetic: values
5, 1, 5, 2 added under the indices 0..3 and regrouped with `Delta = 2`: three
groups, the result after three passes has two. -/
theorem regroup_rounds_of_self_near_example :
    (((((⟨[]⟩ : Histogram Int).add 0 5).add 1 1).add 2 5).add 3 2).groups = 3 ∧
    (((((⟨[]⟩ : Histogram Int).add 0 5).add 1 1).add 2 5).add 3 2).regroup 2 3
      = some ⟨[(1, [1, 3]), (5, [0, 2])]⟩ ∧
    ∃ r, (((((⟨[]⟩ : Histogram Int).add 0 5).add 1 1).add 2 5).add 3 2).regroup 2
        ((((((⟨[]⟩ : Histogram Int).add 0 5).add 1 1).add 2 5).add 3 2).groups + 1) = some r ∧
      r.groups ≤ (((((⟨[]⟩ : Histogram Int).add 0 5).add 1 1).add 2 5).add 3 2).groups :=
  ⟨by decide, by decide,
    (regroup_rounds_of_self_near (((((⟨[]⟩ : Histogram Int).add 0 5).add 1 1).add 2 5).add 3 2) 2
      (by decide)).imp (fun _ hr => ⟨hr.1, hr.2.1⟩)⟩

/-- C29. On `value_t = double`, `regroup(1)` on the histogram with the groups
`1 ↦ [0]` and `+infinity ↦ [1]` (two groups) is not over after `groups()`
rounds, nor after any number of passes. The first round takes the centre `1`
and marks it; every later round takes the centre `+infinity`, and the test of
line 80, `fabs(inf - inf) < 1` with `inf - inf` NaN, fails for the centre
itself: the round marks no group, its centre neither. -/
theorem regroup_round_marks_nothing :
    (⟨[(Double.fin 1, [0]), (Double.posInf, [1])]⟩ : Histogram Double).groups = 2 ∧
    markRound [(Double.fin 1, [0]), (Double.posInf, [1])] [false, false] (Double.fin 1)
      (selectCenter [(Double.fin 1, [0]), (Double.posInf, [1])] [false, false] (Double.fin 1)
        (Double.fin 1, [0])).1 = [true, false] ∧
    selectCenter [(Double.fin 1, [0]), (Double.posInf, [1])] [true, false] (Double.fin 1)
      (Double.posInf, [1]) = (Double.posInf, [1]) ∧
    markRound [(Double.fin 1, [0]), (Double.posInf, [1])] [true, false] (Double.fin 1)
      Double.posInf = [true, false] ∧
    ¬ ∃ fuel r, (⟨[(Double.fin 1, [0]), (Double.posInf, [1])]⟩ : Histogram Double).regroup
      (Double.fin 1) fuel = some r := by
  refine ⟨by decide, by decide!, by decide!, by decide!, ?_⟩
  rintro ⟨fuel, r, h⟩
  cases fuel with
  | zero => simp [regroup, empty, regroupLoop] at h
  | succ fuel =>
    rw [regroup_eq] at h
    dsimp only at h
    rw [regroupRec_round (Double.fin 1) fuel _ _ _ [(Double.posInf, [1])]
      ⟨[(Double.fin 1, [0])]⟩ (by decide!) (by decide!),
      regroupRec_stuck (Double.fin 1) _ _ _ (by simp) (by decide)] at h
    exact Option.noConfusion h

/-- C30, with "differ by at least `Delta`" read as the code computes it. When
every value of the histogram passes the test `fabs(v - v) < Delta` against
itself (with exact arithmetic, and for finite values of a `double`, that is
`Delta > 0`), `regroup(Delta)` returns, every group value of the result is a
group value of the input, and of two different group values of the result one
fails the test `fabs(w - v) < Delta` against the other, as `value_t` computes
it (the one that became a centre later, against the earlier centre). -/
theorem regroup_values_separated (h : Histogram α) (Delta : α) (fuel : Nat)
    (hself : ∀ e ∈ h.Data, ValueType.within Delta e.1 e.1 = true) (hfuel : h.groups < fuel) :
    ∃ r, h.regroup Delta fuel = some r ∧
      (∀ v ∈ r.values, v ∈ h.values) ∧
      (∀ v ∈ r.values, ∀ w ∈ r.values, v ≠ w →
        ValueType.within Delta v w = false ∨ ValueType.within Delta w v = false) := by
  obtain ⟨f, rfl⟩ : ∃ f, fuel = f + 1 := ⟨fuel - 1, by omega⟩
  obtain ⟨r, hr, -⟩ := regroupRec_returns Delta (f + 1) h.Data ⟨[]⟩ hself hfuel
  refine ⟨r, by rw [regroup_eq]; exact hr, fun v hv => ?_, ?_⟩
  · rcases regroupRec_values Delta _ _ _ r hr v hv with h1 | h1
    · simp [values] at h1
    · exact h1
  · exact regroupRec_separated Delta _ _ _ r hr (by simp [values]) (by simp [values])

/-- C30, at a concrete input with exact arithmetic: the values 1, 2, 5
regrouped with `Delta = 2` leave the values 1 and 5. -/
theorem regroup_values_separated_witness :
    (∀ e ∈ (((((⟨[]⟩ : Histogram Int).add 0 5).add 1 1).add 2 5).add 3 2).Data,
      ValueType.within (2 : Int) e.1 e.1 = true) ∧
    ∃ r, (((((⟨[]⟩ : Histogram Int).add 0 5).add 1 1).add 2 5).add 3 2).regroup 2 4 = some r ∧
      r.values = [1, 5] ∧
      (∀ v ∈ r.values, v ∈ (((((⟨[]⟩ : Histogram Int).add 0 5).add 1 1).add 2 5).add 3 2).values) ∧
      (∀ v ∈ r.values, ∀ w ∈ r.values, v ≠ w →
        ValueType.within (2 : Int) v w = false ∨ ValueType.within (2 : Int) w v = false) := by
  obtain ⟨r, hr, h1, h2⟩ := regroup_values_separated
    (((((⟨[]⟩ : Histogram Int).add 0 5).add 1 1).add 2 5).add 3 2) 2 4 (by decide) (by decide)
  have hval : (((((⟨[]⟩ : Histogram Int).add 0 5).add 1 1).add 2 5).add 3 2).regroup 2 4
      = some ⟨[(1, [1, 3]), (5, [0, 2])]⟩ := by decide
  refine ⟨by decide, r, hr, ?_, h1, h2⟩
  rw [hval] at hr
  rw [← Option.some.inj hr]
  rfl

/-- With exact arithmetic two different group values of the result of
`regroup(Delta)` differ by at least `Delta`. -/
theorem regroup_values_separated_exact {β : Type} [LinearOrderedCommRing β]
    (h : Histogram β) (Delta : β) (fuel : Nat) (hΔ : 0 < Delta) (hfuel : h.groups < fuel) :
    ∃ r, h.regroup Delta fuel = some r ∧
      (∀ v ∈ r.values, v ∈ h.values) ∧
      (∀ v ∈ r.values, ∀ w ∈ r.values, v ≠ w → Delta ≤ |v - w|) := by
  obtain ⟨f, rfl⟩ : ∃ f, fuel = f + 1 := ⟨fuel - 1, by omega⟩
  obtain ⟨r, hr, -⟩ := regroupRec_returns Delta (f + 1) h.Data ⟨[]⟩
    (fun e _ => near_self_exact Delta hΔ e.1) hfuel
  refine ⟨r, by rw [regroup_eq]; exact hr, fun v hv => ?_, fun v hv w hw hvw => ?_⟩
  · rcases regroupRec_values Delta _ _ _ r hr v hv with h1 | h1
    · simp [values] at h1
    · exact h1
  · rcases regroupRec_separated Delta _ _ _ r hr (by simp [values]) (by simp [values])
      v hv w hw hvw with h1 | h1
    · have : ¬ |w - v| < Delta := by simpa [ValueType.within] using h1
      rw [abs_sub_comm]
      exact not_lt.1 this
    · have : ¬ |v - w| < Delta := by simpa [ValueType.within] using h1
      exact not_lt.1 this

/-- C30 as stated, refuted on `value_t = double`: the values `-1` and
`2 ^ 53 + 6` and `Delta = 2 ^ 53 + 8` are doubles; `regroup` returns both
values as group values, and they differ by `2 ^ 53 + 7`, which is less than
`Delta` (the difference as the code computes it is rounded to `2 ^ 53 + 8`). -/
theorem regroup_values_closer_than_delta :
    roundToDouble (2 ^ 53 + 6) = 2 ^ 53 + 6 ∧ roundToDouble (2 ^ 53 + 8) = 2 ^ 53 + 8 ∧
    (∃ r, (⟨[(Double.fin (-1), [0]), (Double.fin (2 ^ 53 + 6), [1])]⟩ :
        Histogram Double).regroup (Double.fin (2 ^ 53 + 8)) 3 = some r ∧
      r.values = [Double.fin (-1), Double.fin (2 ^ 53 + 6)]) ∧
    |((2 : Int) ^ 53 + 6) - (-1)| < 2 ^ 53 + 8 :=
  ⟨by decide!, by decide!,
    ⟨⟨[(Double.fin (-1), [0]), (Double.fin (2 ^ 53 + 6), [1])]⟩, by decide!, rfl⟩, by decide⟩

end Rounds

end Histogram

end gga

namespace imago

namespace LabelCombiner

/-! ### The scan for the first line and the second line -/

/-- On a label with at least one symbol `_fillLabelInfo` returns; `line_y` is
the `first_line_y` of the scan, and `multi_begin` is `new_line_sep` when that
is positive and is not written otherwise. -/
theorem fill_lines (lib : StdLib) (lc : LabelCombiner) (l : Label) (hne : l.symbols ≠ []) :
    ∃ l', _fillLabelInfo lib lc l = some l' ∧
      l'.line_y = (scanLines lib lc (lib.sort _segmentsComparator l.symbols) 0 (-1) (-1)).1 ∧
      l'.multi_begin
        = if 0 < newLineSep lib lc l then newLineSep lib lc l else l.multi_begin := by
  have hS0 : lib.sort _segmentsComparator l.symbols ≠ [] := sort_ne_nil lib _ _ hne
  obtain ⟨a, z, h1, h2⟩ := exists_head?_getLast? _ hS0
  by_cases hsep : 0 < newLineSep lib lc l
  · have hrange : newLineSep lib lc l < l.symbols.length := by
      rcases newLineSep_range lib lc l with h | h
      · omega
      · exact h.2
    have hlen0 : (lib.sort _segmentsComparator l.symbols).length = l.symbols.length :=
      (lib.sort_perm _ _).length_eq
    have htake : (lib.sort _segmentsComparator l.symbols).take (newLineSep lib lc l).toNat
        ≠ [] := by
      intro h
      have := congrArg List.length h
      rw [List.length_take] at this
      simp only [List.length_nil] at this
      omega
    have hdrop : (lib.sort _segmentsComparator l.symbols).drop (newLineSep lib lc l).toNat
        ≠ [] := by
      intro h
      have := congrArg List.length h
      rw [List.length_drop] at this
      simp only [List.length_nil] at this
      omega
    obtain ⟨f, zf, h3, h4⟩ := exists_head?_getLast? _ (sort_ne_nil lib _segmentsCompareX _ htake)
    obtain ⟨_, zg, -, h5⟩ := exists_head?_getLast? _ (sort_ne_nil lib _segmentsCompareX _ hdrop)
    exact ⟨_, fill_multi lib lc l hsep a z f zf zg h1 h2 h3 h4 h5, rfl, by rw [if_pos hsep]⟩
  · obtain ⟨a', z', h3, h4⟩ := exists_head?_getLast? _ (sort_ne_nil lib _segmentsCompareX _ hS0)
    exact ⟨_, fill_single lib lc l hsep a z a' z' h1 h2 h3 h4, rfl, by rw [if_neg hsep]⟩

/-- Before a capital-sized symbol is found, symbols that are not capital-sized
are passed over. -/
theorem scanLines_skip (lib : StdLib) (lc : LabelCombiner) (pre syms : List Segment)
    (hpre : ∀ s ∈ pre, ¬ (s.height : ℚ) > lc._cap_height_error * 0.5 * lc._cap_height)
    (i first_line_y : Int) :
    scanLines lib lc (pre ++ syms) i (-1) first_line_y
      = scanLines lib lc syms (i + pre.length) (-1) first_line_y := by
  induction pre generalizing i with
  | nil => simp
  | cons s pre ih =>
    have hs := hpre s (List.mem_cons_self _ _)
    rw [List.cons_append, scanLines, if_neg (fun h => hs h.2),
      if_neg (fun h => absurd h.1 (by decide)),
      ih (fun t ht => hpre t (List.mem_cons_of_mem _ ht))]
    congr 1
    simp only [List.length_cons, Nat.cast_add, Nat.cast_one]
    ring

/-- After the first capital-sized symbol, symbols whose midpoint is not more
than `_space` below `first_line_y` are passed over. -/
theorem scanLines_pass (lib : StdLib) (lc : LabelCombiner) (mid syms : List Segment)
    (i first_cap first_line_y : Int) (hfc : 0 ≤ first_cap)
    (hmid : ∀ s ∈ mid,
      ¬ lib.round ((s.y : ℚ) + 0.5 * s.height) - first_line_y > lc._space) :
    scanLines lib lc (mid ++ syms) i first_cap first_line_y
      = scanLines lib lc syms (i + mid.length) first_cap first_line_y := by
  induction mid generalizing i with
  | nil => simp
  | cons s mid ih =>
    have hs := hmid s (List.mem_cons_self _ _)
    rw [List.cons_append, scanLines, if_neg (fun h => absurd h.1 (by omega)),
      if_neg (fun h => hs h.2), ih (i + 1) (fun t ht => hmid t (List.mem_cons_of_mem _ ht))]
    congr 1
    simp only [List.length_cons, Nat.cast_add, Nat.cast_one]
    ring

/-- The test `mid - first_line_y > _space` with `_space = _cap_height >> 1`
says that the midpoint lies more than half the capital height below
`first_line_y`. -/
theorem space_test (lc : LabelCombiner) (hspace : lc._space = lc._cap_height >>> (1 : Nat))
    (d : Int) : d > lc._space ↔ lc._cap_height < 2 * d := by
  rw [hspace, Int.shiftRight_eq_div_pow]
  constructor <;> intro h <;> omega

/-- C27, as the code has it. Let the symbols of a non-empty label, sorted by
`_segmentsComparator`, be `S`, and let `_space = _cap_height >> 1`. Then
`_fillLabelInfo` returns a label `l'`. When no symbol of `S` is taller than
`_cap_height_error * 0.5 * _cap_height`, `line_y` is -1 and `multi_begin` is
not written. Otherwise, with `cap` the first such symbol, `line_y` is the
bottom edge of `cap`; `multi_begin` is the number of the first symbol `t` after
`cap` whose rounded midpoint lies more than half the capital height below
that bottom edge (`_cap_height < 2 * (round(y + 0.5 * height) - line_y)`), and
`multi_begin` is not written when there is no such symbol. -/
theorem fillLabelInfo_line_scan (lib : StdLib) (lc : LabelCombiner) (l : Label)
    (hne : l.symbols ≠ []) (hspace : lc._space = lc._cap_height >>> (1 : Nat)) :
    ∃ l', _fillLabelInfo lib lc l = some l' ∧
      ((∀ s ∈ lib.sort _segmentsComparator l.symbols,
          ¬ (s.height : ℚ) > lc._cap_height_error * 0.5 * lc._cap_height) →
        l'.line_y = -1 ∧ l'.multi_begin = l.multi_begin) ∧
      (∀ pre cap rest, lib.sort _segmentsComparator l.symbols = pre ++ cap :: rest →
        (∀ s ∈ pre, ¬ (s.height : ℚ) > lc._cap_height_error * 0.5 * lc._cap_height) →
        (cap.height : ℚ) > lc._cap_height_error * 0.5 * lc._cap_height →
        l'.line_y = cap.y + cap.height ∧
        ((∀ s ∈ rest, ¬ lc._cap_height
            < 2 * (lib.round ((s.y : ℚ) + 0.5 * s.height) - (cap.y + cap.height))) →
          l'.multi_begin = l.multi_begin) ∧
        (∀ mid t post, rest = mid ++ t :: post →
          (∀ s ∈ mid, ¬ lc._cap_height
            < 2 * (lib.round ((s.y : ℚ) + 0.5 * s.height) - (cap.y + cap.height))) →
          lc._cap_height
            < 2 * (lib.round ((t.y : ℚ) + 0.5 * t.height) - (cap.y + cap.height)) →
          l'.multi_begin = pre.length + 1 + mid.length)) := by
  obtain ⟨l', hl', hline, hmulti⟩ := fill_lines lib lc l hne
  unfold newLineSep at hmulti
  refine ⟨l', hl', fun hnone => ?_, fun pre cap rest hS hpre hcap => ?_⟩
  · have h := scanLines_skip lib lc (lib.sort _segmentsComparator l.symbols) [] hnone 0 (-1)
    rw [List.append_nil] at h
    rw [h] at hline hmulti
    simp only [scanLines] at hline hmulti
    exact ⟨hline, by rw [hmulti, if_neg (by decide)]⟩
  · have h1 : scanLines lib lc (pre ++ cap :: rest) 0 (-1) (-1)
        = scanLines lib lc rest ((pre.length : Int) + 1) (pre.length : Int)
            (cap.y + cap.height) := by
      rw [scanLines_skip lib lc pre (cap :: rest) hpre 0 (-1), scanLines,
        if_pos ⟨by decide, hcap⟩]
      simp only [zero_add]
    rw [hS, h1] at hline hmulti
    have hfc : (0 : Int) ≤ (pre.length : Int) := Int.natCast_nonneg _
    have hfst : ∀ syms i, (scanLines lib lc syms i (pre.length : Int)
        (cap.y + cap.height)).1 = cap.y + cap.height := by
      intro syms
      induction syms with
      | nil => intro i; rfl
      | cons s syms ih =>
        intro i
        unfold scanLines
        split_ifs with ha hb
        · exact absurd ha.1 (by omega)
        · rfl
        · exact ih _
    refine ⟨by rw [hline, hfst], fun hrest => ?_, fun mid t post hrest hmid ht => ?_⟩
    · have h2 := scanLines_pass lib lc rest [] ((pre.length : Int) + 1) (pre.length : Int)
        (cap.y + cap.height) hfc
        (fun s hs h => hrest s hs ((space_test lc hspace _).1 h))
      rw [List.append_nil] at h2
      rw [h2] at hmulti
      simp only [scanLines] at hmulti
      rw [hmulti, if_neg (by decide)]
    · have h2 := scanLines_pass lib lc mid (t :: post) ((pre.length : Int) + 1)
        (pre.length : Int) (cap.y + cap.height) hfc
        (fun s hs h => hmid s hs ((space_test lc hspace _).1 h))
      have h3 : scanLines lib lc (t :: post) ((pre.length : Int) + 1 + (mid.length : Int))
          (pre.length : Int) (cap.y + cap.height)
          = (cap.y + cap.height, (pre.length : Int) + 1 + (mid.length : Int)) := by
        rw [scanLines, if_neg (fun h => absurd h.1 (by omega)),
          if_pos ⟨by omega, (space_test lc hspace _).2 ht⟩]
      rw [hrest, h2, h3] at hmulti
      rw [hmulti, if_pos (by simp only; omega)]

/-- C27, at a concrete input: a 10 x 10 capital and a 6 x 8 digit whose
midpoint 18 lies 8 below the bottom edge 10 of the capital. -/
theorem fillLabelInfo_line_scan_witness :
    subscriptLabel.symbols ≠ [] ∧ capitalTen._space = capitalTen._cap_height >>> (1 : Nat) ∧
    ∃ l', _fillLabelInfo insertionLib capitalTen subscriptLabel = some l' ∧
      l'.line_y = 10 ∧ l'.multi_begin = 1 := by
  obtain ⟨l', hl', -, h⟩ := fillLabelInfo_line_scan insertionLib capitalTen subscriptLabel
    (by decide) (by decide)
  have hS : insertionLib.sort _segmentsComparator subscriptLabel.symbols
      = [] ++ (⟨0, 0, 10, 10⟩ : Segment) :: [⟨11, 14, 6, 8⟩] := by decide
  obtain ⟨h1, -, h3⟩ := h [] ⟨0, 0, 10, 10⟩ [⟨11, 14, 6, 8⟩] hS (by simp)
    (by norm_num [capitalTen])
  refine ⟨by decide, by decide, l', hl', h1, ?_⟩
  exact h3 [] ⟨11, 14, 6, 8⟩ [] rfl (by simp) (by norm_num [capitalTen, insertionLib])

/-- C27, the claim as stated fails: a 10 x 10 capital at `(0, 0)` is followed
by a symbol of height 4 with the same top; the midpoint 2 of that symbol
deviates from `first_line_y = 10` by 8, more than half the capital height 5,
and `_fillLabelInfo` finds no second line: `multi_begin` keeps the value -1 it
had before the call. -/
theorem fillLabelInfo_no_line_above :
    insertionLib.sort _segmentsComparator superscriptLabel.symbols
      = [⟨0, 0, 10, 10⟩, ⟨12, 0, 4, 4⟩] ∧
    ((10 : Int) : ℚ) > capitalTen._cap_height_error * 0.5 * capitalTen._cap_height ∧
    insertionLib.round (((0 : Int) : ℚ) + 0.5 * ((4 : Int) : ℚ)) = 2 ∧
    |((2 : Int) : ℚ) - ((0 + 10 : Int) : ℚ)| > (capitalTen._cap_height : ℚ) / 2 ∧
    superscriptLabel.multi_begin = -1 ∧
    _fillLabelInfo insertionLib capitalTen superscriptLabel
      = some ⟨⟨0, 0, 16, 4⟩, [⟨0, 0, 10, 10⟩, ⟨12, 0, 4, 4⟩], 10, -1, -1⟩ := by
  refine ⟨by decide, by norm_num [capitalTen], by norm_num [insertionLib],
    by norm_num [capitalTen, abs_lt], rfl, ?_⟩
  norm_num [_fillLabelInfo, insertionLib, capitalTen, superscriptLabel, scanLines,
    _segmentsComparator, _segmentsCompareX, List.insertionSort, List.orderedInsert,
    secondLineY]

end LabelCombiner

end imago

namespace imago

namespace LabelCombiner

section Capital

variable {α : Type} [LinearOrderedField α]

/-! ### `_findCapitalHeight` and the constructor -/

/-- A symbol that is not recognised as a character of `upper` leaves
`(min_d, cap_height)` as it is. -/
theorem capitalStep_not_upper (cr : CapitalRecognizer α) (mean_height : Int) (st : α × Int)
    (seg : Segment)
    (h : ∀ c d, cr.recognize seg = some (c, d) → c ∉ CharacterRecognizer.upper) :
    capitalStep cr mean_height st seg = st := by
  unfold capitalStep
  cases hr : cr.recognize seg with
  | none => rfl
  | some cd =>
    obtain ⟨c, d⟩ := cd
    simp only [if_neg (h c d hr)]

/-- One pass of the loop either leaves `(min_d, cap_height)` as it is, or
takes the distance and the height of a symbol recognised as a character of
`upper` at a distance below `min_d`, which is at or above the mean height or
passes the test `d < 3.0 && c != 'O'`. -/
theorem capitalStep_cases (cr : CapitalRecognizer α) (mean_height : Int) (st : α × Int)
    (seg : Segment) :
    capitalStep cr mean_height st seg = st ∨
    ∃ c d, cr.recognize seg = some (c, d) ∧ c ∈ CharacterRecognizer.upper ∧ d < st.1 ∧
      (seg.height ≥ mean_height ∨ (d < 3.0 ∧ c ≠ 'O')) ∧
      capitalStep cr mean_height st seg = (d, seg.height) := by
  unfold capitalStep
  cases hr : cr.recognize seg with
  | none => exact Or.inl rfl
  | some cd =>
    obtain ⟨c, d⟩ := cd
    dsimp only
    split_ifs with h1 h2 h3
    · exact Or.inr ⟨c, d, rfl, h1, h2.1, Or.inl h2.2, rfl⟩
    · exact Or.inr ⟨c, d, rfl, h1, h3.1, Or.inr h3.2.2, rfl⟩
    · exact Or.inl rfl
    · exact Or.inl rfl

/-- C21, the claim fails on the code: on the empty layer `_findCapitalHeight`
reaches the statement `mean_height /= _symbols_layer.size()` of line 87 with
the size 0, a division by zero, and returns no value; no test for the empty
layer stands before it. -/
theorem findCapitalHeight_empty :
    ([] : List Segment).length = 0 ∧ meanHeight [] = none ∧
    _findCapitalHeight boxRecognizer [] = none ∧
    _findCapitalHeight boxRecognizer [] ≠ some (-1) :=
  ⟨rfl, rfl, rfl, by simp [_findCapitalHeight, meanHeight]⟩

/-- C22. On a non-empty layer in which no symbol is recognised as a character
of `upper`, the symbols whose recognition throws included,
`_findCapitalHeight` returns -1. -/
theorem findCapitalHeight_no_upper (cr : CapitalRecognizer α) (layer : List Segment)
    (hne : layer ≠ [])
    (hno : ∀ seg ∈ layer, ∀ c d, cr.recognize seg = some (c, d) →
      c ∉ CharacterRecognizer.upper) :
    _findCapitalHeight cr layer = some (-1) := by
  have hlen : layer.length ≠ 0 := fun h => hne (List.length_eq_zero.1 h)
  have hfold : ∀ (l : List Segment) (m : Int) (st : α × Int),
      (∀ seg ∈ l, ∀ c d, cr.recognize seg = some (c, d) → c ∉ CharacterRecognizer.upper) →
      l.foldl (capitalStep cr m) st = st := by
    intro l m
    induction l with
    | nil => intro st _; rfl
    | cons s l ih =>
      intro st h
      rw [List.foldl_cons, capitalStep_not_upper cr m st s (h s (List.mem_cons_self _ _))]
      exact ih st (fun seg hs => h seg (List.mem_cons_of_mem _ hs))
  simp only [_findCapitalHeight, meanHeight, if_neg hlen, Option.bind_eq_bind,
    Option.some_bind, hfold layer _ _ hno]

/-- C22, at a concrete input: a symbol recognised as `a` and a symbol whose
recognition throws. -/
theorem findCapitalHeight_no_upper_witness :
    boxRecognizer.recognize ⟨2, 1, 5, 10⟩ = some ('a', 1) ∧
    boxRecognizer.recognize ⟨0, 1, 0, 10⟩ = none ∧
    _findCapitalHeight boxRecognizer [⟨2, 1, 5, 10⟩, ⟨0, 1, 0, 10⟩] = some (-1) := by
  refine ⟨by norm_num [boxRecognizer], by norm_num [boxRecognizer],
    findCapitalHeight_no_upper boxRecognizer [⟨2, 1, 5, 10⟩, ⟨0, 1, 0, 10⟩] (by simp) ?_⟩
  intro seg hseg c d hr
  simp only [List.mem_cons, List.mem_singleton, List.not_mem_nil, or_false] at hseg
  rcases hseg with rfl | rfl
  · norm_num [boxRecognizer] at hr
    rw [← hr.1]
    decide
  · have hnone : boxRecognizer.recognize ⟨0, 1, 0, 10⟩ = none := by norm_num [boxRecognizer]
    rw [hnone] at hr
    exact absurd hr (by simp)

/-- C23, as the code has it. Let `mean` be the integer mean height of a
non-empty layer, and let no symbol that is recognised as a character of
`upper` and is lower than `mean` pass the test `d < 3.0 && c != 'O'` of line
109. If `best` is recognised as a character of `upper` at the distance
`d < DBL_MAX` and is at least `mean` high, every such symbol before `best` in
the layer has a larger distance and every such symbol after `best` has a
distance that is not smaller, then `_findCapitalHeight` returns the height of
`best`. -/
theorem findCapitalHeight_best (cr : CapitalRecognizer α) (layer : List Segment) (mean : Int)
    (hmean : meanHeight layer = some mean)
    (hfallback : ∀ seg ∈ layer, ∀ c d, cr.recognize seg = some (c, d) →
      c ∈ CharacterRecognizer.upper → seg.height < mean → ¬ (d < 3.0 ∧ c ≠ 'O'))
    (pre post : List Segment) (best : Segment) (c : Char) (d : α)
    (hlayer : layer = pre ++ best :: post)
    (hbest : cr.recognize best = some (c, d)) (hc : c ∈ CharacterRecognizer.upper)
    (hh : best.height ≥ mean) (hd : d < cr.DBL_MAX)
    (hpre : ∀ seg ∈ pre, ∀ c' d', cr.recognize seg = some (c', d') →
      c' ∈ CharacterRecognizer.upper → seg.height ≥ mean → d < d')
    (hpost : ∀ seg ∈ post, ∀ c' d', cr.recognize seg = some (c', d') →
      c' ∈ CharacterRecognizer.upper → seg.height ≥ mean → d ≤ d') :
    _findCapitalHeight cr layer = some best.height := by
  have hfb : ∀ seg ∈ layer, ∀ c' d' (st : α × Int), cr.recognize seg = some (c', d') →
      c' ∈ CharacterRecognizer.upper →
      (seg.height ≥ mean ∨ (d' < 3.0 ∧ c' ≠ 'O')) → seg.height ≥ mean := by
    intro seg hseg c' d' _ hr hc' hor
    rcases hor with h | h
    · exact h
    · by_contra hlt
      exact hfallback seg hseg c' d' hr hc' (not_le.1 hlt) h
  have hA : ∀ (l : List Segment) (st : α × Int), (∀ seg ∈ l, seg ∈ pre) → d < st.1 →
      d < (l.foldl (capitalStep cr mean) st).1 := by
    intro l
    induction l with
    | nil => intro st _ h; exact h
    | cons s l ih =>
      intro st hsub hst
      rw [List.foldl_cons]
      apply ih _ (fun seg hs => hsub seg (List.mem_cons_of_mem _ hs))
      have hs : s ∈ pre := hsub s (List.mem_cons_self _ _)
      rcases capitalStep_cases cr mean st s with h | ⟨c', d', hr, hc', -, hor, h⟩
      · rw [h]; exact hst
      · rw [h]
        exact hpre s hs c' d' hr hc'
          (hfb s (by rw [hlayer]; exact List.mem_append_left _ hs) c' d' st hr hc' hor)
  have hB : ∀ (l : List Segment), (∀ seg ∈ l, seg ∈ post) →
      l.foldl (capitalStep cr mean) (d, best.height) = (d, best.height) := by
    intro l
    induction l with
    | nil => intro _; rfl
    | cons s l ih =>
      intro hsub
      have hs : s ∈ post := hsub s (List.mem_cons_self _ _)
      rw [List.foldl_cons]
      rcases capitalStep_cases cr mean (d, best.height) s with h | ⟨c', d', hr, hc', hlt, hor, h⟩
      · rw [h]
        exact ih (fun seg hs => hsub seg (List.mem_cons_of_mem _ hs))
      · exfalso
        have hge := hpost s hs c' d' hr hc'
          (hfb s (by rw [hlayer]; exact List.mem_append_right _ (List.mem_cons_of_mem _ hs))
            c' d' (d, best.height) hr hc' hor)
        exact absurd hlt (not_lt.2 hge)
  have hstep : ∀ st : α × Int, d < st.1 →
      capitalStep cr mean st best = (d, best.height) := by
    intro st hst
    unfold capitalStep
    rw [hbest]
    simp only [if_pos hc, if_pos (show d < st.1 ∧ best.height ≥ mean from ⟨hst, hh⟩)]
  simp only [_findCapitalHeight, hmean, Option.bind_eq_bind, Option.some_bind]
  rw [hlayer, List.foldl_append, List.foldl_cons,
    hstep _ (hA pre _ (fun _ h => h) hd), hB post (fun _ h => h)]

/-- C23, at a concrete input: `A` of height 10 at distance 2 before `B` of
height 12 at distance 3 and a symbol of height 2 recognised as `a`. -/
theorem findCapitalHeight_best_witness :
    meanHeight [⟨0, 2, 5, 10⟩, ⟨1, 3, 5, 12⟩, ⟨2, 1, 5, 2⟩] = some 8 ∧
    _findCapitalHeight boxRecognizer [⟨0, 2, 5, 10⟩, ⟨1, 3, 5, 12⟩, ⟨2, 1, 5, 2⟩]
      = some 10 := by
  have hr0 : boxRecognizer.recognize ⟨0, 2, 5, 10⟩ = some ('A', 2) := by
    norm_num [boxRecognizer]
  have hr1 : boxRecognizer.recognize ⟨1, 3, 5, 12⟩ = some ('B', 3) := by
    norm_num [boxRecognizer]
  have hr2 : boxRecognizer.recognize ⟨2, 1, 5, 2⟩ = some ('a', 1) := by
    norm_num [boxRecognizer]
  refine ⟨by decide,
    findCapitalHeight_best boxRecognizer [⟨0, 2, 5, 10⟩, ⟨1, 3, 5, 12⟩, ⟨2, 1, 5, 2⟩] 8
      (by decide) ?_ [] [⟨1, 3, 5, 12⟩, ⟨2, 1, 5, 2⟩] ⟨0, 2, 5, 10⟩ 'A' 2 rfl hr0 (by decide)
      (by decide) (by norm_num [boxRecognizer]) (by simp) ?_⟩
  · intro seg hseg c d hr hc hlt
    simp only [List.mem_cons, List.mem_singleton, List.not_mem_nil, or_false] at hseg
    rcases hseg with rfl | rfl | rfl
    · exact absurd hlt (by decide)
    · exact absurd hlt (by decide)
    · rw [hr2] at hr
      simp only [Option.some.injEq, Prod.mk.injEq] at hr
      rw [← hr.1] at hc
      exact absurd hc (by decide)
  · intro seg hseg c' d' hr hc' _
    simp only [List.mem_cons, List.mem_singleton, List.not_mem_nil, or_false] at hseg
    rcases hseg with rfl | rfl
    · rw [hr1] at hr
      simp only [Option.some.injEq, Prod.mk.injEq] at hr
      rw [← hr.2]
      norm_num
    · rw [hr2] at hr
      simp only [Option.some.injEq, Prod.mk.injEq] at hr
      rw [← hr.1] at hc'
      exact absurd hc' (by decide)

/-- C23, the claim as stated fails: the layer holds `B` of height 4 at the
distance 1 and `A` of height 10 at the distance 2; the mean height is 7, so
`A` is the one symbol recognised as an uppercase character at or above the
mean. With `B` first, `B` passes the test of line 109 and `A` is then turned
down by `d < min_d`: the result is 4. With `A` first the result is 10. -/
theorem findCapitalHeight_fallback_wins :
    boxRecognizer.recognize ⟨1, 1, 5, 4⟩ = some ('B', 1) ∧
    boxRecognizer.recognize ⟨0, 2, 5, 10⟩ = some ('A', 2) ∧
    meanHeight [⟨1, 1, 5, 4⟩, ⟨0, 2, 5, 10⟩] = some 7 ∧
    meanHeight [⟨0, 2, 5, 10⟩, ⟨1, 1, 5, 4⟩] = some 7 ∧
    _findCapitalHeight boxRecognizer [⟨1, 1, 5, 4⟩, ⟨0, 2, 5, 10⟩] = some 4 ∧
    _findCapitalHeight boxRecognizer [⟨0, 2, 5, 10⟩, ⟨1, 1, 5, 4⟩] = some 10 := by
  refine ⟨by norm_num [boxRecognizer], by norm_num [boxRecognizer], by decide, by decide,
    ?_, ?_⟩
  · norm_num [_findCapitalHeight, meanHeight, toInt32, capitalStep, boxRecognizer,
      (by decide : 'A' ∈ CharacterRecognizer.upper),
      (by decide : 'B' ∈ CharacterRecognizer.upper), (by decide : ¬ 'A' = 'O'),
      (by decide : ¬ 'B' = 'O')]
  · norm_num [_findCapitalHeight, meanHeight, toInt32, capitalStep, boxRecognizer,
      (by decide : 'A' ∈ CharacterRecognizer.upper),
      (by decide : 'B' ∈ CharacterRecognizer.upper), (by decide : ¬ 'A' = 'O'),
      (by decide : ¬ 'B' = 'O')]

/-- C28, the claim fails on the code: the layer holds one symbol, recognised
as `a`, so `_findCapitalHeight` returns -1; the caller passes
`cap_height = 20`. The condition of line 55 reads the argument, which is not
-1: `_locateLabels` and `_fillLabelInfo` run with `_cap_height = -1` and
`_space = -1`, and `extractLabels` returns one label. -/
theorem construct_ignores_sentinel :
    _findCapitalHeight boxRecognizer [⟨2, 1, 5, 10⟩] = some (-1) ∧
    _locateLabels soloGraphLib freshLabel [⟨2, 1, 5, 10⟩]
      = some [{ freshLabel with symbols := [⟨2, 1, 5, 10⟩] }] ∧
    construct soloGraphLib insertionLib boxRecognizer 1 freshLabel [⟨2, 1, 5, 10⟩] 20
      = some (-1, [⟨⟨2, 1, 5, 10⟩, [⟨2, 1, 5, 10⟩], 11, -1, -1⟩]) ∧
    (construct soloGraphLib insertionLib boxRecognizer 1 freshLabel [⟨2, 1, 5, 10⟩] 20).map
      extractLabels = some [⟨⟨2, 1, 5, 10⟩, [⟨2, 1, 5, 10⟩], 11, -1, -1⟩] := by
  have h1 : _findCapitalHeight boxRecognizer [⟨2, 1, 5, 10⟩] = some (-1) := by
    norm_num [_findCapitalHeight, meanHeight, toInt32, capitalStep, boxRecognizer,
      (by decide : 'a' ∉ CharacterRecognizer.upper)]
  have h2 : _locateLabels soloGraphLib freshLabel [⟨2, 1, 5, 10⟩]
      = some [{ freshLabel with symbols := [⟨2, 1, 5, 10⟩] }] := by
    decide
  have h3 : fillAll insertionLib ⟨-1, 1, (-1 : Int) >>> (1 : Nat)⟩
      [{ freshLabel with symbols := [⟨2, 1, 5, 10⟩] }]
      = some [⟨⟨2, 1, 5, 10⟩, [⟨2, 1, 5, 10⟩], 11, -1, -1⟩] := by
    norm_num [fillAll, _fillLabelInfo, insertionLib, freshLabel, scanLines,
      _segmentsComparator, _segmentsCompareX, List.insertionSort, List.orderedInsert,
      secondLineY]
  have h4 : construct soloGraphLib insertionLib boxRecognizer 1 freshLabel [⟨2, 1, 5, 10⟩] 20
      = some (-1, [⟨⟨2, 1, 5, 10⟩, [⟨2, 1, 5, 10⟩], 11, -1, -1⟩]) := by
    simp only [construct, h1, h2, Option.bind_eq_bind, Option.some_bind]
    rw [if_pos (by decide), h3]
    rfl
  exact ⟨h1, h2, h4, by rw [h4]; rfl⟩

end Capital

end LabelCombiner

end imago

namespace gga

namespace Histogram

section Start

variable {α : Type} [LinearOrderedField α]

/-! ### `startIndexes` on the histograms that can be reached -/

theorem add_WF (h : Histogram α) (hwf : h.WF) (index : Nat) (value : α) :
    (h.add index value).WF :=
  ⟨insertIndex_sorted index value h.Data hwf.1, insertIndex_nonempty index value h.Data hwf.2⟩

theorem addAll_WF (h : Histogram α) (hwf : h.WF) (value : α) (idxs : List Nat) :
    (h.addAll value idxs).WF := by
  induction idxs generalizing h with
  | nil => simpa [addAll] using hwf
  | cons i idxs ih =>
    have h1 : h.addAll value (i :: idxs) = (h.add i value).addAll value idxs := by
      simp [addAll]
    rw [h1]
    exact ih _ (add_WF h hwf i value)

theorem regroupRec_WF (Delta : α) (fuel : Nat) (rem : List (α × List Nat))
    (r x : Histogram α) (hr : r.WF) (hx : regroupRec Delta fuel rem r = some x) : x.WF := by
  induction fuel generalizing rem r with
  | zero => simp [regroupRec] at hx
  | succ fuel ih =>
    cases rem with
    | nil =>
      simp only [regroupRec, Option.some.injEq] at hx
      subst hx
      exact hr
    | cons first rest =>
      rw [regroupRec_cons] at hx
      exact ih _ _ (addAll_WF r hr _ _) hx

theorem foldl_addAll_WF (P : (α × List Nat) → Prop) [DecidablePred P] (l : List (α × List Nat))
    (r : Histogram α) (hr : r.WF) :
    (l.foldl (fun (r : Histogram α) it => if P it then r.addAll it.1 it.2 else r) r).WF := by
  induction l generalizing r with
  | nil => exact hr
  | cons e l ih =>
    rw [List.foldl_cons]
    split_ifs
    · exact ih _ (addAll_WF r hr _ _)
    · exact ih _ hr

theorem empty_WF : (⟨[]⟩ : Histogram α).WF := ⟨List.Pairwise.nil, by simp⟩

/-- A histogram that can be reached meets the invariant: ascending values and
no empty group. -/
theorem Reachable.WF {h : Histogram α} (hr : Reachable h) : h.WF := by
  induction hr with
  | new => exact empty_WF
  | add h index value _ ih => exact add_WF h ih index value
  | regroup h r Delta fuel _ _ hreg _ =>
    cases fuel with
    | zero =>
      unfold Histogram.regroup at hreg
      split_ifs at hreg with he
      · rw [← Option.some.inj hreg]
        exact empty_WF
      · simp [regroupLoop] at hreg
    | succ fuel =>
      rw [regroup_eq] at hreg
      exact regroupRec_WF Delta _ _ _ r empty_WF hreg
  | onlyRepresentative h _ _ =>
    unfold Histogram.onlyRepresentative
    split_ifs
    · exact empty_WF
    · exact foldl_addAll_WF _ _ _ empty_WF

theorem startIndexesFrom_eq (D : List (α × List Nat)) (hne : ∀ g ∈ D, g.2 ≠ []) :
    ∃ l, startIndexesFrom D = some l ∧ l.map some = D.map (fun it => it.2.head?) ∧
      l.length = D.length := by
  induction D with
  | nil => exact ⟨[], rfl, rfl, rfl⟩
  | cons e D ih =>
    obtain ⟨l, hl, hmap, hlen⟩ := ih (fun g hg => hne g (List.mem_cons_of_mem _ hg))
    have he := hne e (List.mem_cons_self _ _)
    obtain ⟨i, is, his⟩ : ∃ i is, e.2 = i :: is := by
      cases hes : e.2 with
      | nil => exact absurd hes he
      | cons i is => exact ⟨i, is, rfl⟩
    refine ⟨i :: l, ?_, ?_, ?_⟩
    · simp [startIndexesFrom, his, hl]
    · simp [his, hmap]
    · simp [hlen]

/-- C34. A histogram that is reached from the new histogram by `add`,
`regroup` with `Delta > 0` and `onlyRepresentative` has no empty group and
ascending group values; `startIndexes()` returns on it, and the vector it
returns holds `groups()` indices: entry by entry the first index of each
group, in the order of the groups. -/
theorem startIndexes_reachable (h : Histogram α) (hr : Reachable h) :
    (∀ g ∈ h.Data, g.2 ≠ []) ∧ h.Data.Pairwise (fun a b => a.1 < b.1) ∧
    ∃ l, h.startIndexes = some l ∧ l.length = h.groups ∧
      l.map some = h.Data.map (fun it => it.2.head?) := by
  have hwf := Reachable.WF hr
  obtain ⟨l, hl, hmap, hlen⟩ := startIndexesFrom_eq h.Data hwf.2
  exact ⟨hwf.2, hwf.1, l, hl, hlen, hmap⟩

/-- C34, at a concrete input: `add(4, 2)`, `add(7, 1)`, `add(9, 2)` and then
`onlyRepresentative()`, which keeps both groups. -/
theorem startIndexes_reachable_witness :
    ((((⟨[]⟩ : Histogram ℚ).add 4 2).add 7 1).add 9 2).onlyRepresentative
      = ⟨[(1, [7]), (2, [4, 9])]⟩ ∧
    (⟨[(1, [7]), (2, [4, 9])]⟩ : Histogram ℚ).startIndexes = some [7, 4] ∧
    ∃ l, ((((⟨[]⟩ : Histogram ℚ).add 4 2).add 7 1).add 9 2).onlyRepresentative.startIndexes
        = some l ∧
      l.length = ((((⟨[]⟩ : Histogram ℚ).add 4 2).add 7 1).add 9 2).onlyRepresentative.groups := by
  refine ⟨?_, rfl, ?_⟩
  · norm_num [Histogram.onlyRepresentative, Histogram.empty, Histogram.groups, add, addAll,
      insertIndex]
  · obtain ⟨-, -, l, h1, h2, -⟩ := startIndexes_reachable _
      (Reachable.onlyRepresentative _
        (Reachable.add _ 9 2 (Reachable.add _ 7 1 (Reachable.add _ 4 (2 : ℚ) Reachable.new))))
    exact ⟨l, h1, h2⟩

end Start

end Histogram

end gga

namespace imago

namespace LabelCombiner

section CapitalResult

variable {α : Type} [LinearOrderedField α]

/-! ### The value that `_findCapitalHeight` returns -/

/-- The loop of `_findCapitalHeight` keeps `cap_height` at its start value or
at the height of a symbol of the layer that is recognised as a character of
`upper` and is at least `mean_height` high or passes the test of line 109. -/
theorem foldl_capitalStep_inv (cr : CapitalRecognizer α) (mean_height : Int)
    (whole l : List Segment) (hsub : ∀ seg ∈ l, seg ∈ whole) (st : α × Int)
    (hst : st.2 = -1 ∨ ∃ seg ∈ whole, ∃ c d, cr.recognize seg = some (c, d) ∧
      c ∈ CharacterRecognizer.upper ∧ st.2 = seg.height ∧
      (seg.height ≥ mean_height ∨ (d < 3.0 ∧ c ≠ 'O'))) :
    (l.foldl (capitalStep cr mean_height) st).2 = -1 ∨
    ∃ seg ∈ whole, ∃ c d, cr.recognize seg = some (c, d) ∧
      c ∈ CharacterRecognizer.upper ∧
      (l.foldl (capitalStep cr mean_height) st).2 = seg.height ∧
      (seg.height ≥ mean_height ∨ (d < 3.0 ∧ c ≠ 'O')) := by
  induction l generalizing st with
  | nil => exact hst
  | cons s l ih =>
    rw [List.foldl_cons]
    apply ih (fun seg hs => hsub seg (List.mem_cons_of_mem _ hs))
    rcases capitalStep_cases cr mean_height st s with h | ⟨c, d, hr, hc, -, hor, h⟩
    · rw [h]
      exact hst
    · rw [h]
      exact Or.inr ⟨s, hsub s (List.mem_cons_self _ _), c, d, hr, hc, rfl, hor⟩

/-- C33. On a non-empty layer `_findCapitalHeight` returns, with the integer
mean height `mean`, either -1 or the height of a symbol of the layer that is
recognised as a character `c` of `upper` at a distance `d`; that symbol is at
least `mean` high, or `d < 3.0` and `c` is not `O`. -/
theorem findCapitalHeight_result (cr : CapitalRecognizer α) (layer : List Segment)
    (hne : layer ≠ []) :
    ∃ mean r, meanHeight layer = some mean ∧ _findCapitalHeight cr layer = some r ∧
      (r = -1 ∨ ∃ seg ∈ layer, ∃ c d, cr.recognize seg = some (c, d) ∧
        c ∈ CharacterRecognizer.upper ∧ r = seg.height ∧
        (seg.height ≥ mean ∨ (d < 3.0 ∧ c ≠ 'O'))) := by
  have hlen : layer.length ≠ 0 := fun h => hne (List.length_eq_zero.1 h)
  obtain ⟨mean, hmean⟩ : ∃ mean, meanHeight layer = some mean := by
    unfold meanHeight
    rw [if_neg hlen]
    exact ⟨_, rfl⟩
  refine ⟨mean, (layer.foldl (capitalStep cr mean) (cr.DBL_MAX, -1)).2, hmean, ?_, ?_⟩
  · simp only [_findCapitalHeight, hmean, Option.bind_eq_bind, Option.some_bind]
  · exact foldl_capitalStep_inv cr mean layer layer (fun _ h => h) _ (Or.inl rfl)

/-- C33, at a concrete input: `B` of height 4 at the distance 1, below the
mean height 7, before `A` of height 10 at the distance 2. -/
theorem findCapitalHeight_result_witness :
    _findCapitalHeight boxRecognizer [⟨1, 1, 5, 4⟩, ⟨0, 2, 5, 10⟩] = some 4 ∧
    ∃ mean r, meanHeight [⟨1, 1, 5, 4⟩, ⟨0, 2, 5, 10⟩] = some mean ∧
      _findCapitalHeight boxRecognizer [⟨1, 1, 5, 4⟩, ⟨0, 2, 5, 10⟩] = some r ∧
      (r = -1 ∨ ∃ seg ∈ [(⟨1, 1, 5, 4⟩ : Segment), ⟨0, 2, 5, 10⟩], ∃ c d,
        boxRecognizer.recognize seg = some (c, d) ∧
        c ∈ CharacterRecognizer.upper ∧ r = seg.height ∧
        (seg.height ≥ mean ∨ (d < 3.0 ∧ c ≠ 'O'))) :=
  ⟨by norm_num [_findCapitalHeight, meanHeight, toInt32, capitalStep, boxRecognizer,
      (by decide : 'A' ∈ CharacterRecognizer.upper),
      (by decide : 'B' ∈ CharacterRecognizer.upper), (by decide : ¬ 'A' = 'O'),
      (by decide : ¬ 'B' = 'O')],
    findCapitalHeight_result boxRecognizer [⟨1, 1, 5, 4⟩, ⟨0, 2, 5, 10⟩] (by simp)⟩

end CapitalResult

/-! ### The edge test is not symmetric -/

/-- C35. For a 2 x 12 glyph at `(0, 0)` and a 14 x 12 glyph at `(10, 0)`, with
a gap of 8 between them, the edge from the narrow glyph to the wide one is
kept, its tolerance being `(2 + 2 * 14) / 3 = 10`, and the edge from the wide
glyph to the narrow one is removed, its tolerance being
`(14 + 2 * 2) / 3 = 6`. -/
theorem edgeTest_not_symmetric :
    edgeTest (boxCenter ⟨0, 0, 2, 12⟩) (boxCenter ⟨10, 0, 14, 12⟩) ⟨0, 0, 2, 12⟩
      ⟨10, 0, 14, 12⟩ (boxCenter ⟨0, 0, 2, 12⟩) (boxCenter ⟨10, 0, 14, 12⟩) = some true ∧
    edgeTest (boxCenter ⟨10, 0, 14, 12⟩) (boxCenter ⟨0, 0, 2, 12⟩) ⟨10, 0, 14, 12⟩
      ⟨0, 0, 2, 12⟩ (boxCenter ⟨10, 0, 14, 12⟩) (boxCenter ⟨0, 0, 2, 12⟩) = some false ∧
    keepEdge pairGraphLib (pairGraphLib.build [⟨0, 0, 2, 12⟩, ⟨10, 0, 14, 12⟩]) (0, 1)
      = some true ∧
    keepEdge pairGraphLib (pairGraphLib.build [⟨0, 0, 2, 12⟩, ⟨10, 0, 14, 12⟩]) (1, 0)
      = some false ∧
    (((2 : Int) : ℚ) + 2 * ((14 : Int) : ℚ)) / 3 = 10 ∧
    (((14 : Int) : ℚ) + 2 * ((2 : Int) : ℚ)) / 3 = 6 := by
  have h1 : edgeTest (boxCenter ⟨0, 0, 2, 12⟩) (boxCenter ⟨10, 0, 14, 12⟩) ⟨0, 0, 2, 12⟩
      ⟨10, 0, 14, 12⟩ (boxCenter ⟨0, 0, 2, 12⟩) (boxCenter ⟨10, 0, 14, 12⟩) = some true := by
    norm_num [edgeTest, boxCenter, abs_lt]
  have h2 : edgeTest (boxCenter ⟨10, 0, 14, 12⟩) (boxCenter ⟨0, 0, 2, 12⟩) ⟨10, 0, 14, 12⟩
      ⟨0, 0, 2, 12⟩ (boxCenter ⟨10, 0, 14, 12⟩) (boxCenter ⟨0, 0, 2, 12⟩) = some false := by
    norm_num [edgeTest, boxCenter, abs_lt]
  refine ⟨h1, h2, ?_, ?_, by norm_num, by norm_num⟩
  · simp only [keepEdge, pairGraphLib, List.map_cons, List.map_nil, List.getElem?_cons_zero,
      List.getElem?_cons_succ, Option.bind_eq_bind, Option.some_bind]
    exact h1
  · simp only [keepEdge, pairGraphLib, List.map_cons, List.map_nil, List.getElem?_cons_zero,
      List.getElem?_cons_succ, Option.bind_eq_bind, Option.some_bind]
    exact h2

end LabelCombiner

end imago

namespace imago

namespace CharacterRecognizerImp

section SingleSum

variable {α : Type} [LinearOrderedCommRing α]

/-! ### `compareImages` is one sum -/

/-- A loop that runs the same body `g` at least once, for a `g` that changes
nothing when run twice, leaves what one run of `g` leaves. -/
theorem foldl_same_body {β γ : Type} (g : β → β) (hg : ∀ b, g (g b) = g b) (l : List γ)
    (hl : l ≠ []) (b : β) : l.foldl (fun best _ => g best) b = g b := by
  cases l with
  | nil => exact absurd rfl hl
  | cons x l =>
    rw [List.foldl_cons]
    clear hl
    induction l with
    | nil => rfl
    | cons y l ih => rw [List.foldl_cons, hg]; exact ih

theorem shifts_ne_nil (c : Constants α) : shifts c ≠ [] := by
  unfold shifts
  rw [List.range_succ]
  simp

/-- The sum of lines 257-273 is the sum over the pixels of the penalty read
at `(y + PENALTY_SHIFT, x + PENALTY_SHIFT)`. -/
theorem pixelSum_eq_shiftedSum (c : Constants α) (img : Mat Nat) (ink white : Mat α) :
    pixelSum c img ink white = shiftedSum img ink white c.PENALTY_SHIFT c.PENALTY_SHIFT := by
  unfold pixelSum shiftedSum
  have hinner : ∀ (y : Nat) (result : α),
      (List.range img.rows).foldl
        (fun result x =>
          if img.get y x = 0
          then result + ink.get (y + c.PENALTY_SHIFT) (x + c.PENALTY_SHIFT)
          else result + white.get (y + c.PENALTY_SHIFT) (x + c.PENALTY_SHIFT))
        result
      = result + ((List.range img.rows).map (fun x =>
          if img.get y x = 0 then ink.get (y + c.PENALTY_SHIFT) (x + c.PENALTY_SHIFT)
          else white.get (y + c.PENALTY_SHIFT) (x + c.PENALTY_SHIFT))).sum := by
    intro y result
    rw [← gga.Histogram.foldl_add_eq_sum]
    congr 1
    funext r x
    split_ifs <;> rfl
  simp only [hinner]
  rw [gga.Histogram.foldl_add_eq_sum, zero_add]

/-- With a positive `PENALTY_STEP`, `compareImages` returns the lesser of the
one sum and `DIST_INF`. -/
theorem compareImages_eq (c : Constants α) (hstep : 0 < c.PENALTY_STEP) (img : Mat Nat)
    (ink white : Mat α) :
    compareImages c img ink white
      = some (if pixelSum c img ink white < c.DIST_INF then pixelSum c img ink white
          else c.DIST_INF) := by
  unfold compareImages
  rw [if_neg (by omega)]
  congr 1
  have hg : ∀ b : α,
      (fun best : α => if pixelSum c img ink white < best then pixelSum c img ink white
        else best)
        ((fun best : α => if pixelSum c img ink white < best then pixelSum c img ink white
          else best) b)
      = (fun best : α => if pixelSum c img ink white < best then pixelSum c img ink white
          else best) b := by
    intro b
    dsimp only
    by_cases h : pixelSum c img ink white < b
    · simp [h]
    · simp [h]
  have hinner : ∀ b : α,
      (shifts c).foldl
        (fun best _shift_y =>
          if pixelSum c img ink white < best then pixelSum c img ink white else best) b
      = (if pixelSum c img ink white < b then pixelSum c img ink white else b) :=
    fun b => foldl_same_body _ hg (shifts c) (shifts_ne_nil c) b
  simp only [hinner]

/-- C31. With `PENALTY_STEP > 0` and a pixel sum below `DIST_INF`,
`compareImages` returns the one sum, over the pixels `(x, y)` of the image, of
the penalty read at `(y + PENALTY_SHIFT, x + PENALTY_SHIFT)`, from the ink map
for an ink pixel and from the white map otherwise; and it returns the same for
every other positive `PENALTY_STEP`. -/
theorem compareImages_single_sum (c : Constants α) (hstep : 0 < c.PENALTY_STEP)
    (img : Mat Nat) (ink white : Mat α)
    (hsum : shiftedSum img ink white c.PENALTY_SHIFT c.PENALTY_SHIFT < c.DIST_INF) :
    compareImages c img ink white
      = some (shiftedSum img ink white c.PENALTY_SHIFT c.PENALTY_SHIFT) ∧
    ∀ step, 0 < step →
      compareImages { c with PENALTY_STEP := step } img ink white
        = compareImages c img ink white := by
  have hp := pixelSum_eq_shiftedSum c img ink white
  have h1 : compareImages c img ink white
      = some (shiftedSum img ink white c.PENALTY_SHIFT c.PENALTY_SHIFT) := by
    rw [compareImages_eq c hstep, hp, if_pos hsum]
  refine ⟨h1, fun step hs => ?_⟩
  rw [h1, compareImages_eq { c with PENALTY_STEP := step } hs]
  have hp' : pixelSum { c with PENALTY_STEP := step } img ink white
      = shiftedSum img ink white c.PENALTY_SHIFT c.PENALTY_SHIFT :=
    pixelSum_eq_shiftedSum { c with PENALTY_STEP := step } img ink white
  rw [hp']
  exact congrArg some (if_pos hsum)

/-- C31, at a concrete input: the 3 x 3 input and the maps of the plus sign,
with the steps 1 and 2. -/
theorem compareImages_single_sum_witness :
    compareImages plusConstants plusInput plusInk plusWhite
      = some (shiftedSum plusInput plusInk plusWhite 1 1) ∧
    shiftedSum plusInput plusInk plusWhite 1 1 = 5 ∧
    compareImages { plusConstants with PENALTY_STEP := 2 } plusInput plusInk plusWhite
      = compareImages plusConstants plusInput plusInk plusWhite :=
  ⟨(compareImages_single_sum plusConstants (by decide) plusInput plusInk plusWhite
      (by decide)).1,
    by decide,
    (compareImages_single_sum plusConstants (by decide) plusInput plusInk plusWhite
      (by decide)).2 2 (by decide)⟩

end SingleSum

end CharacterRecognizerImp

end imago

namespace imago

/-! ### The distance stored for a character -/

theorem RecognitionDistance.mem_assign {α : Type} (m : RecognitionDistance α) (k : Char)
    (v : α) (p : Char × α) (h : p ∈ m.assign k v) : p = (k, v) ∨ p ∈ m := by
  induction m with
  | nil =>
    simp only [RecognitionDistance.assign, List.mem_singleton] at h
    exact Or.inl h
  | cons e rest ih =>
    obtain ⟨k', v'⟩ := e
    simp only [RecognitionDistance.assign] at h
    split_ifs at h with h1 h2
    · rcases List.mem_cons.1 h with h | h
      · exact Or.inl h
      · exact Or.inr h
    · rcases List.mem_cons.1 h with h | h
      · exact Or.inl h
      · exact Or.inr (List.mem_cons_of_mem _ h)
    · rcases List.mem_cons.1 h with h | h
      · exact Or.inr (h ▸ List.mem_cons_self _ _)
      · rcases ih h with h | h
        · exact Or.inl h
        · exact Or.inr (List.mem_cons_of_mem _ h)

theorem RecognitionDistance.mem_assign_self {α : Type} (m : RecognitionDistance α) (k : Char)
    (v : α) : (k, v) ∈ m.assign k v := by
  induction m with
  | nil => simp [RecognitionDistance.assign]
  | cons e rest ih =>
    obtain ⟨k', v'⟩ := e
    simp only [RecognitionDistance.assign]
    split_ifs with h1 h2
    · exact List.mem_cons_self _ _
    · exact List.mem_cons_self _ _
    · exact List.mem_cons_of_mem _ ih

/-- The assignment keeps the keys of the map in ascending order. -/
theorem RecognitionDistance.assign_sorted {α : Type} (m : RecognitionDistance α) (k : Char)
    (v : α) (hs : m.Pairwise (fun a b => a.1 < b.1)) :
    (m.assign k v).Pairwise (fun a b => a.1 < b.1) := by
  induction m with
  | nil => simp [RecognitionDistance.assign]
  | cons e rest ih =>
    obtain ⟨k', v'⟩ := e
    have hD := List.pairwise_cons.1 hs
    simp only [RecognitionDistance.assign]
    split_ifs with h1 h2
    · refine List.pairwise_cons.2 ⟨fun p hp => ?_, hs⟩
      rcases List.mem_cons.1 hp with rfl | hp
      · exact h1
      · exact lt_trans h1 (hD.1 p hp)
    · subst h2
      exact List.pairwise_cons.2 ⟨hD.1, hD.2⟩
    · refine List.pairwise_cons.2 ⟨fun p hp => ?_, ih hD.2⟩
      have hk : k' < k := lt_of_le_of_ne (not_lt.1 h1) (fun h => h2 h.symm)
      rcases RecognitionDistance.mem_assign rest k v p hp with rfl | hp
      · exact hk
      · exact hD.1 p hp

/-- A map with ascending keys holds one value for a key. -/
theorem RecognitionDistance.value_unique {α : Type} (m : RecognitionDistance α)
    (hs : m.Pairwise (fun a b => a.1 < b.1)) (k : Char) (v w : α) (hv : (k, v) ∈ m)
    (hw : (k, w) ∈ m) : v = w := by
  induction m with
  | nil => simp at hv
  | cons e rest ih =>
    have hD := List.pairwise_cons.1 hs
    rcases List.mem_cons.1 hv with hv | hv <;> rcases List.mem_cons.1 hw with hw | hw
    · have := hv.trans hw.symm
      simpa using this
    · have := hD.1 _ hw
      rw [← hv] at this
      exact absurd this (lt_irrefl _)
    · have := hD.1 _ hv
      rw [← hw] at this
      exact absurd this (lt_irrefl _)
    · exact ih hD.2 hv hw

namespace CharacterRecognizerImp

section Least

variable {α : Type} [LinearOrderedField α]

/-- The loop of lines 437-444 over the numbers of `l` in descending order: the
map it builds has ascending keys, and the value stored for a character is
that of the entry with the least number in `l` that has the character as its
text. -/
theorem window_least (scale : α) (S : List (ResultEntry α)) (l : List Nat)
    (hl : l.Pairwise (fun a b => a < b)) :
    (l.reverse.foldl
      (fun (_result : RecognitionDistance α) u =>
        match S[u]? with
        | some entry =>
          match entry.text with
          | [ch] => _result.assign ch (entry.value / scale)
          | _ => _result
        | none => _result)
      []).Pairwise (fun a b => a.1 < b.1) ∧
    ∀ ch v, (ch, v) ∈ l.reverse.foldl
      (fun (_result : RecognitionDistance α) u =>
        match S[u]? with
        | some entry =>
          match entry.text with
          | [ch] => _result.assign ch (entry.value / scale)
          | _ => _result
        | none => _result)
      [] →
      ∃ i ∈ l, ∃ e, S[i]? = some e ∧ e.text = [ch] ∧ v = e.value / scale ∧
        ∀ j ∈ l, ∀ e', S[j]? = some e' → e'.text = [ch] → i ≤ j := by
  induction l with
  | nil => exact ⟨List.Pairwise.nil, by simp⟩
  | cons u l ih =>
    have hu := List.pairwise_cons.1 hl
    obtain ⟨ihs, ihm⟩ := ih hu.2
    rw [List.reverse_cons, List.foldl_append, List.foldl_cons, List.foldl_nil]
    have hold : ∀ ch v, (ch, v) ∈ l.reverse.foldl
        (fun (_result : RecognitionDistance α) u =>
          match S[u]? with
          | some entry =>
            match entry.text with
            | [ch] => _result.assign ch (entry.value / scale)
            | _ => _result
          | none => _result)
        [] →
        (∀ e', S[u]? = some e' → e'.text ≠ [ch]) →
        ∃ i ∈ u :: l, ∃ e, S[i]? = some e ∧ e.text = [ch] ∧ v = e.value / scale ∧
          ∀ j ∈ u :: l, ∀ e', S[j]? = some e' → e'.text = [ch] → i ≤ j := by
      intro ch v hmem hnot
      obtain ⟨i, hi, e, he, het, hv, hmin⟩ := ihm ch v hmem
      refine ⟨i, List.mem_cons_of_mem _ hi, e, he, het, hv, fun j hj e' he' het' => ?_⟩
      rcases List.mem_cons.1 hj with rfl | hj
      · exact absurd het' (hnot e' he')
      · exact hmin j hj e' he' het'
    split
    · next entry hSu =>
      split
      · next k htext =>
        refine ⟨RecognitionDistance.assign_sorted _ _ _ ihs, fun ch v hmem => ?_⟩
        by_cases hck : ch = k
        · subst hck
          have hv : v = entry.value / scale :=
            RecognitionDistance.value_unique _ (RecognitionDistance.assign_sorted _ _ _ ihs)
              ch _ _ hmem (RecognitionDistance.mem_assign_self _ _ _)
          refine ⟨u, List.mem_cons_self _ _, entry, hSu, htext, hv, fun j hj _ _ _ => ?_⟩
          rcases List.mem_cons.1 hj with rfl | hj
          · exact le_refl _
          · exact le_of_lt (hu.1 j hj)
        · rcases RecognitionDistance.mem_assign _ _ _ _ hmem with h | h
          · exact absurd (congrArg Prod.fst h) hck
          · refine hold ch v h (fun e' he' het' => ?_)
            rw [hSu] at he'
            rw [← Option.some.inj he', htext] at het'
            exact hck (List.cons.inj het').1.symm
      · next hshape =>
        refine ⟨ihs, fun ch v hmem => hold ch v hmem (fun e' he' het' => ?_)⟩
        rw [hSu] at he'
        rw [← Option.some.inj he'] at het'
        exact hshape ch het'
    · next hSu =>
      refine ⟨ihs, fun ch v hmem => hold ch v hmem (fun e' he' _ => ?_)⟩
      rw [hSu] at he'
      exact absurd he' (by simp)

/-- The value stored for a character is the value of an entry of `results`
with that text, divided by the scale factor, and no entry of `results` with
that text has a smaller value. -/
theorem topVariants_least (lib : RecognizerLib α) (vars : CharacterSettings α)
    (results : List (ResultEntry α)) (ch : Char) (v : α)
    (h : (ch, v) ∈ topVariants lib vars results) :
    ∃ e ∈ results, e.text = [ch] ∧ v = e.value / vars.DistanceScaleFactor ∧
      ∀ e' ∈ results, e'.text = [ch] → e.value ≤ e'.value := by
  unfold topVariants at h
  split_ifs at h with hempty
  · simp at h
  · unfold lookupIndices at h
    obtain ⟨i, hi, e, he, het, hv, hmin⟩ :=
      (window_least vars.DistanceScaleFactor (lib.sort results) _
        (List.pairwise_lt_range _)).2 ch v h
    have hsorted := List.pairwise_iff_getElem.1 (lib.sort_sorted results)
    obtain ⟨hilt, hie⟩ := List.getElem?_eq_some.1 he
    refine ⟨e, (lib.sort_perm results).mem_iff.1 (List.mem_iff_getElem?.2 ⟨i, he⟩), het, hv,
      fun e' he' het' => ?_⟩
    obtain ⟨j, hjlt, hje⟩ := List.getElem_of_mem ((lib.sort_perm results).mem_iff.2 he')
    rcases lt_trichotomy i j with hij | hij | hij
    · have := hsorted i j hilt hjlt hij
      rw [hie, hje] at this
      exact not_lt.1 this
    · subst hij
      rw [← hie, ← hje]
    · exfalso
      have hjl : j ∈ List.range (min vars.MaxTopVariantsLookup
          (((lib.sort results).length : Int) - 1) + 1).toNat :=
        List.mem_range.2 (lt_trans hij (List.mem_range.1 hi))
      have := hmin j hjl e' (List.getElem?_eq_some.2 ⟨hjlt, hje⟩) het'
      omega

/-- With a positive `PENALTY_STEP` the vector `results` holds exactly one
entry for every template that passes the filter of line 412: its text with
its adjusted distance. -/
theorem scoreTemplates_entries (c : Constants α) (hstep : 0 < c.PENALTY_STEP) (img : Mat Nat)
    (ratio : α) (candidates : List Char) (templates : List (MatchRecord α)) :
    ∃ results, scoreTemplates c img ratio candidates templates = some results ∧
      (∀ e ∈ results, ∃ t ∈ templates, (candidates = [] ∨ t.text <:+: candidates) ∧
        ∃ d, compareImages c img t.penalty_ink t.penalty_white = some d ∧
          e = ⟨adjustDistance d |ratio - t.wh_ratio|, t.text⟩) ∧
      (∀ t ∈ templates, (candidates = [] ∨ t.text <:+: candidates) →
        ∀ d, compareImages c img t.penalty_ink t.penalty_white = some d →
          (⟨adjustDistance d |ratio - t.wh_ratio|, t.text⟩ : ResultEntry α) ∈ results) := by
  induction templates with
  | nil => exact ⟨[], rfl, by simp, by simp⟩
  | cons t ts ih =>
    obtain ⟨rest, hrest, h1, h2⟩ := ih
    unfold scoreTemplates
    split_ifs with hskip
    · refine ⟨rest, hrest, fun e he => ?_, fun t' ht' hp d hd => ?_⟩
      · obtain ⟨t', ht', h⟩ := h1 e he
        exact ⟨t', List.mem_cons_of_mem _ ht', h⟩
      · rcases List.mem_cons.1 ht' with rfl | ht'
        · exfalso
          rcases hp with hp | hp
          · exact hskip.1 hp
          · exact hskip.2 hp
        · exact h2 t' ht' hp d hd
    · obtain ⟨d, hd⟩ := compareImages_isSome c hstep img t.penalty_ink t.penalty_white
      have hpass : candidates = [] ∨ t.text <:+: candidates := by
        by_cases hc : candidates = []
        · exact Or.inl hc
        · right
          by_contra hn
          exact hskip ⟨hc, hn⟩
      refine ⟨⟨adjustDistance d |ratio - t.wh_ratio|, t.text⟩ :: rest, ?_, fun e he => ?_,
        fun t' ht' hp d' hd' => ?_⟩
      · simp [hd, hrest]
      · rcases List.mem_cons.1 he with rfl | he
        · exact ⟨t, List.mem_cons_self _ _, hpass, d, hd, rfl⟩
        · obtain ⟨t', ht', h⟩ := h1 e he
          exact ⟨t', List.mem_cons_of_mem _ ht', h⟩
      · rcases List.mem_cons.1 ht' with rfl | ht'
        · rw [hd] at hd'
          rw [← Option.some.inj hd']
          exact List.mem_cons_self _ _
        · exact List.mem_cons_of_mem _ (h2 t' ht' hp d' hd')

/-- C32. With a positive `PENALTY_STEP`, `recognizeMat` returns a mapping, and
for every character `ch` stored in it with the distance `v` there is a
template with the text `ch` that passes the candidate filter and whose
adjusted distance, divided by `DistanceScaleFactor`, is `v`; no template with
the text `ch` that passes the filter has a smaller adjusted distance. -/
theorem recognizeMat_least_distance (c : Constants α) (hstep : 0 < c.PENALTY_STEP)
    (lib : RecognizerLib α) (vars : CharacterSettings α) (rect : Mat Nat)
    (candidates : List Char) (templates : List (MatchRecord α)) :
    ∃ r, recognizeMat c lib vars rect candidates templates = some r ∧
      ∀ ch v, (ch, v) ∈ r →
        ∃ t ∈ templates, t.text = [ch] ∧ (candidates = [] ∨ t.text <:+: candidates) ∧
          ∃ d, compareImages c (lib.prepareImage rect).1 t.penalty_ink t.penalty_white
              = some d ∧
            v = adjustDistance d |(lib.prepareImage rect).2 - t.wh_ratio|
              / vars.DistanceScaleFactor ∧
            ∀ t' ∈ templates, t'.text = [ch] →
              (candidates = [] ∨ t'.text <:+: candidates) →
              ∀ d', compareImages c (lib.prepareImage rect).1 t'.penalty_ink t'.penalty_white
                  = some d' →
                adjustDistance d |(lib.prepareImage rect).2 - t.wh_ratio|
                  ≤ adjustDistance d' |(lib.prepareImage rect).2 - t'.wh_ratio| := by
  obtain ⟨results, hres, h1, h2⟩ := scoreTemplates_entries c hstep (lib.prepareImage rect).1
    (lib.prepareImage rect).2 candidates templates
  refine ⟨topVariants lib vars results, by simp [recognizeMat, hres], fun ch v hmem => ?_⟩
  obtain ⟨e, he, het, hv, hmin⟩ := topVariants_least lib vars results ch v hmem
  obtain ⟨t, ht, hp, d, hd, hed⟩ := h1 e he
  rw [hed] at het hv hmin
  refine ⟨t, ht, het, hp, d, hd, hv, fun t' ht' htext' hp' d' hd' => ?_⟩
  exact hmin _ (h2 t' ht' hp' d' hd') htext'

/-- C32, at a concrete input: two templates with the text `A`, at the
distances 2 and 1, and one with the text `B` at the distance 3; the mapping
holds `A` at the distance 1. -/
theorem recognizeMat_least_distance_witness :
    0 < unitConstants.PENALTY_STEP ∧
    recognizeMat unitConstants plainLib topOne inkPixel [] twinTemplates
      = some [('A', 1)] ∧
    ∃ r, recognizeMat unitConstants plainLib topOne inkPixel [] twinTemplates = some r ∧
      ∀ ch v, (ch, v) ∈ r → ∃ t ∈ twinTemplates, t.text = [ch] := by
  refine ⟨by decide, ?_, ?_⟩
  · norm_num [recognizeMat, scoreTemplates, topVariants, lookupIndices, plainLib, topOne,
      twinTemplates, inkPixel, unitConstants, compareImages, shifts, pixelSum, adjustDistance,
      Mat.ofRows, RecognitionDistance.assign, List.range_succ, List.insertionSort,
      List.orderedInsert]
    decide
  · obtain ⟨r, hr, h⟩ := recognizeMat_least_distance unitConstants (by decide) plainLib topOne
      inkPixel [] twinTemplates
    refine ⟨r, hr, fun ch v hmem => ?_⟩
    obtain ⟨t, ht, htext, -⟩ := h ch v hmem
    exact ⟨t, ht, htext⟩

end Least

end CharacterRecognizerImp

end imago
